import Mathlib

/-! AtomSpace core: content hash, GrantLink identity, lock pool, Frame linkage.

A shallow embedding of the parts of

* `opencog/atoms/base/Atom.h` (`Atom::Atom`, `Atom::get_hash`, `MutexPool`, the incoming-set
  enumerators),
* `opencog/atoms/core/GrantLink.cc` (`GrantLink::operator==`, `GrantLink::compute_hash`),
* `opencog/atomspace/Frame.cc` (`Frame::init`, `Frame::install`, `Frame::remove`,
  `Frame::~Frame`, `Frame::scrub_incoming_set`),
* `opencog/atoms/parallel/PureExecLink.cc` (`PureExecLink::execute`)

together with theorems about them.

Conventions: `ContentHash` is an unsigned 64-bit integer, modelled by a natural number with an
explicit `% 2 ^ 64` wherever the C++ arithmetic can wrap.  Code that can fail (an exception, or
undefined behaviour such as indexing an empty vector or dereferencing `end()`) returns `Option`.
Declarations that `Handle.h` and the name server provide, and that are not part of the sources at
hand (`Handle::INVALID_HASH`, `nameserver().getTypeHash`, ...), are parameters.
-/

namespace opencog

/-! ## Basic types -/

/-- The C++ `ContentHash`: an unsigned 64-bit integer. -/
abbrev ContentHash := Nat

/-- The C++ `Type` of an atom (a small integer handed out by the name server). -/
abbrev AtomType := Nat

/-- A weak back-pointer `WinkPtr` (`std::weak_ptr<Atom>`), identified by the address of the
object it was made from. -/
abbrev WinkPtr := Nat

/-- The set `WincomingSet` is `std::set<WinkPtr, std::owner_less<WinkPtr>>`: it is kept as a
strictly increasing list. -/
abbrev WincomingSet := List WinkPtr

/-- The map `InSetMap` is `std::map<Type, WincomingSet>`: an association list in key order. -/
abbrev InSetMap := List (AtomType × WincomingSet)

/-- The flag `USE_ISET_FLAG = 0x08` of `enum AtomFlags`. -/
def USE_ISET_FLAG : Nat := 0x08

/-! ## `Atom` -/

/-- The members of `class Atom` that the code below reads or writes. -/
structure Atom where
  /-- The member `Value::_type`. -/
  _type : AtomType
  /-- The member `std::atomic<uint8_t> _flags`. -/
  _flags : Nat
  /-- The member `mutable ContentHash _content_hash`. -/
  _content_hash : ContentHash
  /-- The member `_incoming_set._iset`. -/
  _incoming_set : InSetMap
deriving DecidableEq, Repr

/-- The constructor `Atom::Atom(Type t)`: flags cleared, the hash set to `Handle::INVALID_HASH`,
an empty incoming set. -/
def Atom.ctor (INVALID_HASH : ContentHash) (t : AtomType) : Atom :=
  { _type := t, _flags := 0, _content_hash := INVALID_HASH, _incoming_set := [] }

/-- What one call of `get_hash()` does: the value returned, the atom afterwards (the member
`_content_hash` is `mutable`), and whether the call invoked `compute_hash()`. -/
structure HashCall where
  /-- The value returned. -/
  value : ContentHash
  /-- The atom after the call. -/
  atom : Atom
  /-- Whether `compute_hash()` was called. -/
  computed : Bool
deriving DecidableEq, Repr

/-- The method `Atom::get_hash()`.  The virtual `compute_hash()` is pure, so it is given by the
value it returns on this atom (`none` when it does not return). -/
def Atom.get_hash (INVALID_HASH : ContentHash) (compute_hash : Option ContentHash)
    (a : Atom) : Option HashCall :=
  if INVALID_HASH ≠ a._content_hash then
    some { value := a._content_hash, atom := a, computed := false }
  else
    match compute_hash with
    | none => none
    | some v => some { value := v, atom := { a with _content_hash := v }, computed := true }

/-- The result of the `(n+1)`-th of a run of successive `get_hash()` calls on `a`. -/
def Atom.get_hash_nth (INVALID_HASH : ContentHash) (compute_hash : Option ContentHash) :
    Nat → Atom → Option HashCall
  | 0, a => Atom.get_hash INVALID_HASH compute_hash a
  | n + 1, a =>
    match Atom.get_hash INVALID_HASH compute_hash a with
    | none => none
    | some r => Atom.get_hash_nth INVALID_HASH compute_hash n r.atom

/-- The cached hash of `a` is either unset or the value `v` of `compute_hash()`: the only two
values that `Atom::Atom` and `get_hash` ever store. -/
def Atom.HashCoherent (INVALID_HASH : ContentHash) (v : ContentHash) (a : Atom) : Prop :=
  a._content_hash = INVALID_HASH ∨ a._content_hash = v

/-! ## The mutex pool -/

/-- The constant `MutexPool::POOL_SIZE`. -/
def MutexPool.POOL_SIZE : Nat := 256

/-- The method `MutexPool::get_mutex(hsh)`: the index of the mutex in `mutexes`. -/
def MutexPool.get_mutex (hsh : ContentHash) : Nat := hsh % MutexPool.POOL_SIZE

/-- The macro `_MTX`, `_mutex_pool.get_mutex(_content_hash)`: the pool slot that the lock
macros `INCOMING_SHARED_LOCK`, `INCOMING_UNIQUE_LOCK`, `KVP_UNIQUE_LOCK`, `KVP_SHARED_LOCK`
of this atom take. -/
def Atom._MTX (a : Atom) : Nat := MutexPool.get_mutex a._content_hash

/-! ## `GrantLink` -/

/-- A `GrantLink` object: the `Atom` members, the address of the object (what `this` and
`&other` compare), and the member `Link::_outgoing`.  The atoms that the handles of the
outgoing set point to are of type `α`. -/
structure GrantLink (α : Type) extends Atom where
  /-- The address of the object. -/
  addr : Nat
  /-- The member `HandleSeq _outgoing`. -/
  _outgoing : List α

/-- What `GrantLink.cc` uses and does not define. -/
structure Env (α : Type) where
  /-- The constant `Handle::INVALID_HASH`. -/
  INVALID_HASH : ContentHash
  /-- The function `nameserver().getTypeHash(t)`: the hash of the name of type `t`. -/
  getTypeHash : AtomType → ContentHash
  /-- The value of `h->get_hash()` for an atom of an outgoing set. -/
  get_hash : α → ContentHash
  /-- The virtual `Atom::operator==` on the atoms of an outgoing set: `*a == *b`. -/
  atom_eq : α → α → Bool
  /-- The method `Link::is_closed()`, a function of the outgoing set. -/
  is_closed : List α → Bool
  /-- The method `Link::compute_hash()`, used for open grants. -/
  Link_compute_hash : GrantLink α → Option ContentHash
  /-- The method `Link::operator==`, used for open grants. -/
  Link_operator_eq : GrantLink α → GrantLink α → Option Bool

/-- The state in which the constructor `GrantLink::GrantLink(oset, t)` leaves the object it
builds at address `addr` (when `init()` does not throw). -/
def GrantLink.ctor {α : Type} (E : Env α) (addr : Nat) (oset : List α) (t : AtomType) :
    GrantLink α :=
  { toAtom := Atom.ctor E.INVALID_HASH t, addr := addr, _outgoing := oset }

/-- The bit mixing of `GrantLink::compute_hash()` for a closed grant, from the type hash `th`
and the hash `hh` of the first outgoing atom: everything before the last `if`. -/
def GrantLink.mix (th hh : ContentHash) : ContentHash :=
  -- ContentHash hsh = ((1ULL<<44) - 377) * nameserver().getTypeHash(get_type());
  let hsh := (((1 <<< 44) - 377) * th) % 2 ^ 64
  -- hsh += (hsh <<5) ^ (353 * h->get_hash());
  let hsh := (hsh + (((hsh <<< 5) % 2 ^ 64) ^^^ ((353 * hh) % 2 ^ 64))) % 2 ^ 64
  -- hsh ^= hsh >> 33;
  let hsh := hsh ^^^ (hsh >>> 33)
  -- hsh *= 0xff51afd7ed558ccdL;
  let hsh := (hsh * 0xff51afd7ed558ccd) % 2 ^ 64
  -- hsh ^= hsh >> 33;
  let hsh := hsh ^^^ (hsh >>> 33)
  -- hsh *= 0xc4ceb9fe1a85ec53L;
  let hsh := (hsh * 0xc4ceb9fe1a85ec53) % 2 ^ 64
  -- hsh ^= hsh >> 33;
  let hsh := hsh ^^^ (hsh >>> 33)
  -- ContentHash mask = ((ContentHash) 1ULL) << (8*sizeof(ContentHash) - 1);
  let mask := (1 <<< (8 * 8 - 1)) % 2 ^ 64
  -- hsh |= mask;
  hsh ||| mask

/-- The value that `GrantLink::compute_hash()` returns for a closed grant whose type has the
name hash `th` and whose first outgoing atom has the hash `hh`. -/
def GrantLink.closed_hash (INVALID_HASH th hh : ContentHash) : ContentHash :=
  let hsh := GrantLink.mix th hh
  -- if (Handle::INVALID_HASH == hsh) hsh -= 1;
  if INVALID_HASH = hsh then (hsh + 2 ^ 64 - 1) % 2 ^ 64 else hsh

/-- The method `GrantLink::compute_hash()`.  `_outgoing[0]` on an empty outgoing set has no
defined result. -/
def GrantLink.compute_hash {α : Type} (E : Env α) (g : GrantLink α) : Option ContentHash :=
  if ¬ E.is_closed g._outgoing then
    E.Link_compute_hash g
  else
    -- const Handle& h(_outgoing[0]);
    match g._outgoing with
    | [] => none
    | h :: _ => some (GrantLink.closed_hash E.INVALID_HASH (E.getTypeHash g._type) (E.get_hash h))

/-- The method `Atom::get_hash()` on a `GrantLink`, whose `compute_hash()` is
`GrantLink::compute_hash()`. -/
def GrantLink.get_hash {α : Type} (E : Env α) (g : GrantLink α) : Option HashCall :=
  Atom.get_hash E.INVALID_HASH (g.compute_hash E) g.toAtom

/-- The method `GrantLink::operator==(other)`, for `other` a `GrantLink` too. -/
def GrantLink.operator_eq {α : Type} (E : Env α) (this other : GrantLink α) : Option Bool :=
  if ¬ E.is_closed this._outgoing then
    E.Link_operator_eq this other
  -- If other points to this, then have equality.
  else if this.addr = other.addr then
    some true
  else
    -- Rule out obvious mis-matches, based on the hash.
    match this.get_hash E, other.get_hash E with
    | some h1, some h2 =>
      if h1.value ≠ h2.value then some false
      else if this._type ≠ other._type then some false
      else
        -- const Handle& rhs = other.getOutgoingAtom(0);
        match other._outgoing, this._outgoing with
        | rhs :: _, lhs :: _ =>
          -- if (*(_outgoing[0]) != *(rhs)) return false;
          if ! E.atom_eq lhs rhs then some false else some true
        | _, _ => none
    | _, _ => none

/-- The cached hash of a `GrantLink` is unset or is what `compute_hash()` returns. -/
def GrantLink.HashCoherent {α : Type} (E : Env α) (g : GrantLink α) : Prop :=
  g._content_hash = E.INVALID_HASH ∨ some g._content_hash = g.compute_hash E

/-! ### A small concrete instance, for evaluation -/

/-- An environment over atoms named by numbers: two atoms are content-equal when they have the
same number, the hash of an atom is its number, every outgoing set is closed, and
`Handle::INVALID_HASH` is the largest `ContentHash`. -/
def Env.sample : Env Nat :=
  { INVALID_HASH := 2 ^ 64 - 1
    getTypeHash := fun t => t
    get_hash := fun n => n
    atom_eq := fun a b => a == b
    is_closed := fun _ => true
    Link_compute_hash := fun _ => none
    Link_operator_eq := fun _ _ => none }

/-! ## The incoming set -/

/-- A `Handle`: a shared pointer to the atom at an address, or the null handle `none`. -/
abbrev Handle := Option Nat

/-- The call `std::set::insert` on a `WincomingSet`: the entry is put at its place in the order,
unless it is there already. -/
def WincomingSet.insert : WincomingSet → WinkPtr → WincomingSet
  | [], w => [w]
  | x :: xs, w =>
    if w = x then x :: xs
    else if w < x then w :: x :: xs
    else x :: WincomingSet.insert xs w

/-- The call `std::set::erase(key)` on a `WincomingSet`. -/
def WincomingSet.erase (ws : WincomingSet) (w : WinkPtr) : WincomingSet :=
  ws.filter (fun x => x ≠ w)

/-- The call `_iset.find(t)`: the bucket stored under `t`, `none` for `end()`. -/
def InSetMap.find : InSetMap → AtomType → Option WincomingSet
  | [], _ => none
  | (k, b) :: m, t => if k = t then some b else InSetMap.find m t

/-- Storing the bucket `ws` under the key `t`: in place when the key is there, else as a new
entry at its place in the key order (`emplace`). -/
def InSetMap.put : InSetMap → AtomType → WincomingSet → InSetMap
  | [], t, ws => [(t, ws)]
  | (k, b) :: m, t, ws =>
    if t = k then (k, ws) :: m
    else if t < k then (t, ws) :: (k, b) :: m
    else (k, b) :: InSetMap.put m t ws

/-- The keys of a `std::map` are strictly increasing. -/
def InSetMap.Sorted (m : InSetMap) : Prop :=
  m.Pairwise (fun x y => x.1 < y.1)

/-- Modelled from the spec: `Atom::insert_atom` is declared in `Atom.h` and defined in
`Atom.cc`, which is not among the sources.  The spec: "`insert_atom(link)` / `remove_atom(link)`:
register/unregister a weak back-reference, bucketed by the referencing link's type."  Here `ty`
is the type of the link and `w` the weak pointer made from its handle. -/
def Atom.insert_atom (a : Atom) (ty : AtomType) (w : WinkPtr) : Atom :=
  { a with
    _incoming_set :=
      a._incoming_set.put ty (WincomingSet.insert ((a._incoming_set.find ty).getD []) w) }

/-- Modelled from the spec: `Atom::remove_atom` is declared in `Atom.h` and defined in
`Atom.cc`, which is not among the sources.  The spec: "`insert_atom(link)` / `remove_atom(link)`:
register/unregister a weak back-reference, bucketed by the referencing link's type."  Here `ty`
is the type of the link and `w` the weak pointer made from its handle. -/
def Atom.remove_atom (a : Atom) (ty : AtomType) (w : WinkPtr) : Atom :=
  match a._incoming_set.find ty with
  | none => a
  | some b => { a with _incoming_set := a._incoming_set.put ty (WincomingSet.erase b w) }

/-- The call `w.lock()` of a weak pointer, given the number of owners of every object: the null
handle when the target has no owner left. -/
def WinkPtr.lock (use_count : Nat → Nat) (w : WinkPtr) : Handle :=
  if use_count w = 0 then none else some w

/-- The macro `WEAKLY_DO(h, w, { *result = h; result ++; })`: what it appends to the output.
`Handle h(w.lock()); if (h) { ... }`. -/
def WEAKLY_DO (use_count : Nat → Nat) (w : WinkPtr) : List Handle :=
  match WinkPtr.lock use_count w with
  | none => []
  | some x => [some x]

/-- The template `Atom::getIncomingIter(result)`: the handles written to `result`, in order. -/
def Atom.getIncomingIter (use_count : Nat → Nat) (a : Atom) : List Handle :=
  if a._flags &&& USE_ISET_FLAG = 0 then []
  else
    a._incoming_set.flatMap (fun bucket => bucket.2.flatMap (WEAKLY_DO use_count))

/-- The template `Atom::getIncomingSetByType(result, type)`: the handles written to `result`,
in order. -/
def Atom.getIncomingSetByType (use_count : Nat → Nat) (a : Atom) (type : AtomType) :
    List Handle :=
  if a._flags &&& USE_ISET_FLAG = 0 then []
  else
    match a._incoming_set.find type with
    | none => []
    | some bucket => bucket.flatMap (WEAKLY_DO use_count)

/-! ## Objects and `Frame` -/

/-- An atom object in memory: the `Atom` members, the outgoing set of a `Link`, and whether the
object is a `Frame` (whether `FrameCast` of a handle to it is non-null). -/
structure AtomObj extends Atom where
  /-- The member `HandleSeq _outgoing`. -/
  _outgoing : List Handle
  /-- Whether the class of the object is `Frame` or derives from it. -/
  is_frame : Bool
deriving DecidableEq, Repr

/-- The objects in memory, by address, and for every address the number of `shared_ptr`
owners of the object made there (`use_count()`); addresses are not reused. -/
structure Store where
  /-- The object at an address. -/
  obj : Nat → Option AtomObj
  /-- The number of owning handles. -/
  use_count : Nat → Nat

/-- The store with the `Atom` members of the object at `p` replaced. -/
def Store.setAtom (s : Store) (p : Nat) (o : AtomObj) (a : Atom) : Store :=
  { s with obj := fun q => if q = p then some { o with toAtom := a } else s.obj q }

/-- The call `get_handle()` on the object at `f`: `shared_from_this()` fails on an object that
no `shared_ptr` owns. -/
def Store.get_handle (s : Store) (f : Nat) : Option Handle :=
  match s.obj f with
  | none => none
  | some _ => if s.use_count f = 0 then none else some (some f)

/-- A call `h->step(a)` in a store, for `step` one of `insert_atom` and `remove_atom`: the
atom that `h` points to is updated with the type `a->get_type()` of the link and the weak
pointer made from `a`; `none` when `h` or `a` is null or dangling. -/
def Store.with_atom (step : Atom → AtomType → WinkPtr → Atom) (s : Store) (h : Handle)
    (a : Handle) : Option Store :=
  match h, a with
  | some p, some l =>
    match s.obj p, s.obj l with
    | some po, some lo => some (s.setAtom p po (step po.toAtom lo._type l))
    | _, _ => none
  | _, _ => none

/-- The call `h->insert_atom(a)` in a store. -/
def Store.insert_atom (s : Store) (h : Handle) (a : Handle) : Option Store :=
  Store.with_atom Atom.insert_atom s h a

/-- The call `h->remove_atom(a)` in a store. -/
def Store.remove_atom (s : Store) (h : Handle) (a : Handle) : Option Store :=
  Store.with_atom Atom.remove_atom s h a

/-- The loop `for (Handle& h : _outgoing) body(h)` over a store. -/
def Store.forOutgoing (body : Store → Handle → Option Store) :
    List Handle → Store → Option Store
  | [], s => some s
  | h :: hs, s =>
    match body s h with
    | none => none
    | some s' => Store.forOutgoing body hs s'

/-- The method `Frame::install()` on the frame at `f`. -/
def Frame.install (s : Store) (f : Nat) : Option Store :=
  match s.obj f, s.get_handle f with
  | some fo, some llc => Store.forOutgoing (fun s h => s.insert_atom h llc) fo._outgoing s
  | _, _ => none

/-- The method `Frame::remove()` on the frame at `f`. -/
def Frame.remove (s : Store) (f : Nat) : Option Store :=
  match s.obj f, s.get_handle f with
  | some fo, some lll => Store.forOutgoing (fun s h => s.remove_atom h lll) fo._outgoing s
  | _, _ => none

/-- The body of the loop `for (Type t : framet)` of `Frame::scrub_incoming_set()`, in the build
without sparsehash: every entry of the bucket of `t` with `use_count() == 0` is erased.  The
result of `find` is used without a test against `end()`: there is no defined result when the
atom has no bucket for `t`. -/
def Frame.scrub_bucket (use_count : Nat → Nat) (a : Atom) (t : AtomType) : Option Atom :=
  match a._incoming_set.find t with
  | none => none
  | some b =>
    some { a with
      _incoming_set := a._incoming_set.put t (b.filter (fun w => use_count w ≠ 0)) }

/-- The loop `for (Type t : framet)` of `Frame::scrub_incoming_set()`. -/
def Frame.scrub_loop (use_count : Nat → Nat) : List AtomType → Atom → Option Atom
  | [], a => some a
  | t :: ts, a =>
    match Frame.scrub_bucket use_count a t with
    | none => none
    | some a' => Frame.scrub_loop use_count ts a'

/-- The method `Frame::scrub_incoming_set()`.  `framet` is what
`nameserver().getChildrenRecursive(FRAME, ...)` yields. -/
def Frame.scrub_incoming_set (framet : List AtomType) (use_count : Nat → Nat) (a : Atom) :
    Option Atom :=
  if a._flags &&& USE_ISET_FLAG = 0 then some a
  else Frame.scrub_loop use_count framet a

/-- The call `FrameCast(h)->scrub_incoming_set()` in a store: `none` when `h` is null or
dangling, when the cast yields null, or when the scrub has no defined result. -/
def Store.scrub (framet : List AtomType) (s : Store) (h : Handle) : Option Store :=
  match h with
  | none => none
  | some p =>
    match s.obj p with
    | none => none
    | some po =>
      if po.is_frame then
        match Frame.scrub_incoming_set framet s.use_count po.toAtom with
        | none => none
        | some a => some (s.setAtom p po a)
      else none

/-- The body of the destructor `Frame::~Frame()` of the frame at `f`. -/
def Frame.dtor (framet : List AtomType) (s : Store) (f : Nat) : Option Store :=
  match s.obj f with
  | none => none
  | some fo => Store.forOutgoing (Store.scrub framet) fo._outgoing s

/-- Giving up one owning handle to the object at `p` (`shared_ptr` semantics).  When it was the
last one, the object is destroyed: with `use_count()` already 0 the destructor body runs, then
the members are destroyed, which gives up the handles of the outgoing set in turn, and the
object leaves the store.  `fuel` bounds the depth of this cascade. -/
def Store.release (framet : List AtomType) : Nat → Store → Nat → Option Store
  | 0, _, _ => none
  | fuel + 1, s, p =>
    match s.obj p with
    | none => none
    | some po =>
      if s.use_count p = 0 then none
      else
        let s1 : Store :=
          { s with use_count := fun q => if q = p then s.use_count p - 1 else s.use_count q }
        if s1.use_count p ≠ 0 then some s1
        else
          match (if po.is_frame then Frame.dtor framet s1 p else some s1) with
          | none => none
          | some s2 =>
            match Store.forOutgoing
                (fun s h =>
                  match h with
                  | none => some s
                  | some q => Store.release framet fuel s q)
                po._outgoing s2 with
            | none => none
            | some s3 => some { s3 with obj := fun q => if q = p then none else s3.obj q }

/-! ### A diamond of frames, for evaluation -/

/-- A frame of type `t` with the parents `parents`, as construction leaves it: the hash unset,
the incoming set empty and tracked (`USE_ISET_FLAG`). -/
def Frame.fresh (t : AtomType) (parents : List Nat) : AtomObj :=
  { _type := t, _flags := USE_ISET_FLAG, _content_hash := 2 ^ 64 - 1, _incoming_set := [],
    _outgoing := parents.map some, is_frame := true }

/-- Four frames of type `t`, not yet installed: a root at address 1, its children at 2 and 3,
and a frame at 4 below both children.  Every frame has one owner outside of the graph, and one
for every child that lists it in its outgoing set. -/
def Store.diamond0 (t : AtomType) : Store :=
  { obj := fun q =>
      if q = 1 then some (Frame.fresh t [])
      else if q = 2 then some (Frame.fresh t [1])
      else if q = 3 then some (Frame.fresh t [1])
      else if q = 4 then some (Frame.fresh t [2, 3])
      else none
    use_count := fun q =>
      if q = 1 then 3 else if q = 2 then 2 else if q = 3 then 2 else if q = 4 then 1 else 0 }

/-- The diamond with all four frames installed, root first. -/
def Store.diamond (t : AtomType) : Option Store :=
  (((Frame.install (Store.diamond0 t) 1).bind (fun s => Frame.install s 2)).bind
    (fun s => Frame.install s 3)).bind (fun s => Frame.install s 4)

/-- The store of the installed diamond. -/
def Store.diamondI (t : AtomType) : Store :=
  (Store.diamond t).getD (Store.diamond0 t)

/-- The incoming-set enumeration `getIncomingIter` of the object at `p` in a store. -/
def Store.getIncomingIter (s : Store) (p : Nat) : Option (List Handle) :=
  (s.obj p).map (fun po => po.toAtom.getIncomingIter s.use_count)

/-- The enumeration `getIncomingSetByType` of the object at `p` in a store. -/
def Store.getIncomingSetByType (s : Store) (p : Nat) (type : AtomType) :
    Option (List Handle) :=
  (s.obj p).map (fun po => po.toAtom.getIncomingSetByType s.use_count type)

/-! ## Exceptions -/

/-- The exceptions that the code below throws, with their message. -/
inductive Exn where
  /-- The class `InvalidParamException`. -/
  | InvalidParamException (msg : String)
  /-- The class `RuntimeException`. -/
  | RuntimeException (msg : String)
  /-- The class `SyntaxException`. -/
  | SyntaxException (msg : String)
deriving DecidableEq, Repr

/-! ## `Frame::init` and construction -/

/-- The method `Frame::init()` on the object under construction.  `isA` is
`nameserver().isA`, `FRAME` the type `FRAME`, and `keep_incoming_set` the method
`Atom::keep_incoming_set()`, which `Atom.h` declares only. -/
def Frame.init (isA : AtomType → AtomType → Bool) (FRAME : AtomType)
    (keep_incoming_set : Atom → Atom) (o : AtomObj) : Except Exn AtomObj :=
  if ¬ isA o._type FRAME then
    Except.error (Exn.InvalidParamException "Not a Frame!")
  else
    -- Set up the incoming set.
    Except.ok { o with toAtom := keep_incoming_set o.toAtom }

/-- The construction of a `Frame` with the outgoing set `oset` and the type `t`: the base
class stores the outgoing set, then `init()` runs. -/
def Frame.ctor (isA : AtomType → AtomType → Bool) (FRAME : AtomType)
    (keep_incoming_set : Atom → Atom) (INVALID_HASH : ContentHash)
    (oset : List Handle) (t : AtomType) : Except Exn AtomObj :=
  Frame.init isA FRAME keep_incoming_set
    { toAtom := Atom.ctor INVALID_HASH t, _outgoing := oset, is_frame := true }

/-- A name server with the types 1 (a node type), 4 (`FRAME`) and 5 (a type below `FRAME`):
`isA t 4` holds for 4 and 5. -/
def isA_sample (t u : AtomType) : Bool :=
  t == u || (t == 5 && u == 4)

/-- Tracking the incoming set sets `USE_ISET_FLAG`. -/
def keep_sample (a : Atom) : Atom :=
  { a with _flags := a._flags ||| USE_ISET_FLAG }

/-- A node of type 1 at address 1, not a frame, with one owner; nothing else. -/
def Store.oneNode : Store :=
  { obj := fun q =>
      if q = 1 then
        some { _type := 1, _flags := 0, _content_hash := 2 ^ 64 - 1, _incoming_set := [],
               _outgoing := [], is_frame := false }
      else none
    use_count := fun q => if q = 1 then 1 else 0 }

/-- The store `s` with the object `o` at the address `p`, in its destructor: no owner left. -/
def Store.dying (s : Store) (p : Nat) (o : AtomObj) : Store :=
  { obj := fun q => if q = p then some o else s.obj q
    use_count := fun q => if q = p then 0 else s.use_count q }

/-! ## `foreach_incoming` -/

/-- A run of `foreach_incoming`: the value returned, the state afterwards, and the calls of
the callback, each with the handle it got and the value it returned, in order. -/
structure ForeachRun (σ : Type) where
  /-- The value returned. -/
  result : Bool
  /-- The state after the run. -/
  state : σ
  /-- The calls `(data->*cb)(lp)` made. -/
  calls : List (Handle × Bool)

/-- The loop `for (const Handle& lp : vh) if ((data->*cb)(lp)) return true; return false;`.
The callback may change the state `σ` of the program, the incoming set of the atom
included. -/
def foreach_loop {σ : Type} (cb : σ → Handle → σ × Bool) :
    List Handle → σ → List (Handle × Bool) → ForeachRun σ
  | [], s, calls => { result := false, state := s, calls := calls }
  | lp :: vh, s, calls =>
    if (cb s lp).2 then
      { result := true, state := (cb s lp).1, calls := calls ++ [(lp, true)] }
    else foreach_loop cb vh (cb s lp).1 (calls ++ [(lp, false)])

/-- The template `Atom::foreach_incoming(cb, data)`.  `getIncomingSet` is what the call
`getIncomingSet()` on this atom returns in a state of the program. -/
def Atom.foreach_incoming {σ : Type} (getIncomingSet : σ → List Handle)
    (cb : σ → Handle → σ × Bool) (s : σ) : ForeachRun σ :=
  -- IncomingSet vh(getIncomingSet());
  let vh := getIncomingSet s
  foreach_loop cb vh s []

/-- The state of the program after the callback has been called on the handles `hs`, one
after the other, from the state `s`. -/
def callback_state {σ : Type} (cb : σ → Handle → σ × Bool) (s : σ) (hs : List Handle) : σ :=
  hs.foldl (fun st h => (cb st h).1) s

/-! ## The accessors of the base class -/

/-- The virtual `Atom::get_name()` as `class Atom` defines it. -/
def Atom.get_name (_a : Atom) : Except Exn String :=
  Except.error (Exn.RuntimeException "Not a node!")

/-- The virtual `Atom::getOutgoingSet()` as `class Atom` defines it. -/
def Atom.getOutgoingSet (_a : Atom) : Except Exn (List Handle) :=
  Except.error (Exn.RuntimeException "Not a link!")

/-- The virtual `Atom::getOutgoingAtom(Arity)` as `class Atom` defines it. -/
def Atom.getOutgoingAtom (_a : Atom) (_pos : Nat) : Except Exn Handle :=
  Except.error (Exn.RuntimeException "Not a link!")

/-! ## `PureExecLink` -/

/-- What `PureExecLink.cc` uses and does not define, over handles `H`, pointers `AS` to
AtomSpaces, values `V` and states `σ` of the program. -/
structure ExecEnv (H AS V σ : Type) where
  /-- The test `h->is_type(ATOM_SPACE)`. -/
  is_atomspace : H → Bool
  /-- The pointer `AtomSpaceCast(h).get()`, `none` for a null pointer. -/
  AtomSpaceCast : H → Option AS
  /-- The virtual `h->is_executable()`. -/
  is_executable : H → Bool
  /-- The virtual `h->execute(ctxt, silent)` in a state: what it returns or throws, and the
  state after it. -/
  execute : H → AS → Bool → σ → Except Exn V × σ
  /-- The function `grab_transient_atomspace(as)`. -/
  grab_transient_atomspace : Option AS → σ → AS × σ
  /-- The function `release_transient_atomspace(tas)`. -/
  release_transient_atomspace : AS → σ → σ
  /-- The value `createVoidValue()`. -/
  createVoidValue : V
  /-- The conversion of a `Handle` to a `ValuePtr`, as in `result = h`. -/
  ofHandle : H → V

/-- One call `h->execute(ctxt, silent)` made by `PureExecLink::execute`. -/
structure ExecCall (H AS V : Type) where
  /-- The atom executed. -/
  atom : H
  /-- The AtomSpace it is executed in. -/
  ctxt : AS
  /-- Whether that AtomSpace is the transient grabbed for this call. -/
  transient : Bool
  /-- What the call returned or threw. -/
  outcome : Except Exn V

/-- A run of `PureExecLink::execute`: what it returns or throws, the state afterwards, and the
`execute` calls it made, in order. -/
structure ExecRun (H AS V σ : Type) where
  /-- The value returned, or the exception that leaves the method. -/
  result : Except Exn V
  /-- The state after the run. -/
  state : σ
  /-- The calls made. -/
  calls : List (ExecCall H AS V)

/-- The constructor `PureExecLink::PureExecLink(oset, t)`: the outgoing set it stores. -/
def PureExecLink.ctor {H : Type} (oset : List H) : Except Exn (List H) :=
  if 0 = oset.length then
    Except.error (Exn.InvalidParamException "Expecting at least one argument!")
  else Except.ok oset

/-- The loop `for (const Handle& h : _outgoing)` of `PureExecLink::execute`, from the values
of `result` and `ctxt` and the state at the head of the loop. -/
def PureExecLink.loop {H AS V σ : Type} (E : ExecEnv H AS V σ) (as : Option AS)
    (silent : Bool) :
    List H → V → Option AS → σ → List (ExecCall H AS V) → ExecRun H AS V σ
  | [], result, _, s, calls => { result := Except.ok result, state := s, calls := calls }
  | h :: hs, result, ctxt, s, calls =>
    if E.is_atomspace h then
      -- ctxt = AtomSpaceCast(h).get(); continue;
      PureExecLink.loop E as silent hs result (E.AtomSpaceCast h) s calls
    else if ! E.is_executable h then
      -- result = h; continue;
      PureExecLink.loop E as silent hs (E.ofHandle h) ctxt s calls
    else
      match ctxt with
      | some c =>
        -- result = h->execute(ctxt, silent); continue;
        match (E.execute h c silent s).1 with
        | Except.ok v =>
          PureExecLink.loop E as silent hs v ctxt (E.execute h c silent s).2
            (calls ++ [{ atom := h, ctxt := c, transient := false, outcome := Except.ok v }])
        | Except.error e =>
          { result := Except.error e, state := (E.execute h c silent s).2,
            calls := calls
              ++ [{ atom := h, ctxt := c, transient := false, outcome := Except.error e }] }
      | none =>
        -- AtomSpace* tas = grab_transient_atomspace(as);
        let tas := (E.grab_transient_atomspace as s).1
        let s1 := (E.grab_transient_atomspace as s).2
        -- try { result = h->execute(tas, silent); } catch(...) { eptr = ...; }
        -- release_transient_atomspace(tas); if (eptr) std::rethrow_exception(eptr);
        match (E.execute h tas silent s1).1 with
        | Except.ok v =>
          PureExecLink.loop E as silent hs v none
            (E.release_transient_atomspace tas (E.execute h tas silent s1).2)
            (calls ++ [{ atom := h, ctxt := tas, transient := true, outcome := Except.ok v }])
        | Except.error e =>
          { result := Except.error e,
            state := E.release_transient_atomspace tas (E.execute h tas silent s1).2,
            calls := calls
              ++ [{ atom := h, ctxt := tas, transient := true, outcome := Except.error e }] }

/-- The method `PureExecLink::execute(as, silent)` on the outgoing set `_outgoing`. -/
def PureExecLink.execute {H AS V σ : Type} (E : ExecEnv H AS V σ) (as : Option AS)
    (silent : Bool) (_outgoing : List H) (s : σ) : ExecRun H AS V σ :=
  -- ValuePtr result = createVoidValue(); AtomSpace* ctxt = nullptr;
  PureExecLink.loop E as silent _outgoing E.createVoidValue none s []

/-! ### What the doc comment of `PureExecLink` says, for comparison -/

/-- The last atom of a sequence that is not an AtomSpace. -/
def PureExecLink.lastNonAtomSpace {H AS V σ : Type} (E : ExecEnv H AS V σ) (o : List H) :
    Option H :=
  (o.filter (fun h => ! E.is_atomspace h)).getLast?

/-- The most recent AtomSpace among the atoms `pre` that precede an atom. -/
def PureExecLink.mostRecentAtomSpace {H AS V σ : Type} (E : ExecEnv H AS V σ) (pre : List H) :
    Option H :=
  (pre.filter (fun h => E.is_atomspace h)).getLast?

/-- The executable atoms of `o`, in sequence order, each with the most recent AtomSpace that
precedes it (`none` when there is none), where `pre` are the atoms before `o`. -/
def PureExecLink.expected_from {H AS V σ : Type} (E : ExecEnv H AS V σ) :
    List H → List H → List (H × Option H)
  | _, [] => []
  | pre, h :: hs =>
    (if ! E.is_atomspace h && E.is_executable h
      then [(h, PureExecLink.mostRecentAtomSpace E pre)] else [])
      ++ PureExecLink.expected_from E (pre ++ [h]) hs

/-- The executable atoms of the outgoing set `o`, in sequence order, each with the most
recent AtomSpace that precedes it in `o`. -/
def PureExecLink.expected {H AS V σ : Type} (E : ExecEnv H AS V σ) (o : List H) :
    List (H × Option H) :=
  PureExecLink.expected_from E [] o

/-- The call `c` executes the atom of the entry `e` in the pointer that `AtomSpaceCast` gives
for the AtomSpace of `e`, and in a transient when there is no such pointer. -/
def ExecCall.Matches {H AS V σ : Type} (E : ExecEnv H AS V σ) (c : ExecCall H AS V)
    (e : H × Option H) : Prop :=
  c.atom = e.1 ∧
    match e.2.bind E.AtomSpaceCast with
    | some a => c.transient = false ∧ c.ctxt = a
    | none => c.transient = true

/-- The call `c` executes the atom of the entry `e` in the AtomSpace of `e`, and in a
transient when `e` has none. -/
def ExecCall.In {H AS V σ : Type} (E : ExecEnv H AS V σ) (c : ExecCall H AS V)
    (e : H × Option H) : Prop :=
  c.atom = e.1 ∧
    match e.2 with
    | some a => c.transient = false ∧ E.AtomSpaceCast a = some c.ctxt
    | none => c.transient = true

/-- The log `cs` is a true account of what happens between the state `s` and the state `t`:
call by call, the outcome logged is what `h->execute(ctxt, silent)` returns or throws in the
state that the calls before it left, and the state changes as the call changes it.  A call
logged as made in a transient is made in the AtomSpace that `grab_transient_atomspace(as)`
hands out, after the grab and before the release of that AtomSpace.  Nothing else changes
the state. -/
def ExecCall.Account {H AS V σ : Type} (E : ExecEnv H AS V σ) (as : Option AS)
    (silent : Bool) : List (ExecCall H AS V) → σ → σ → Prop
  | [], s, t => t = s
  | c :: cs, s, t =>
    if c.transient then
      c.ctxt = (E.grab_transient_atomspace as s).1
        ∧ c.outcome = (E.execute c.atom c.ctxt silent (E.grab_transient_atomspace as s).2).1
        ∧ ExecCall.Account E as silent cs
            (E.release_transient_atomspace c.ctxt
              (E.execute c.atom c.ctxt silent (E.grab_transient_atomspace as s).2).2) t
    else
      c.outcome = (E.execute c.atom c.ctxt silent s).1
        ∧ ExecCall.Account E as silent cs (E.execute c.atom c.ctxt silent s).2 t

/-- The value `v` is the result that the doc comment promises for the atoms `hs`, when `res`
is the result so far and `new` are the calls made for `hs`: `res` when all of `hs` are
AtomSpaces; else, for the last atom `h` of `hs` that is not an AtomSpace, `h` itself when it
is not executable, and what the last call, which is the one on `h`, returned, when it is. -/
def PureExecLink.ResultIs {H AS V σ : Type} (E : ExecEnv H AS V σ) (hs : List H) (res : V)
    (new : List (ExecCall H AS V)) (v : V) : Prop :=
  match PureExecLink.lastNonAtomSpace E hs with
  | none => v = res
  | some h =>
    if E.is_executable h then
      ∃ c, new.getLast? = some c ∧ c.atom = h ∧ c.outcome = Except.ok v
    else v = E.ofHandle h

/-- What a run `r` of the loop of `PureExecLink::execute` over the atoms `hs`, which follow
the atoms `pre`, is to satisfy, when `res` is the result and `calls` are the calls at the head
of the loop: the calls `new` it adds execute, one by one, the first entries `done` of the
expected schedule; the run returns a value exactly when every call of `new` returned one, and
then the schedule is exhausted and the value is the promised result. -/
def PureExecLink.RunSpec {H AS V σ : Type} (E : ExecEnv H AS V σ) (pre hs : List H) (res : V)
    (calls : List (ExecCall H AS V)) (r : ExecRun H AS V σ) : Prop :=
  ∃ new done rest,
    r.calls = calls ++ new
    ∧ PureExecLink.expected_from E pre hs = done ++ rest
    ∧ List.Forall₂ (ExecCall.Matches E) new done
    ∧ ((∃ v, r.result = Except.ok v) ↔ ∀ c ∈ new, ∃ v, c.outcome = Except.ok v)
    ∧ ((∃ v, r.result = Except.ok v) → rest = [])
    ∧ ∀ v, r.result = Except.ok v → PureExecLink.ResultIs E hs res new v

/-- An environment for evaluation: the atoms are numbers, the atoms from 100 on are
AtomSpaces, the even atoms below 100 are executable; executing the atom `h` in the AtomSpace
`c` returns `h + c` and adds `(h, c)` to the state, a log; the atom 66 throws.  The transient
of the AtomSpace `as` is the AtomSpace 1000. -/
def ExecEnv.sample : ExecEnv Nat Nat Nat (List (Nat × Nat)) :=
  { is_atomspace := fun h => decide (100 ≤ h)
    AtomSpaceCast := fun h => some h
    is_executable := fun h => h % 2 == 0
    execute := fun h c _ s =>
      (if h = 66 then Except.error (Exn.RuntimeException "thrown") else Except.ok (h + c),
        s ++ [(h, c)])
    grab_transient_atomspace := fun _ s => (1000, s)
    release_transient_atomspace := fun _ s => s
    createVoidValue := 0
    ofHandle := fun h => h }


/-! ## `Atom::get_arity` -/

/-- The virtual `Atom::get_arity()` as `class Atom` defines it: `return size();`.  The
virtual `size()` is not defined in `Atom.h`; `size` is what it returns for an atom. -/
def Atom.get_arity (size : Atom → Nat) (a : Atom) : Except Exn Nat :=
  Except.ok (size a)

/-! ## `RuleLink::extract_variables` -/

/-- What `RuleLink.cc` uses and does not define, over the atoms `H` that the handles of an
outgoing set point to and the values `Vars` of the member `_variables`. -/
structure RuleEnv (H Vars : Type) where
  /-- The type `VARIABLE_LIST`. -/
  VARIABLE_LIST : AtomType
  /-- The type `VARIABLE_SET`. -/
  VARIABLE_SET : AtomType
  /-- The type `TYPED_VARIABLE_LINK`. -/
  TYPED_VARIABLE_LINK : AtomType
  /-- The type `VARIABLE_NODE`. -/
  VARIABLE_NODE : AtomType
  /-- The type `GLOB_NODE`. -/
  GLOB_NODE : AtomType
  /-- The type `h->get_type()` of an atom. -/
  get_type : H → AtomType
  /-- The call `ScopeLink::init_scoped_variables(vardecl)`: the member `_variables` afterwards,
  or what the call throws. -/
  init_scoped_variables : H → Vars → Except Exn Vars
  /-- The call `_variables.find_variables(h)`: the member `_variables` afterwards, or what the
  call throws. -/
  find_variables : Vars → H → Except Exn Vars
  /-- The call `trim(terms)`, which reads `terms` and changes `_variables`: the member
  `_variables` afterwards, or what the call throws. -/
  trim : Vars → List H → Except Exn Vars

/-- The members of a `RuleLink` that `extract_variables` writes.  A `Handle` member is
`none` while it is undefined. -/
structure RuleLink (H Vars : Type) where
  /-- The member `_vardecl`. -/
  _vardecl : Option H
  /-- The member `_body`. -/
  _body : Option H
  /-- The member `_implicand`. -/
  _implicand : List H
  /-- The member `_variables`. -/
  _variables : Vars

/-- The members of a `RuleLink` before `extract_variables` runs: no declaration, no body, no
implicands. -/
def RuleLink.fresh {H Vars : Type} (vars : Vars) : RuleLink H Vars :=
  { _vardecl := none, _body := none, _implicand := [], _variables := vars }

/-- The loop `for (size_t i = ...; i < sz; i++) _implicand.push_back(oset[i]);` with `k`
rounds to go, at index `i`. -/
def RuleLink.push_back_loop {H : Type} (oset : List H) : Nat → Nat → List H → List H
  | 0, _, _implicand => _implicand
  | k + 1, i, _implicand =>
    RuleLink.push_back_loop oset k (i + 1) (_implicand ++ (oset[i]?).toList)

/-- The second half of `RuleLink::extract_variables`, from the test `sz == boff` on. -/
def RuleLink.extract_body {H Vars : Type} (E : RuleEnv H Vars) (oset : List H) (boff : Nat)
    (self : RuleLink H Vars) : Except Exn (RuleLink H Vars) :=
  let sz := oset.length
  if sz = boff then
    Except.error (Exn.SyntaxException "Expecting a declaration of a body/premise!")
  else
    -- _body = oset[boff];
    let _body := oset[boff]?
    -- for (size_t i=boff+1; i < sz; i++) _implicand.push_back(oset[i]);
    let _implicand := RuleLink.push_back_loop oset (sz - (boff + 1)) (boff + 1) self._implicand
    if 1 = boff then
      -- _implicand.push_back(_body), trim(_implicand); _implicand.pop_back();
      match E.trim self._variables (_implicand ++ _body.toList) with
      | Except.error e => Except.error e
      | Except.ok vars =>
        Except.ok { self with _body := _body, _variables := vars,
                              _implicand := (_implicand ++ _body.toList).dropLast }
    else
      Except.ok { self with _body := _body, _implicand := _implicand }

/-- The method `RuleLink::extract_variables(oset)` on an object with the members `self`: the
members afterwards, or the exception thrown. -/
def RuleLink.extract_variables {H Vars : Type} (E : RuleEnv H Vars) (oset : List H)
    (self : RuleLink H Vars) : Except Exn (RuleLink H Vars) :=
  match oset with
  | [] =>
    -- if (sz < 1) throw SyntaxException
    Except.error (Exn.SyntaxException "Expecting a non-empty outgoing set")
  | o0 :: _ =>
    -- Type vt = oset[0]->get_type();
    let vt := E.get_type o0
    if E.VARIABLE_LIST = vt ∨ E.VARIABLE_SET = vt ∨ E.TYPED_VARIABLE_LINK = vt
        ∨ E.VARIABLE_NODE = vt ∨ E.GLOB_NODE = vt then
      -- _vardecl = oset[0]; ScopeLink::init_scoped_variables(_vardecl); boff = 1;
      match E.init_scoped_variables o0 self._variables with
      | Except.error e => Except.error e
      | Except.ok vars =>
        RuleLink.extract_body E oset 1 { self with _vardecl := some o0, _variables := vars }
    else
      -- _variables.find_variables(oset[0]);
      match E.find_variables self._variables o0 with
      | Except.error e => Except.error e
      | Except.ok vars => RuleLink.extract_body E oset 0 { self with _variables := vars }

/-- The atom `h` is a variable declaration: its type is one of the five types that
`extract_variables` tests the first atom for. -/
def RuleLink.IsDeclaration {H Vars : Type} (E : RuleEnv H Vars) (h : H) : Prop :=
  E.get_type h ∈ [E.VARIABLE_LIST, E.VARIABLE_SET, E.TYPED_VARIABLE_LINK, E.VARIABLE_NODE,
    E.GLOB_NODE]

/-- The calls into the other classes return: none of them throws. -/
def RuleEnv.Returns {H Vars : Type} (E : RuleEnv H Vars) : Prop :=
  (∀ h v, ∃ w, E.init_scoped_variables h v = Except.ok w)
    ∧ (∀ v h, ∃ w, E.find_variables v h = Except.ok w)
    ∧ (∀ v l, ∃ w, E.trim v l = Except.ok w)

/-- A sample for evaluation: atoms are numbers, the type of an atom is its last digit, the types
1 to 5 are the declarations, and `_variables` lists the declared variables, which `trim` cuts
down to those that the terms list. -/
def RuleEnv.sample : RuleEnv Nat (List Nat) :=
  { VARIABLE_LIST := 1
    VARIABLE_SET := 2
    TYPED_VARIABLE_LINK := 3
    VARIABLE_NODE := 4
    GLOB_NODE := 5
    get_type := fun h => h % 10
    init_scoped_variables := fun h _ => Except.ok [h]
    find_variables := fun v h => Except.ok (v ++ [h])
    trim := fun v l => Except.ok (v.filter (fun x => decide (x ∈ l))) }


/-! ## `RewriteMixin::propose_grounding` -/

/-- What a call `inst.instantiate(himp, var_soln, true)` does: it returns a value, returns
`nullptr`, throws a `SilentException`, or throws another exception. -/
inductive Instantiated (V : Type) where
  /-- A value is returned. -/
  | value (v : V)
  /-- The null pointer is returned. -/
  | null
  /-- A `SilentException` is thrown. -/
  | SilentException
  /-- Another exception is thrown. -/
  | thrown (e : Exn)

/-- What `RewriteMixin.cc` uses and does not define, over implicands `H`, grounding maps `G`,
values `V` (compared by content, as the `ValueSet` does) and states `σ` of the rest of the
program: the AtomSpace and the containers of the marginals. -/
structure RewriteEnv (H G V σ : Type) where
  /-- The call `inst.instantiate(himp, var_soln, true)` in a state. -/
  instantiate : H → G → σ → Instantiated V × σ
  /-- The test `v->is_atom()`. -/
  is_atom : V → Bool
  /-- The call `_as->add_atom(HandleCast(v))`: the atom of the AtomSpace, and the state
  afterwards. -/
  add_atom : V → σ → V × σ
  /-- The call `createLinkValue(std::move(vs))`. -/
  createLinkValue : List V → V
  /-- The call `record_marginals(var_soln)`, which adds to the containers of
  `_var_marginals`. -/
  record_marginals : G → σ → σ
  /-- The lookup of `himp` in `_implicand_grnds` with the `add(v)` to the container found, if
  any. -/
  implicand_grnds_add : H → V → σ → σ

/-- The members of a `RewriteMixin` that `propose_grounding` and `insert_result` use.  The
set `_result_set` and the container `_result_queue` list their values in the order of
insertion. -/
structure RewriteMixin (H V : Type) where
  /-- The member `_implicand`. -/
  _implicand : List H
  /-- The member `_num_results`. -/
  _num_results : Nat
  /-- The member `max_results`. -/
  max_results : Nat
  /-- The member `_result_set`. -/
  _result_set : List V
  /-- The values added to `_result_queue`. -/
  _result_queue : List V

/-- The constructor `RewriteMixin::RewriteMixin(as, qvp)`: `_num_results(0)`,
`max_results(SIZE_MAX)`. -/
def RewriteMixin.ctor {H V : Type} : RewriteMixin H V :=
  { _implicand := [], _num_results := 0, max_results := 2 ^ 64 - 1, _result_set := [],
    _result_queue := [] }

/-- The method `RewriteMixin::insert_result(v)`. -/
def RewriteMixin.insert_result {H G V σ : Type} [DecidableEq V] (E : RewriteEnv H G V σ)
    (v : V) (self : RewriteMixin H V) (s : σ) : RewriteMixin H V × σ :=
  -- if (_result_set.end() != _result_set.find(v)) return;
  if v ∈ self._result_set then (self, s)
  else
    -- if (v->is_atom()) v = _as->add_atom(HandleCast(v));
    let r := if E.is_atom v then E.add_atom v s else (v, s)
    -- if (_result_set.end() != _result_set.find(v)) return;
    if r.1 ∈ self._result_set then (self, r.2)
    else
      -- _result_set.insert(v); _result_queue->add(std::move(v));
      ({ self with _result_set := self._result_set ++ [r.1],
                   _result_queue := self._result_queue ++ [r.1] }, r.2)

/-- The loop `for (const Handle& himp: _implicand)` of `propose_grounding`, which collects
the values in `vs`; `Except.error none` is a `SilentException`. -/
def RewriteMixin.instantiate_loop {H G V σ : Type} (E : RewriteEnv H G V σ) (var_soln : G) :
    List H → List V → σ → Except (Option Exn) (List V) × σ
  | [], vs, s => (Except.ok vs, s)
  | himp :: rest, vs, s =>
    match E.instantiate himp var_soln s with
    | (Instantiated.value v, s1) =>
      RewriteMixin.instantiate_loop E var_soln rest (vs ++ [v]) (E.implicand_grnds_add himp v s1)
    | (Instantiated.null, s1) => RewriteMixin.instantiate_loop E var_soln rest vs s1
    | (Instantiated.SilentException, s1) => (Except.error none, s1)
    | (Instantiated.thrown e, s1) => (Except.error (some e), s1)

/-- The `try` block of `propose_grounding`: the object and the state at its end, also when
it ends with a caught `SilentException`, or the exception that leaves it. -/
def RewriteMixin.try_block {H G V σ : Type} [DecidableEq V] (E : RewriteEnv H G V σ)
    (var_soln : G) (self : RewriteMixin H V) (s : σ) : Except Exn (RewriteMixin H V × σ) :=
  match self._implicand with
  | [himp] =>
    -- if (1 == _implicand.size())
    match E.instantiate himp var_soln s with
    | (Instantiated.value v, s1) =>
      Except.ok (RewriteMixin.insert_result E v self (E.implicand_grnds_add himp v s1))
    | (Instantiated.null, s1) => Except.ok (self, s1)
    | (Instantiated.SilentException, s1) => Except.ok (self, s1)
    | (Instantiated.thrown e, _) => Except.error e
  | _implicand =>
    match RewriteMixin.instantiate_loop E var_soln _implicand [] s with
    | (Except.ok vs, s1) => Except.ok (RewriteMixin.insert_result E (E.createLinkValue vs) self s1)
    | (Except.error none, s1) => Except.ok (self, s1)
    | (Except.error (some e), _) => Except.error e

/-- The method `RewriteMixin::propose_grounding(var_soln, term_soln)`: what it returns, with
the object and the state afterwards, or the exception that leaves it.  The counter cannot
wrap around: it is incremented only while it is below `max_results`. -/
def RewriteMixin.propose_grounding {H G V σ : Type} [DecidableEq V] (E : RewriteEnv H G V σ)
    (var_soln : G) (self : RewriteMixin H V) (s : σ) :
    Except Exn (Bool × RewriteMixin H V × σ) :=
  -- if (_num_results >= max_results) return true;
  if self._num_results ≥ self.max_results then Except.ok (true, self, s)
  else
    -- _num_results ++;
    let self1 := { self with _num_results := self._num_results + 1 }
    -- record_marginals(var_soln);
    let s1 := E.record_marginals var_soln s
    match RewriteMixin.try_block E var_soln self1 s1 with
    | Except.error e => Except.error e
    | Except.ok (self2, s2) =>
      -- return (_num_results >= max_results);
      Except.ok (decide (self2._num_results ≥ self2.max_results), self2, s2)

/-- A sample for evaluation: implicands, grounding maps and values are numbers, the
implicand `h` under the grounding `g` is instantiated to `h + g % 10`, so that the groundings
10 and 20 give the same value, and the state logs the values instantiated. -/
def RewriteEnv.sample : RewriteEnv Nat Nat Nat (List Nat) :=
  { instantiate := fun h g s => (Instantiated.value (h + g % 10), s ++ [h + g % 10])
    is_atom := fun _ => false
    add_atom := fun v s => (v, s)
    createLinkValue := fun vs => vs.sum
    record_marginals := fun _ s => s
    implicand_grnds_add := fun _ _ s => s }


/-! ## `TransposeColumn`

`Value.h`, `FloatValue.h`, `StringValue.h`, `LinkValue.h`, `NumberNode.h` and `Link.h` are
not among the sources.  A value is what these classes store: its type, and the vector that
`value()` or `getOutgoingSet()` returns, whose length is `size()`.  The test
`is_type(FLOAT_VALUE)` holds of the objects of class `FloatValue` and of its subclasses,
which are the ones that `FloatValueCast` casts, and likewise for the other classes. -/

/-- The values that `TransposeColumn.cc` tells apart, over the numbers `D`. -/
inductive Value (D : Type) where
  /-- An object of class `FloatValue` or of a subclass, of type `t`. -/
  | FloatValue (t : AtomType) (_value : List D)
  /-- An object of class `StringValue` or of a subclass, of type `t`. -/
  | StringValue (t : AtomType) (_value : List String)
  /-- An object of class `LinkValue` or of a subclass, of type `t`. -/
  | LinkValue (t : AtomType) (_value : List (Value D))
  /-- A `NumberNode`, of type `t`: an atom, not executable. -/
  | NumberNode (t : AtomType) (_value : List D)
  /-- A link, of type `t`: an atom, executable or not. -/
  | Link (t : AtomType) (executable : Bool) (_outgoing : List (Value D))
  /-- Any other value, of type `t`, with what `is_atom()`, `is_executable()` and `size()`
  return for it. -/
  | Other (t : AtomType) (atom : Bool) (executable : Bool) (sz : Nat)

/-- The virtual `get_type()`. -/
def Value.get_type {D : Type} : Value D → AtomType
  | Value.FloatValue t _ => t
  | Value.StringValue t _ => t
  | Value.LinkValue t _ => t
  | Value.NumberNode t _ => t
  | Value.Link t _ _ => t
  | Value.Other t _ _ _ => t

/-- The virtual `size()`. -/
def Value.size {D : Type} : Value D → Nat
  | Value.FloatValue _ vals => vals.length
  | Value.StringValue _ vals => vals.length
  | Value.LinkValue _ vrow => vrow.length
  | Value.NumberNode _ vals => vals.length
  | Value.Link _ _ hrow => hrow.length
  | Value.Other _ _ _ sz => sz

/-- The virtual `is_atom()`. -/
def Value.is_atom {D : Type} : Value D → Bool
  | Value.NumberNode _ _ => true
  | Value.Link _ _ _ => true
  | Value.Other _ atom _ _ => atom
  | _ => false

/-- The virtual `is_executable()` of an atom. -/
def Value.is_executable {D : Type} : Value D → Bool
  | Value.Link _ executable _ => executable
  | Value.Other _ _ executable _ => executable
  | _ => false

/-- The statement `FloatValueCast(c) -> _value.push_back(d)`; `none` when the cast gives the
null pointer. -/
def Value.push_float {D : Type} (c : Value D) (d : D) : Option (Value D) :=
  match c with
  | Value.FloatValue t l => some (Value.FloatValue t (l ++ [d]))
  | _ => none

/-- The statement `StringValueCast(c) -> _value.push_back(s)`; `none` when the cast gives the
null pointer. -/
def Value.push_string {D : Type} (c : Value D) (s : String) : Option (Value D) :=
  match c with
  | Value.StringValue t l => some (Value.StringValue t (l ++ [s]))
  | _ => none

/-- The statement `LinkValueCast(c) -> _value.push_back(v)`; `none` when the cast gives the
null pointer. -/
def Value.push_value {D : Type} (c : Value D) (v : Value D) : Option (Value D) :=
  match c with
  | Value.LinkValue t l => some (Value.LinkValue t (l ++ [v]))
  | _ => none

/-- What `TransposeColumn.cc` uses and does not define, over the numbers `D` and the states
`σ` of the program. -/
structure TransposeEnv (D σ : Type) where
  /-- The type `FLOAT_VALUE`, which `createFloatValue` gives its result. -/
  FLOAT_VALUE : AtomType
  /-- The type `LINK_VALUE`, which `createLinkValue` gives its result. -/
  LINK_VALUE : AtomType
  /-- The type `STRING_VALUE`, which `createStringValue` gives its result. -/
  STRING_VALUE : AtomType
  /-- The call `FunctionLink::get_value(as, silent, vp)` in a state: what it returns or throws,
  and the state afterwards. -/
  get_value : Value D → σ → Except Exn (Value D) × σ
  /-- The text `vp->to_string()`. -/
  to_string : Value D → String

/-- The call `createFloatValue(d)`. -/
def TransposeEnv.createFloatValue {D σ : Type} (E : TransposeEnv D σ) (d : D) : Value D :=
  Value.FloatValue E.FLOAT_VALUE [d]

/-- The call `createStringValue(s)`. -/
def TransposeEnv.createStringValue {D σ : Type} (E : TransposeEnv D σ) (s : String) :
    Value D :=
  Value.StringValue E.STRING_VALUE [s]

/-- The call `createLinkValue(vs)` on a sequence; `createLinkValue()` and `createLinkValue(v)`
are the calls on the empty sequence and on the sequence of `v` alone. -/
def TransposeEnv.createLinkValue {D σ : Type} (E : TransposeEnv D σ) (vs : List (Value D)) :
    Value D :=
  Value.LinkValue E.LINK_VALUE vs

/-- The message of the exception of `CHKSZ`. -/
def TransposeColumn.short_row (got want : Nat) : String :=
  "Short row! Got " ++ toString got ++ " want " ++ toString want ++ "\n"

/-- A loop `for (size_t i=0; i<ncols; i++)` over the columns, with `k` rounds to go at index
`i`; `push i c` is what the body does to the column `vcols[i]`, and `none` is an access
outside `vcols` or through a null pointer. -/
def TransposeColumn.column_loop {D : Type} (push : Nat → Value D → Option (Value D)) :
    Nat → Nat → List (Value D) → Option (List (Value D))
  | 0, _, vcols => some vcols
  | k + 1, i, vcols =>
    match vcols[i]? with
    | none => none
    | some c =>
      match push i c with
      | none => none
      | some c1 => TransposeColumn.column_loop push k (i + 1) (vcols.set i c1)

/-- The check `CHKSZ(ROW)` followed by a loop over the columns. -/
def TransposeColumn.checked_loop {D : Type} (rowsize ncols : Nat)
    (push : Nat → Value D → Option (Value D)) (vcols : List (Value D)) :
    Option (Except Exn (List (Value D))) :=
  if rowsize < ncols then
    some (Except.error (Exn.RuntimeException (TransposeColumn.short_row rowsize ncols)))
  else
    (TransposeColumn.column_loop push ncols 0 vcols).map Except.ok


/-- The column that the first row makes of the member `v` of a `LinkValue`. -/
def TransposeColumn.first_column {D σ : Type} (E : TransposeEnv D σ) (v : Value D) :
    Value D :=
  if v.size = 1 then
    match v with
    | Value.FloatValue _ (d :: _) => E.createFloatValue d
    | Value.StringValue _ (s :: _) => E.createStringValue s
    | _ => E.createLinkValue [v]
  else
    E.createLinkValue [v]

/-- The branch `if (0 == ncols)` of `do_value_loop` after `ncols = vp->size()`: the columns
that the row `vp` makes are put at the end of `vcols`. -/
def TransposeColumn.first_row {D σ : Type} (E : TransposeEnv D σ) (vp : Value D)
    (vcols : List (Value D)) : Except Exn (List (Value D)) :=
  match vp with
  | Value.FloatValue _ vals => Except.ok (vcols ++ vals.map E.createFloatValue)
  | Value.LinkValue _ vrow => Except.ok (vcols ++ vrow.map (TransposeColumn.first_column E))
  | Value.NumberNode _ vals => Except.ok (vcols ++ vals.map E.createFloatValue)
  | Value.StringValue _ vals => Except.ok (vcols ++ vals.map E.createStringValue)
  | Value.Link _ _ hrow => Except.ok (vcols ++ hrow.map (fun h => E.createLinkValue [h]))
  | Value.Other _ _ _ _ =>
    Except.error (Exn.RuntimeException
      ("I don't know what to do with " ++ E.to_string vp ++ "\n"))

/-- What a later row does with its member `v` and the column `c`. -/
def TransposeColumn.later_column {D : Type} (c : Value D) (v : Value D) : Option (Value D) :=
  if v.size = 1 then
    match v with
    | Value.FloatValue _ (d :: _) => c.push_float d
    | Value.StringValue _ (s :: _) => c.push_string s
    | _ => c.push_value v
  else
    c.push_value v

/-- The rest of the body of the loop of `do_value_loop`, for a row that is not the first. -/
def TransposeColumn.later_row {D : Type} (vp : Value D) (ncols : Nat)
    (vcols : List (Value D)) : Option (Except Exn (List (Value D))) :=
  match vp with
  | Value.FloatValue _ vals =>
    TransposeColumn.checked_loop vals.length ncols
      (fun i c => (vals[i]?).bind c.push_float) vcols
  | Value.LinkValue _ vrow =>
    TransposeColumn.checked_loop vrow.length ncols
      (fun i c => (vrow[i]?).bind (TransposeColumn.later_column c)) vcols
  | Value.NumberNode _ vals =>
    TransposeColumn.checked_loop vals.length ncols
      (fun i c => (vals[i]?).bind c.push_float) vcols
  | Value.StringValue _ vals =>
    TransposeColumn.checked_loop vals.length ncols
      (fun i c => (vals[i]?).bind c.push_string) vcols
  | Value.Link _ _ hrow =>
    TransposeColumn.checked_loop hrow.length ncols
      (fun i c => (hrow[i]?).bind c.push_value) vcols
  | Value.Other _ _ _ _ => some (Except.ok vcols)

/-- The loop `for (ValuePtr vp: vrows)` of `do_value_loop`, with the locals `ncols` and
`vcols`: the columns at the end or the exception thrown, `none` for an access outside
`vcols` or through a null pointer, and the state afterwards. -/
def TransposeColumn.value_loop {D σ : Type} (E : TransposeEnv D σ) :
    List (Value D) → Nat → List (Value D) → σ → Option (Except Exn (List (Value D))) × σ
  | [], _, vcols, s => (some (Except.ok vcols), s)
  | vp0 :: rest, ncols, vcols, s =>
    -- if (vp->is_atom() and HandleCast(vp)->is_executable()) vp = get_value(as, silent, vp);
    match (if vp0.is_atom && vp0.is_executable then E.get_value vp0 s
           else (Except.ok vp0, s)) with
    | (Except.error e, s1) => (some (Except.error e), s1)
    | (Except.ok vp, s1) =>
      if 0 = ncols then
        -- ncols = vp->size(); ...; continue;
        match TransposeColumn.first_row E vp vcols with
        | Except.error e => (some (Except.error e), s1)
        | Except.ok vcols1 => TransposeColumn.value_loop E rest vp.size vcols1 s1
      else
        match TransposeColumn.later_row vp ncols vcols with
        | none => (none, s1)
        | some (Except.error e) => (some (Except.error e), s1)
        | some (Except.ok vcols1) => TransposeColumn.value_loop E rest ncols vcols1 s1

/-- The body of the loop of `do_direct_loop` for the row `vp`. -/
def TransposeColumn.direct_row {D σ : Type} (E : TransposeEnv D σ) (vp : Value D)
    (ncols : Nat) (vcols : List (Value D)) : Option (Except Exn (List (Value D))) :=
  match vp with
  | Value.FloatValue _ vals =>
    TransposeColumn.checked_loop vals.length ncols
      (fun i c => (vals[i]?).bind (fun d => c.push_value (E.createFloatValue d))) vcols
  | Value.StringValue _ vals =>
    TransposeColumn.checked_loop vals.length ncols
      (fun i c => (vals[i]?).bind (fun s => c.push_value (E.createStringValue s))) vcols
  | Value.NumberNode _ vals =>
    TransposeColumn.checked_loop vals.length ncols
      (fun i c => (vals[i]?).bind (fun d => c.push_value (E.createFloatValue d))) vcols
  | Value.Link _ _ vals =>
    TransposeColumn.checked_loop vals.length ncols
      (fun i c => (vals[i]?).bind c.push_value) vcols
  | _ => some (Except.ok vcols)

/-- The loop `for (ValuePtr vp: vrows)` of `do_direct_loop`. -/
def TransposeColumn.direct_loop {D σ : Type} (E : TransposeEnv D σ) (ncols : Nat) :
    List (Value D) → List (Value D) → Option (Except Exn (List (Value D)))
  | [], vcols => some (Except.ok vcols)
  | vp :: rest, vcols =>
    match TransposeColumn.direct_row E vp ncols vcols with
    | none => none
    | some (Except.error e) => some (Except.error e)
    | some (Except.ok vcols1) => TransposeColumn.direct_loop E ncols rest vcols1

/-- The method `TransposeColumn::do_direct_loop(as, silent, vrows)`; `none` is the access
`vrows[0]` to an empty sequence. -/
def TransposeColumn.do_direct_loop {D σ : Type} (E : TransposeEnv D σ)
    (vrows : List (Value D)) : Option (Except Exn (Value D)) :=
  match vrows with
  | [] => none
  | v0 :: _ =>
    -- size_t ncols = vrows[0]->size();
    let ncols := v0.size
    -- for (size_t i=0; i<ncols; i++) vcols.emplace_back(createLinkValue());
    let vcols := List.replicate ncols (E.createLinkValue [])
    (TransposeColumn.direct_loop E ncols vrows vcols).map (Except.map E.createLinkValue)

/-- The method `TransposeColumn::do_value_loop(as, silent, vrows)` in a state: the value
returned or the exception thrown, `none` for an access outside a vector or through a null
pointer, and the state afterwards. -/
def TransposeColumn.do_value_loop {D σ : Type} (E : TransposeEnv D σ)
    (vrows : List (Value D)) (s : σ) : Option (Except Exn (Value D)) × σ :=
  match vrows with
  | [] =>
    -- if (0 == vrows.size()) return createLinkValue();
    (some (Except.ok (E.createLinkValue [])), s)
  | v0 :: _ =>
    -- Type rtype = vrows[0]->get_type();
    let rtype := v0.get_type
    if vrows.any (fun vp => decide (vp.get_type ≠ rtype)) then
      (TransposeColumn.do_direct_loop E vrows, s)
    else
      -- size_t ncols = 0; ValueSeq vcols;
      ((TransposeColumn.value_loop E vrows 0 [] s).1.map (Except.map E.createLinkValue),
        (TransposeColumn.value_loop E vrows 0 [] s).2)

/-- A sample for evaluation: the numbers are natural numbers, the types of the values made
are 1 (`FLOAT_VALUE`), 2 (`LINK_VALUE`) and 3 (`STRING_VALUE`), and executing an atom gives
the empty `LinkValue`. -/
def TransposeEnv.sample : TransposeEnv Nat Unit :=
  { FLOAT_VALUE := 1
    LINK_VALUE := 2
    STRING_VALUE := 3
    get_value := fun _ s => (Except.ok (Value.LinkValue 2 []), s)
    to_string := fun _ => "value" }


/-- The columns of a transposition, in the words of the specification: column `i` of the `n`
columns is the `FloatValue`, of type `FLOAT_VALUE`, of the elements `i` of the rows, in the
order of the rows. -/
def TransposeColumn.columns_of {D : Type} (FLOAT_VALUE : AtomType) (n : Nat)
    (rows : List (List D)) : List (Value D) :=
  (List.range n).map (fun i => Value.FloatValue FLOAT_VALUE (rows.filterMap (fun r => r[i]?)))

/-! ### Predicates on incoming sets and stores, for the statements below -/

/-- The weak pointer `w` is in the bucket that the incoming set of `a` stores under `ty`. -/
def Atom.Registered (a : Atom) (ty : AtomType) (w : WinkPtr) : Prop :=
  ∃ b, a._incoming_set.find ty = some b ∧ w ∈ b

/-- No bucket of the incoming set of `a` holds the weak pointer `w`. -/
def Atom.Clean (a : Atom) (w : WinkPtr) : Prop :=
  ∀ kb ∈ a._incoming_set, w ∉ kb.2

/-- The incoming set of `a` is a `std::map` (keys strictly increasing) in which the weak pointer
`w` occurs in no bucket other than the one stored under `ty`: the state of affairs that
`insert_atom`, which files a link under its type, maintains for a link of type `ty`. -/
def Atom.OnlyUnder (a : Atom) (ty : AtomType) (w : WinkPtr) : Prop :=
  InSetMap.Sorted a._incoming_set ∧ ∀ kb ∈ a._incoming_set, w ∈ kb.2 → kb.1 = ty

/-- The store `s2` has the owners of `s1` and the objects of `s1`, each with the type, flags and
outgoing set it has in `s1`, and with every property `P` of its `Atom` members that holds
in `s1`, where `P` ranges over the properties `K` keeps. -/
def Store.Keeps (K : (Atom → Prop) → Prop) (s1 s2 : Store) : Prop :=
  s2.use_count = s1.use_count ∧
  ∀ q o, s1.obj q = some o →
    ∃ o2, s2.obj q = some o2 ∧ o2._type = o._type ∧ o2._flags = o._flags
      ∧ o2._outgoing = o._outgoing ∧ ∀ P, K P → P o.toAtom → P o2.toAtom

end opencog

/-! # Theorems -/

namespace opencog

/-! ## `get_hash` -/

/-- One `get_hash()` call on an atom whose cache is unset or holds `v` returns `v` and leaves
the cache unset or holding `v`. -/
theorem Atom.get_hash_coherent (I v : ContentHash) (a : Atom)
    (h : Atom.HashCoherent I v a) :
    ∃ r, Atom.get_hash I (some v) a = some r ∧ r.value = v ∧ Atom.HashCoherent I v r.atom := by
  unfold Atom.get_hash
  by_cases hc : I ≠ a._content_hash
  · rw [if_pos hc]
    refine ⟨_, rfl, ?_, h⟩
    rcases h with h | h
    · exact absurd h.symm hc
    · exact h
  · rw [if_neg hc]
    exact ⟨_, rfl, rfl, Or.inr rfl⟩

/-- Every call of a run of `get_hash()` calls returns `v`. -/
theorem Atom.get_hash_nth_value (I v : ContentHash) (n : Nat) :
    ∀ a : Atom, Atom.HashCoherent I v a →
      (Atom.get_hash_nth I (some v) n a).map HashCall.value = some v := by
  induction n with
  | zero =>
    intro a h
    obtain ⟨r, hr, hv, -⟩ := Atom.get_hash_coherent I v a h
    simp [Atom.get_hash_nth, hr, hv]
  | succ n ih =>
    intro a h
    obtain ⟨r, hr, -, hcoh⟩ := Atom.get_hash_coherent I v a h
    simp only [Atom.get_hash_nth, hr]
    exact ih r.atom hcoh

/-- The constructor leaves the cache unset. -/
theorem Atom.ctor_hash_coherent (I v : ContentHash) (t : AtomType) :
    Atom.HashCoherent I v (Atom.ctor I t) :=
  Or.inl rfl

/-- C1: `get_hash()` is idempotent.  On an atom whose `compute_hash()` is pure, with value `v`,
and whose cached hash is in a state that the constructor and `get_hash()` can leave it in,
the `(n+1)`-th and the `(m+1)`-th call of a sequential run of `get_hash()` calls return the
same value, and that value is `v`, the value of `compute_hash()`. -/
theorem get_hash_idempotent (I v : ContentHash) (a : Atom)
    (h : Atom.HashCoherent I v a) (n m : Nat) :
    (Atom.get_hash_nth I (some v) n a).map HashCall.value
        = (Atom.get_hash_nth I (some v) m a).map HashCall.value
      ∧ (Atom.get_hash_nth I (some v) n a).map HashCall.value = some v := by
  rw [Atom.get_hash_nth_value I v n a h, Atom.get_hash_nth_value I v m a h]
  exact ⟨rfl, rfl⟩

/-- Idempotence on a freshly constructed atom of type 3 whose hash is 17, first and fifth call,
with the all-ones word for `Handle::INVALID_HASH`. -/
theorem get_hash_idempotent_witness :
    Atom.HashCoherent (2 ^ 64 - 1) 17 (Atom.ctor (2 ^ 64 - 1) 3)
      ∧ ((Atom.get_hash_nth (2 ^ 64 - 1) (some 17) 0 (Atom.ctor (2 ^ 64 - 1) 3)).map
            HashCall.value
          = (Atom.get_hash_nth (2 ^ 64 - 1) (some 17) 4 (Atom.ctor (2 ^ 64 - 1) 3)).map
            HashCall.value
        ∧ (Atom.get_hash_nth (2 ^ 64 - 1) (some 17) 0 (Atom.ctor (2 ^ 64 - 1) 3)).map
            HashCall.value = some 17) :=
  ⟨Atom.ctor_hash_coherent _ _ _,
    get_hash_idempotent (2 ^ 64 - 1) 17 (Atom.ctor (2 ^ 64 - 1) 3) (Atom.ctor_hash_coherent _ _ _) 0 4⟩

/-- C2, as stated, fails: the unset state is the reserved value `Handle::INVALID_HASH`.  With
the all-ones word for it, an atom whose `compute_hash()` yields that very word is still unset
after its first `get_hash()` (the cache holds `INVALID_HASH`), and the second `get_hash()`
calls `compute_hash()` again. -/
theorem get_hash_sentinel_counterexample :
    (Atom.get_hash (2 ^ 64 - 1) (some (2 ^ 64 - 1)) (Atom.ctor (2 ^ 64 - 1) 0)).map
        (fun r => r.atom._content_hash) = some (2 ^ 64 - 1)
      ∧ (Atom.get_hash_nth (2 ^ 64 - 1) (some (2 ^ 64 - 1)) 1 (Atom.ctor (2 ^ 64 - 1) 0)).map
        HashCall.computed = some true := by
  decide

/-- C2, amended: for every value `v` other than `Handle::INVALID_HASH`, the first `get_hash()`
on a freshly constructed atom whose `compute_hash()` yields `v` calls `compute_hash()`, returns
`v` and leaves the atom in the computed state (the cache differs from `INVALID_HASH`); every
later `get_hash()` returns `v` without calling `compute_hash()`. -/
theorem get_hash_memoized (I v : ContentHash) (t : AtomType) (hv : v ≠ I) :
    ∃ r1, Atom.get_hash I (some v) (Atom.ctor I t) = some r1
      ∧ r1.value = v ∧ r1.computed = true ∧ r1.atom._content_hash ≠ I
      ∧ ∀ n, ∃ r2, Atom.get_hash_nth I (some v) n r1.atom = some r2
          ∧ r2.value = v ∧ r2.computed = false ∧ r2.atom = r1.atom := by
  refine ⟨{ value := v, atom := { Atom.ctor I t with _content_hash := v }, computed := true },
    ?_, rfl, rfl, hv, ?_⟩
  · simp [Atom.get_hash, Atom.ctor]
  · intro n
    induction n with
    | zero =>
      refine ⟨{ value := v, atom := { Atom.ctor I t with _content_hash := v },
                computed := false }, ?_, rfl, rfl, rfl⟩
      simp [Atom.get_hash_nth, Atom.get_hash, Ne.symm hv]
    | succ n ih =>
      obtain ⟨r2, h2, hval, hcomp, hatom⟩ := ih
      refine ⟨r2, ?_, hval, hcomp, hatom⟩
      simp only [Atom.get_hash_nth, Atom.get_hash, ne_eq, Ne.symm hv, not_false_eq_true,
        if_true]
      exact h2

/-- Memoization at hash 17, type 3, with the all-ones word for `Handle::INVALID_HASH`. -/
theorem get_hash_memoized_witness :
    (17 : ContentHash) ≠ 2 ^ 64 - 1
      ∧ ∃ r1, Atom.get_hash (2 ^ 64 - 1) (some 17) (Atom.ctor (2 ^ 64 - 1) 3) = some r1
        ∧ r1.value = 17 ∧ r1.computed = true ∧ r1.atom._content_hash ≠ 2 ^ 64 - 1
        ∧ ∀ n, ∃ r2, Atom.get_hash_nth (2 ^ 64 - 1) (some 17) n r1.atom = some r2
            ∧ r2.value = 17 ∧ r2.computed = false ∧ r2.atom = r1.atom :=
  ⟨by decide, get_hash_memoized (2 ^ 64 - 1) 17 3 (by decide)⟩

/-! ## `GrantLink::compute_hash` -/

/-- A closed grant with first outgoing atom `h` hashes to `closed_hash`. -/
theorem GrantLink.compute_hash_closed {α : Type} (E : Env α) (g : GrantLink α) (h : α)
    (r : List α) (ho : g._outgoing = h :: r) (hc : E.is_closed g._outgoing = true) :
    g.compute_hash E
      = some (GrantLink.closed_hash E.INVALID_HASH (E.getTypeHash g._type) (E.get_hash h)) := by
  unfold GrantLink.compute_hash
  rw [if_neg (by simp [hc])]
  rw [ho]

/-- A 64-bit word has its top bit set exactly when it is at least `2 ^ 63`. -/
theorem testBit_63_of_le (x : Nat) (h : 2 ^ 63 ≤ x) (hlt : x < 2 ^ 64) :
    x.testBit 63 = true := by
  rw [Nat.testBit_to_div_mod]
  simp only [decide_eq_true_eq]
  omega

/-- The step `hsh ^= hsh >> 33` keeps a 64-bit word a 64-bit word. -/
theorem xorshift_lt (x : Nat) (hx : x < 2 ^ 64) : x ^^^ (x >>> 33) < 2 ^ 64 := by
  apply Nat.xor_lt_two_pow hx
  rw [Nat.shiftRight_eq_div_pow]
  exact lt_of_le_of_lt (Nat.div_le_self _ _) hx

/-- The step `hsh |= mask` sets the top bit of a 64-bit word. -/
theorem or_mask_bounds (y : Nat) (hy : y < 2 ^ 64) :
    2 ^ 63 ≤ y ||| (1 <<< (8 * 8 - 1)) % 2 ^ 64 ∧ y ||| (1 <<< (8 * 8 - 1)) % 2 ^ 64 < 2 ^ 64 := by
  have hm : (1 <<< (8 * 8 - 1)) % 2 ^ 64 = 2 ^ 63 := by decide
  rw [hm]
  constructor
  · apply Nat.testBit_implies_ge
    rw [Nat.testBit_or, Nat.testBit_two_pow_self, Bool.or_true]
  · exact Nat.or_lt_two_pow hy (by decide)

/-- The mixed value is a 64-bit word with the top bit set. -/
theorem GrantLink.mix_bounds (th hh : ContentHash) :
    2 ^ 63 ≤ GrantLink.mix th hh ∧ GrantLink.mix th hh < 2 ^ 64 := by
  unfold GrantLink.mix
  exact or_mask_bounds _ (xorshift_lt _ (Nat.mod_lt _ (by decide)))

/-- C5: the hash of a closed `GrantLink` is a function of the name-server hash of its type and
of the hash of its first outgoing atom only.  Two closed grants whose types have the same
`getTypeHash` and whose first outgoing atoms have the same `get_hash()` get the same
`compute_hash()` value, whatever the rest `ra`, `rb` of their outgoing sets and whatever the
numeric ids of their types. -/
theorem GrantLink.compute_hash_first_only {α : Type} (E : Env α) (a b : GrantLink α)
    (a0 b0 : α) (ra rb : List α)
    (hoa : a._outgoing = a0 :: ra) (hob : b._outgoing = b0 :: rb)
    (hca : E.is_closed a._outgoing = true) (hcb : E.is_closed b._outgoing = true)
    (hth : E.getTypeHash a._type = E.getTypeHash b._type)
    (hh : E.get_hash a0 = E.get_hash b0) :
    a.compute_hash E = b.compute_hash E ∧ (a.compute_hash E).isSome = true := by
  rw [GrantLink.compute_hash_closed E a a0 ra hoa hca,
    GrantLink.compute_hash_closed E b b0 rb hob hcb, hth, hh]
  exact ⟨rfl, rfl⟩

/-- Two closed grants of different numeric types 10 and 20 redirected to the same type hash,
with first atoms 4 and 9 of equal hash, and different second atoms. -/
theorem GrantLink.compute_hash_first_only_witness :
    (GrantLink.ctor { Env.sample with getTypeHash := fun _ => 7, get_hash := fun _ => 1 }
        1 [4, 5] 10).compute_hash
        { Env.sample with getTypeHash := fun _ => 7, get_hash := fun _ => 1 }
      = (GrantLink.ctor { Env.sample with getTypeHash := fun _ => 7, get_hash := fun _ => 1 }
        2 [9, 6, 8] 20).compute_hash
        { Env.sample with getTypeHash := fun _ => 7, get_hash := fun _ => 1 }
    ∧ ((GrantLink.ctor { Env.sample with getTypeHash := fun _ => 7, get_hash := fun _ => 1 }
        1 [4, 5] 10).compute_hash
        { Env.sample with getTypeHash := fun _ => 7, get_hash := fun _ => 1 }).isSome = true :=
  GrantLink.compute_hash_first_only
    { Env.sample with getTypeHash := fun _ => 7, get_hash := fun _ => 1 }
    (GrantLink.ctor _ 1 [4, 5] 10) (GrantLink.ctor _ 2 [9, 6, 8] 20) 4 9 [5] [6, 8]
    rfl rfl rfl rfl rfl rfl

/-- C6: for every closed `GrantLink` (every type hash, every hash of the first outgoing atom),
`compute_hash()` returns a 64-bit word whose most significant bit (bit 63) is set, also when
the value is moved off `Handle::INVALID_HASH` by the final `hsh -= 1`.  `Handle.h` is not among
the sources; the statement holds for every value of `INVALID_HASH` other than the single word
`2 ^ 63`, so in particular for the all-ones word. -/
theorem GrantLink.compute_hash_msb {α : Type} (E : Env α) (g : GrantLink α)
    (h : α) (r : List α) (ho : g._outgoing = h :: r)
    (hc : E.is_closed g._outgoing = true) (hI : E.INVALID_HASH ≠ 2 ^ 63) :
    ∃ v, g.compute_hash E = some v ∧ v < 2 ^ 64 ∧ v.testBit 63 = true := by
  rw [GrantLink.compute_hash_closed E g h r ho hc]
  unfold GrantLink.closed_hash
  have hb : ∀ m : Nat, 2 ^ 63 ≤ m → m < 2 ^ 64 →
      (if E.INVALID_HASH = m then (m + 2 ^ 64 - 1) % 2 ^ 64 else m) < 2 ^ 64
        ∧ (if E.INVALID_HASH = m then (m + 2 ^ 64 - 1) % 2 ^ 64 else m).testBit 63 = true := by
    intro m hlo hhi
    by_cases heq : E.INVALID_HASH = m
    · rw [if_pos heq]
      have hne : m ≠ 2 ^ 63 := by
        rw [← heq]; exact hI
      have hsub : (m + 2 ^ 64 - 1) % 2 ^ 64 = m - 1 := by
        omega
      rw [hsub]
      exact ⟨by omega, testBit_63_of_le _ (by omega) (by omega)⟩
    · rw [if_neg heq]
      exact ⟨hhi, testBit_63_of_le _ hlo hhi⟩
  obtain ⟨hlo, hhi⟩ := GrantLink.mix_bounds (E.getTypeHash g._type) (E.get_hash h)
  exact ⟨_, rfl, hb _ hlo hhi⟩

/-- The top bit of the hash of the closed grant of type 7 over atoms 5 and 6, with the all-ones
word for `Handle::INVALID_HASH`. -/
theorem GrantLink.compute_hash_msb_witness :
    Env.sample.INVALID_HASH ≠ 2 ^ 63
      ∧ ∃ v, (GrantLink.ctor Env.sample 1 [5, 6] 7).compute_hash Env.sample = some v
        ∧ v < 2 ^ 64 ∧ v.testBit 63 = true :=
  ⟨by decide,
    GrantLink.compute_hash_msb Env.sample (GrantLink.ctor Env.sample 1 [5, 6] 7) 5 [6]
      rfl rfl (by decide)⟩

/-! ## `GrantLink::operator==` -/

/-- On a closed grant with a coherent cache, `get_hash()` returns `closed_hash`. -/
theorem GrantLink.get_hash_closed {α : Type} (E : Env α) (g : GrantLink α) (h : α)
    (r : List α) (ho : g._outgoing = h :: r) (hc : E.is_closed g._outgoing = true)
    (hcoh : g.HashCoherent E) :
    ∃ c, g.get_hash E = some c
      ∧ c.value = GrantLink.closed_hash E.INVALID_HASH (E.getTypeHash g._type) (E.get_hash h) := by
  unfold GrantLink.get_hash
  unfold GrantLink.HashCoherent at hcoh
  rw [GrantLink.compute_hash_closed E g h r ho hc] at hcoh ⊢
  have hcoh2 : Atom.HashCoherent E.INVALID_HASH
      (GrantLink.closed_hash E.INVALID_HASH (E.getTypeHash g._type) (E.get_hash h)) g.toAtom := by
    rcases hcoh with h1 | h1
    · exact Or.inl h1
    · exact Or.inr (Option.some.inj h1)
  obtain ⟨c, hc1, hc2, -⟩ := Atom.get_hash_coherent _ _ _ hcoh2
  exact ⟨c, hc1, hc2⟩

/-- The constructor of a `GrantLink` leaves the cache unset. -/
theorem GrantLink.ctor_cache_unset {α : Type} (E : Env α) (addr : Nat) (oset : List α)
    (t : AtomType) : (GrantLink.ctor E addr oset t).HashCoherent E :=
  Or.inl rfl

/-- What `operator==` computes on two distinct closed grants with coherent caches. -/
theorem GrantLink.operator_eq_closed {α : Type} (E : Env α) (a b : GrantLink α)
    (a0 b0 : α) (ra rb : List α)
    (hoa : a._outgoing = a0 :: ra) (hob : b._outgoing = b0 :: rb)
    (hca : E.is_closed a._outgoing = true) (hcb : E.is_closed b._outgoing = true)
    (hcoha : a.HashCoherent E) (hcohb : b.HashCoherent E) (hne : a.addr ≠ b.addr) :
    a.operator_eq E b
      = some (decide (GrantLink.closed_hash E.INVALID_HASH (E.getTypeHash a._type)
                (E.get_hash a0)
              = GrantLink.closed_hash E.INVALID_HASH (E.getTypeHash b._type) (E.get_hash b0))
          && decide (a._type = b._type) && E.atom_eq a0 b0) := by
  obtain ⟨ca, hga, hva⟩ := GrantLink.get_hash_closed E a a0 ra hoa hca hcoha
  obtain ⟨cb, hgb, hvb⟩ := GrantLink.get_hash_closed E b b0 rb hob hcb hcohb
  unfold GrantLink.operator_eq
  rw [if_neg (by simp [hca]), if_neg hne, hga, hgb]
  simp only [hva, hvb, hoa, hob]
  generalize GrantLink.closed_hash E.INVALID_HASH (E.getTypeHash a._type) (E.get_hash a0) = va
  generalize GrantLink.closed_hash E.INVALID_HASH (E.getTypeHash b._type) (E.get_hash b0) = vb
  by_cases h1 : va = vb
  · by_cases h2 : a._type = b._type
    · cases h3 : E.atom_eq a0 b0 <;> simp [h1, h2]
    · simp [h1, h2]
  · simp [h1]

/-- C3: content equality law for `GrantLink`.  Let `a` and `b` be closed grants of the same
type, each in a state that construction and `get_hash()` can leave it in (the hash cache unset,
as right after independent construction, or filled), whose outgoing sets have the same length
and hold, position by position, content-equal atoms, where content-equal atoms have equal
hashes.  Then `get_hash()` returns the same value on both, and `a == b` and `b == a` are both
true. -/
theorem GrantLink.content_equality_law {α : Type} (E : Env α) (a b : GrantLink α)
    (hne : a._outgoing ≠ [])
    (ht : a._type = b._type)
    (hca : E.is_closed a._outgoing = true) (hcb : E.is_closed b._outgoing = true)
    (hcoha : a.HashCoherent E) (hcohb : b.HashCoherent E)
    (hout : List.Forall₂ (fun x y => E.atom_eq x y = true ∧ E.atom_eq y x = true)
      a._outgoing b._outgoing)
    (hhash : ∀ x y, E.atom_eq x y = true → E.get_hash x = E.get_hash y) :
    (∃ ca cb, a.get_hash E = some ca ∧ b.get_hash E = some cb ∧ ca.value = cb.value)
      ∧ a.operator_eq E b = some true ∧ b.operator_eq E a = some true := by
  obtain ⟨a0, ra, hoa⟩ := List.exists_cons_of_ne_nil hne
  rw [hoa] at hout
  obtain ⟨b0, rb, ⟨hab, hba⟩, -, hob⟩ := List.forall₂_cons_left_iff.mp hout
  obtain ⟨ca, hga, hva⟩ := GrantLink.get_hash_closed E a a0 ra hoa hca hcoha
  obtain ⟨cb, hgb, hvb⟩ := GrantLink.get_hash_closed E b b0 rb hob hcb hcohb
  have hv : GrantLink.closed_hash E.INVALID_HASH (E.getTypeHash a._type) (E.get_hash a0)
      = GrantLink.closed_hash E.INVALID_HASH (E.getTypeHash b._type) (E.get_hash b0) := by
    rw [ht, hhash a0 b0 hab]
  refine ⟨⟨ca, cb, hga, hgb, by rw [hva, hvb, hv]⟩, ?_, ?_⟩
  · by_cases hadd : a.addr = b.addr
    · unfold GrantLink.operator_eq
      rw [if_neg (by simp [hca]), if_pos hadd]
    · rw [GrantLink.operator_eq_closed E a b a0 b0 ra rb hoa hob hca hcb hcoha hcohb hadd]
      rw [hv]
      simp [ht, hab]
  · by_cases hadd : b.addr = a.addr
    · unfold GrantLink.operator_eq
      rw [if_neg (by simp [hcb]), if_pos hadd]
    · rw [GrantLink.operator_eq_closed E b a b0 a0 rb ra hob hoa hcb hca hcohb hcoha hadd]
      rw [← hv]
      simp [ht, hba]

/-- The law on two grants of type 7 built independently, at addresses 1 and 2, over the
atoms 5 and 6. -/
theorem GrantLink.content_equality_law_witness :
    (∃ ca cb, (GrantLink.ctor Env.sample 1 [5, 6] 7).get_hash Env.sample = some ca
        ∧ (GrantLink.ctor Env.sample 2 [5, 6] 7).get_hash Env.sample = some cb
        ∧ ca.value = cb.value)
      ∧ (GrantLink.ctor Env.sample 1 [5, 6] 7).operator_eq Env.sample
          (GrantLink.ctor Env.sample 2 [5, 6] 7) = some true
      ∧ (GrantLink.ctor Env.sample 2 [5, 6] 7).operator_eq Env.sample
          (GrantLink.ctor Env.sample 1 [5, 6] 7) = some true :=
  GrantLink.content_equality_law Env.sample (GrantLink.ctor Env.sample 1 [5, 6] 7)
    (GrantLink.ctor Env.sample 2 [5, 6] 7) (by decide) rfl rfl rfl
    (GrantLink.ctor_cache_unset _ _ _ _) (GrantLink.ctor_cache_unset _ _ _ _)
    (List.Forall₂.cons ⟨rfl, rfl⟩ (List.Forall₂.cons ⟨rfl, rfl⟩ List.Forall₂.nil))
    (fun x y h => by simpa [Env.sample] using h)

/-- C4: for closed grants `a` and `b` of the same type (each with a coherent hash cache, two
objects at one address being one object), where content-equal atoms have equal hashes and an
atom is content-equal to itself, `a == b` is the content comparison of the first outgoing atom
`a0` of `a` with the first outgoing atom `b0` of `b`: it is true if and only if they are
content-equal.  The rests `ra` and `rb` of the outgoing sets, which hold the second atoms, do
not occur in the result. -/
theorem GrantLink.operator_eq_iff_first {α : Type} (E : Env α) (a b : GrantLink α)
    (a0 b0 : α) (ra rb : List α)
    (hoa : a._outgoing = a0 :: ra) (hob : b._outgoing = b0 :: rb)
    (hca : E.is_closed a._outgoing = true) (hcb : E.is_closed b._outgoing = true)
    (ht : a._type = b._type)
    (hcoha : a.HashCoherent E) (hcohb : b.HashCoherent E)
    (hhash : ∀ x y, E.atom_eq x y = true → E.get_hash x = E.get_hash y)
    (hrefl : ∀ x, E.atom_eq x x = true)
    (hsame : a.addr = b.addr → a = b) :
    a.operator_eq E b = some (E.atom_eq a0 b0)
      ∧ (a.operator_eq E b = some true ↔ E.atom_eq a0 b0 = true) := by
  have key : a.operator_eq E b = some (E.atom_eq a0 b0) := by
    by_cases hadd : a.addr = b.addr
    · have hab : a = b := hsame hadd
      have h0 : a0 = b0 := by
        rw [hab, hob] at hoa
        exact ((List.cons.inj hoa).1).symm
      unfold GrantLink.operator_eq
      rw [if_neg (by simp [hca]), if_pos hadd, h0, hrefl]
    · rw [GrantLink.operator_eq_closed E a b a0 b0 ra rb hoa hob hca hcb hcoha hcohb hadd]
      cases h3 : E.atom_eq a0 b0
      · simp
      · simp [ht, hhash a0 b0 h3]
  refine ⟨key, ?_⟩
  rw [key]
  simp

/-- The comparison of two grants of type 7 at addresses 1 and 2 whose first atoms are both 5
and whose second atoms, 6 and 9, differ. -/
theorem GrantLink.operator_eq_iff_first_witness :
    (GrantLink.ctor Env.sample 1 [5, 6] 7).operator_eq Env.sample
        (GrantLink.ctor Env.sample 2 [5, 9] 7) = some (Env.sample.atom_eq 5 5)
      ∧ ((GrantLink.ctor Env.sample 1 [5, 6] 7).operator_eq Env.sample
          (GrantLink.ctor Env.sample 2 [5, 9] 7) = some true
        ↔ Env.sample.atom_eq 5 5 = true) :=
  GrantLink.operator_eq_iff_first Env.sample (GrantLink.ctor Env.sample 1 [5, 6] 7)
    (GrantLink.ctor Env.sample 2 [5, 9] 7) 5 5 [6] [9] rfl rfl rfl rfl rfl
    (GrantLink.ctor_cache_unset _ _ _ _) (GrantLink.ctor_cache_unset _ _ _ _)
    (fun x y h => by simpa [Env.sample] using h)
    (fun x => by simp [Env.sample])
    (fun h => absurd h (by decide))

/-! ## The lock slot of an atom -/

/-- C7, evaluated: the pool slot that the lock macros of an atom select is
`_content_hash % POOL_SIZE`, and `get_hash()` changes `_content_hash`.  With the all-ones word
for `Handle::INVALID_HASH`, the closed grant of type hash 0 whose first outgoing atom has hash
0 selects slot 255 from its construction to its first `get_hash()`, which returns `2 ^ 63`, and
slot 0 from then on. -/
theorem Atom.mutex_slot_changes :
    (GrantLink.ctor Env.sample 1 [0, 0] 0).toAtom._MTX = 255
      ∧ ((GrantLink.ctor Env.sample 1 [0, 0] 0).get_hash Env.sample).map HashCall.value
        = some (2 ^ 63)
      ∧ ((GrantLink.ctor Env.sample 1 [0, 0] 0).get_hash Env.sample).map
        (fun c => c.atom._MTX) = some 0 := by
  decide

/-! ## The incoming set: `WincomingSet` and `InSetMap` -/

theorem WincomingSet.mem_insert_self (ws : WincomingSet) (w : WinkPtr) :
    w ∈ WincomingSet.insert ws w := by
  induction ws with
  | nil => simp [WincomingSet.insert]
  | cons x xs ih =>
    unfold WincomingSet.insert
    by_cases h1 : w = x
    · simp [h1]
    · by_cases h2 : w < x
      · simp [h1, h2]
      · simp [h1, h2, ih]

theorem WincomingSet.mem_insert_of_mem (ws : WincomingSet) (w x : WinkPtr) (hx : x ∈ ws) :
    x ∈ WincomingSet.insert ws w := by
  induction ws with
  | nil => simp at hx
  | cons y ys ih =>
    unfold WincomingSet.insert
    by_cases h1 : w = y
    · simpa [h1] using hx
    · by_cases h2 : w < y
      · simp only [h1, h2, if_false, if_true]
        exact List.mem_cons_of_mem _ hx
      · simp only [h1, h2, if_false]
        rcases List.mem_cons.mp hx with h | h
        · simp [h]
        · exact List.mem_cons_of_mem _ (ih h)

theorem InSetMap.find_put_self (m : InSetMap) (t : AtomType) (ws : WincomingSet) :
    InSetMap.find (InSetMap.put m t ws) t = some ws := by
  induction m with
  | nil => simp [InSetMap.put, InSetMap.find]
  | cons kb m ih =>
    obtain ⟨k, b⟩ := kb
    unfold InSetMap.put
    by_cases h1 : t = k
    · simp [h1, InSetMap.find]
    · by_cases h2 : t < k
      · simp [h1, h2, InSetMap.find]
      · simp only [h1, h2, if_false, InSetMap.find, Ne.symm h1]
        exact ih

theorem InSetMap.find_put_ne (m : InSetMap) (t t2 : AtomType) (ws : WincomingSet)
    (hne : t2 ≠ t) :
    InSetMap.find (InSetMap.put m t ws) t2 = InSetMap.find m t2 := by
  induction m with
  | nil => simp [InSetMap.put, InSetMap.find, Ne.symm hne]
  | cons kb m ih =>
    obtain ⟨k, b⟩ := kb
    unfold InSetMap.put
    by_cases h1 : t = k
    · subst h1
      simp [InSetMap.find, Ne.symm hne]
    · by_cases h2 : t < k
      · simp [h1, h2, InSetMap.find, Ne.symm hne]
      · simp only [h1, h2, if_false, InSetMap.find]
        rw [ih]

theorem InSetMap.mem_of_find (m : InSetMap) (t : AtomType) (b : WincomingSet)
    (h : InSetMap.find m t = some b) : (t, b) ∈ m := by
  induction m with
  | nil => simp [InSetMap.find] at h
  | cons kb m ih =>
    obtain ⟨k, b2⟩ := kb
    unfold InSetMap.find at h
    by_cases h1 : k = t
    · simp only [h1, if_true, Option.some.injEq] at h
      simp [h1, h]
    · simp only [h1, if_false] at h
      exact List.mem_cons_of_mem _ (ih h)

theorem InSetMap.mem_put (m : InSetMap) (t : AtomType) (ws : WincomingSet)
    (kb : AtomType × WincomingSet) (h : kb ∈ InSetMap.put m t ws) :
    kb = (t, ws) ∨ kb ∈ m := by
  induction m with
  | nil =>
    simp only [InSetMap.put, List.mem_singleton] at h
    exact Or.inl h
  | cons kb2 m ih =>
    obtain ⟨k, b⟩ := kb2
    unfold InSetMap.put at h
    by_cases h1 : t = k
    · simp only [h1, if_true, List.mem_cons] at h
      rcases h with h | h
      · left; rw [h, h1]
      · right; exact List.mem_cons_of_mem _ h
    · by_cases h2 : t < k
      · simp only [h1, h2, if_false, if_true, List.mem_cons] at h
        rcases h with h | h | h
        · exact Or.inl h
        · right; simp [h]
        · right; exact List.mem_cons_of_mem _ h
      · simp only [h1, h2, if_false, List.mem_cons] at h
        rcases h with h | h
        · right; simp [h]
        · rcases ih h with h3 | h3
          · exact Or.inl h3
          · right; exact List.mem_cons_of_mem _ h3

theorem InSetMap.find_of_mem (m : InSetMap) (k : AtomType) (b : WincomingSet)
    (h : (k, b) ∈ m) : ∃ b2, InSetMap.find m k = some b2 := by
  induction m with
  | nil => simp at h
  | cons kb m ih =>
    obtain ⟨k2, b2⟩ := kb
    unfold InSetMap.find
    by_cases h1 : k2 = k
    · exact ⟨b2, by simp [h1]⟩
    · simp only [h1, if_false]
      rcases List.mem_cons.mp h with h2 | h2
      · exact absurd (congrArg Prod.fst h2).symm h1
      · exact ih h2

/-- In a map with strictly increasing keys, `put` leaves no other entry under the key. -/
theorem InSetMap.mem_put_sorted (m : InSetMap) (t : AtomType) (ws : WincomingSet)
    (hs : InSetMap.Sorted m) (kb : AtomType × WincomingSet)
    (h : kb ∈ InSetMap.put m t ws) : kb = (t, ws) ∨ (kb ∈ m ∧ kb.1 ≠ t) := by
  induction m with
  | nil =>
    simp only [InSetMap.put, List.mem_singleton] at h
    exact Or.inl h
  | cons kb2 m ih =>
    obtain ⟨k, b⟩ := kb2
    unfold InSetMap.Sorted at hs
    rw [List.pairwise_cons] at hs
    obtain ⟨hk, hm⟩ := hs
    unfold InSetMap.put at h
    by_cases h1 : t = k
    · simp only [h1, if_true, List.mem_cons] at h
      rcases h with h | h
      · left; rw [h, h1]
      · right
        have h3 : (k : Nat) < (kb.1 : Nat) := hk kb h
        exact ⟨List.mem_cons_of_mem _ h,
          fun e => Nat.lt_irrefl k (lt_of_lt_of_eq h3 (e.trans h1))⟩
    · by_cases h2 : t < k
      · simp only [h1, h2, if_false, if_true, List.mem_cons] at h
        rcases h with h | h | h
        · exact Or.inl h
        · right
          refine ⟨by simp [h], ?_⟩
          rw [h]
          exact Ne.symm h1
        · right
          have h3 : (k : Nat) < (kb.1 : Nat) := hk kb h
          have h5 : (t : Nat) < (k : Nat) := h2
          exact ⟨List.mem_cons_of_mem _ h,
            fun e => Nat.lt_irrefl t (Nat.lt_trans h5 (lt_of_lt_of_eq h3 e))⟩
      · simp only [h1, h2, if_false, List.mem_cons] at h
        rcases h with h | h
        · right
          refine ⟨by simp [h], ?_⟩
          rw [h]
          exact Ne.symm h1
        · rcases ih hm h with h3 | h3
          · exact Or.inl h3
          · exact Or.inr ⟨List.mem_cons_of_mem _ h3.1, h3.2⟩

theorem InSetMap.put_sorted (m : InSetMap) (t : AtomType) (ws : WincomingSet)
    (hs : InSetMap.Sorted m) : InSetMap.Sorted (InSetMap.put m t ws) := by
  induction m with
  | nil => simp [InSetMap.put, InSetMap.Sorted]
  | cons kb2 m ih =>
    obtain ⟨k, b⟩ := kb2
    unfold InSetMap.Sorted at hs ih ⊢
    rw [List.pairwise_cons] at hs
    obtain ⟨hk, hm⟩ := hs
    unfold InSetMap.put
    by_cases h1 : t = k
    · simp only [h1, if_true]
      exact List.pairwise_cons.mpr ⟨hk, hm⟩
    · by_cases h2 : t < k
      · simp only [h1, h2, if_false, if_true]
        refine List.pairwise_cons.mpr ⟨?_, List.pairwise_cons.mpr ⟨hk, hm⟩⟩
        intro x hx
        rcases List.mem_cons.mp hx with e | e
        · rw [e]; exact h2
        · have h3 : (k : Nat) < (x.1 : Nat) := hk x e
          have h5 : (t : Nat) < (k : Nat) := h2
          exact Nat.lt_trans h5 h3
      · simp only [h1, h2, if_false]
        refine List.pairwise_cons.mpr ⟨?_, ih hm⟩
        intro x hx
        rcases InSetMap.mem_put m t ws x hx with e | e
        · rw [e]
          have h5 : ¬ (t : Nat) < (k : Nat) := h2
          have h6 : ¬ (t : Nat) = (k : Nat) := h1
          exact Nat.lt_of_le_of_ne (Nat.le_of_not_lt h5) (Ne.symm h6)
        · exact hk x e

/-! ## `insert_atom`, `remove_atom` and the enumerators -/

theorem Atom.insert_atom_registered (a : Atom) (ty : AtomType) (w : WinkPtr) :
    (a.insert_atom ty w).Registered ty w :=
  ⟨_, InSetMap.find_put_self _ _ _, WincomingSet.mem_insert_self _ _⟩

theorem Atom.insert_atom_registered_mono (a : Atom) (ty : AtomType) (w : WinkPtr)
    (t : AtomType) (x : WinkPtr) (h : a.Registered t x) :
    (a.insert_atom ty w).Registered t x := by
  obtain ⟨b, hb, hx⟩ := h
  by_cases e : t = ty
  · subst e
    refine ⟨_, InSetMap.find_put_self _ _ _, ?_⟩
    rw [hb]
    exact WincomingSet.mem_insert_of_mem _ _ _ hx
  · refine ⟨b, ?_, hx⟩
    unfold Atom.insert_atom
    simp only
    rw [InSetMap.find_put_ne _ _ _ _ e]
    exact hb

theorem Atom.remove_atom_type (a : Atom) (ty : AtomType) (w : WinkPtr) :
    (a.remove_atom ty w)._type = a._type := by
  unfold Atom.remove_atom
  split <;> rfl

theorem Atom.remove_atom_flags (a : Atom) (ty : AtomType) (w : WinkPtr) :
    (a.remove_atom ty w)._flags = a._flags := by
  unfold Atom.remove_atom
  split <;> rfl

theorem Atom.remove_atom_clean (a : Atom) (ty : AtomType) (w : WinkPtr)
    (h : a.OnlyUnder ty w) : (a.remove_atom ty w).Clean w := by
  obtain ⟨hs, ho⟩ := h
  unfold Atom.remove_atom
  split
  · rename_i hf
    intro kb hkb hw
    have hk := ho kb hkb hw
    obtain ⟨b2, hb2⟩ := InSetMap.find_of_mem a._incoming_set kb.1 kb.2 hkb
    rw [hk, hf] at hb2
    cases hb2
  · rename_i b hf
    intro kb hkb hw
    rcases InSetMap.mem_put_sorted _ _ _ hs kb hkb with e | ⟨hin, hne⟩
    · rw [e] at hw
      simp [WincomingSet.erase] at hw
    · exact hne (ho kb hin hw)

theorem Atom.remove_atom_sorted (a : Atom) (ty : AtomType) (w : WinkPtr)
    (h : InSetMap.Sorted a._incoming_set) :
    InSetMap.Sorted (a.remove_atom ty w)._incoming_set := by
  unfold Atom.remove_atom
  split
  · exact h
  · exact InSetMap.put_sorted _ _ _ h

theorem Atom.remove_atom_onlyUnder (a : Atom) (ty : AtomType) (w : WinkPtr)
    (h : a.OnlyUnder ty w) : (a.remove_atom ty w).OnlyUnder ty w :=
  ⟨Atom.remove_atom_sorted a ty w h.1,
    fun kb hkb hw => absurd hw (Atom.remove_atom_clean a ty w h kb hkb)⟩

theorem Atom.remove_atom_clean_of_clean (a : Atom) (ty : AtomType) (w : WinkPtr)
    (h : a.Clean w) : (a.remove_atom ty w).Clean w := by
  unfold Atom.remove_atom
  split
  · exact h
  · rename_i b hf
    intro kb hkb hw
    rcases InSetMap.mem_put _ _ _ kb hkb with e | hin
    · rw [e] at hw
      simp [WincomingSet.erase] at hw
    · exact h kb hin hw

theorem WEAKLY_DO_mem (use_count : Nat → Nat) (w : WinkPtr) (h : Handle) :
    h ∈ WEAKLY_DO use_count w ↔ use_count w ≠ 0 ∧ h = some w := by
  unfold WEAKLY_DO WinkPtr.lock
  by_cases hc : use_count w = 0
  · simp [hc]
  · simp [hc]

theorem Atom.mem_getIncomingSetByType (use_count : Nat → Nat) (a : Atom) (ty : AtomType)
    (w : WinkPtr) (hfl : a._flags &&& USE_ISET_FLAG ≠ 0) (hr : a.Registered ty w)
    (hu : use_count w ≠ 0) : some w ∈ a.getIncomingSetByType use_count ty := by
  obtain ⟨b, hb, hw⟩ := hr
  unfold Atom.getIncomingSetByType
  rw [if_neg hfl, hb]
  simp only [List.mem_flatMap]
  exact ⟨w, hw, (WEAKLY_DO_mem use_count w (some w)).mpr ⟨hu, rfl⟩⟩

theorem Atom.not_mem_getIncomingIter (use_count : Nat → Nat) (a : Atom) (w : WinkPtr)
    (hc : a.Clean w) : some w ∉ a.getIncomingIter use_count := by
  unfold Atom.getIncomingIter
  split
  · simp
  · intro hmem
    simp only [List.mem_flatMap] at hmem
    obtain ⟨kb, hkb, x, hx, hwx⟩ := hmem
    obtain ⟨-, e⟩ := (WEAKLY_DO_mem use_count x (some w)).mp hwx
    cases e
    exact hc kb hkb hx

/-! ## Stores -/

theorem Store.Keeps.refl (K : (Atom → Prop) → Prop) (s : Store) : Store.Keeps K s s :=
  ⟨rfl, fun _ o ho => ⟨o, ho, rfl, rfl, rfl, fun _ _ hp => hp⟩⟩

theorem Store.Keeps.trans (K : (Atom → Prop) → Prop) (s1 s2 s3 : Store)
    (h12 : Store.Keeps K s1 s2) (h23 : Store.Keeps K s2 s3) : Store.Keeps K s1 s3 := by
  refine ⟨h23.1.trans h12.1, ?_⟩
  intro q o ho
  obtain ⟨o2, ho2, ht2, hf2, hg2, hP2⟩ := h12.2 q o ho
  obtain ⟨o3, ho3, ht3, hf3, hg3, hP3⟩ := h23.2 q o2 ho2
  exact ⟨o3, ho3, ht3.trans ht2, hf3.trans hf2, hg3.trans hg2,
    fun P hK hp => hP3 P hK (hP2 P hK hp)⟩

/-- One `h->step(a)` call on existing objects succeeds and keeps what `step` keeps. -/
theorem Store.with_atom_keeps (step : Atom → AtomType → WinkPtr → Atom)
    (hty : ∀ a ty w, (step a ty w)._type = a._type)
    (hfl : ∀ a ty w, (step a ty w)._flags = a._flags)
    (s : Store) (p l : Nat) (po lo : AtomObj) (hp : s.obj p = some po)
    (hl : s.obj l = some lo) :
    Store.with_atom step s (some p) (some l)
        = some (s.setAtom p po (step po.toAtom lo._type l))
      ∧ Store.Keeps (fun P => ∀ a, P a → P (step a lo._type l)) s
          (s.setAtom p po (step po.toAtom lo._type l)) := by
  refine ⟨by simp [Store.with_atom, hp, hl], rfl, ?_⟩
  intro q o ho
  by_cases hq : q = p
  · subst hq
    rw [hp] at ho
    cases ho
    refine ⟨{ po with toAtom := step po.toAtom lo._type l }, by simp [Store.setAtom],
      hty _ _ _, hfl _ _ _, rfl, ?_⟩
    intro P hK hP
    exact hK _ hP
  · exact ⟨o, by simp [Store.setAtom, hq, ho], rfl, rfl, rfl, fun _ _ hP => hP⟩

/-- The loop `for (Handle& h : _outgoing) h->step(l)` over existing parents succeeds, keeps what
`step` keeps, and leaves every parent with the property `Q` that one `step` establishes from
`R` and that further steps keep. -/
theorem Store.forOutgoing_with_atom (step : Atom → AtomType → WinkPtr → Atom)
    (hty : ∀ a ty w, (step a ty w)._type = a._type)
    (hfl : ∀ a ty w, (step a ty w)._flags = a._flags)
    (l : Nat) (ty : AtomType) (R Q : Atom → Prop)
    (hR : ∀ a, R a → R (step a ty l))
    (hRQ : ∀ a, R a → Q (step a ty l))
    (hQ : ∀ a, Q a → Q (step a ty l)) :
    ∀ (hs : List Handle) (s : Store),
      (∃ lo, s.obj l = some lo ∧ lo._type = ty) →
      (∀ h ∈ hs, ∃ p po, h = some p ∧ s.obj p = some po ∧ R po.toAtom) →
      ∃ s2, Store.forOutgoing (fun s h => Store.with_atom step s h (some l)) hs s = some s2
        ∧ Store.Keeps (fun P => ∀ a, P a → P (step a ty l)) s s2
        ∧ ∀ h ∈ hs, ∃ p po2, h = some p ∧ s2.obj p = some po2 ∧ Q po2.toAtom := by
  intro hs
  induction hs with
  | nil =>
    intro s _ _
    exact ⟨s, rfl, Store.Keeps.refl _ s, fun h hh => absurd hh (List.not_mem_nil h)⟩
  | cons h hs ih =>
    intro s hl hpar
    obtain ⟨lo, hlo, hlt⟩ := hl
    obtain ⟨p, po, hhp, hpo, hRp⟩ := hpar h (List.mem_cons_self _ _)
    obtain ⟨hstep, hkeep⟩ := Store.with_atom_keeps step hty hfl s p l po lo hpo hlo
    rw [hlt] at hstep hkeep
    have hl1 : ∃ lo1, (s.setAtom p po (step po.toAtom ty l)).obj l = some lo1
        ∧ lo1._type = ty := by
      obtain ⟨o2, ho2, ht2, -⟩ := hkeep.2 l lo hlo
      exact ⟨o2, ho2, ht2.trans hlt⟩
    have hpar1 : ∀ h2 ∈ hs, ∃ p2 po2, h2 = some p2
        ∧ (s.setAtom p po (step po.toAtom ty l)).obj p2 = some po2 ∧ R po2.toAtom := by
      intro h2 hh2
      obtain ⟨p2, po2, e2, hp2, hR2⟩ := hpar h2 (List.mem_cons_of_mem _ hh2)
      obtain ⟨o2, ho2, -, -, -, hP⟩ := hkeep.2 p2 po2 hp2
      exact ⟨p2, o2, e2, ho2, hP R hR hR2⟩
    obtain ⟨s2, hrun, hkeep2, hq2⟩ := ih _ hl1 hpar1
    refine ⟨s2, ?_, Store.Keeps.trans _ _ _ _ hkeep hkeep2, ?_⟩
    · rw [hhp]
      simp only [Store.forOutgoing, hstep]
      exact hrun
    · intro h2 hh2
      rcases List.mem_cons.mp hh2 with e | hin
      · have hp1 : (s.setAtom p po (step po.toAtom ty l)).obj p
            = some { po with toAtom := step po.toAtom ty l } := by
          simp [Store.setAtom]
        obtain ⟨o2, ho2, -, -, -, hP⟩ := hkeep2.2 p _ hp1
        exact ⟨p, o2, e.trans hhp, ho2, hP Q hQ (hRQ _ hRp)⟩
      · exact hq2 h2 hin

/-! ## `Frame::install`, `Frame::remove`, `Frame::~Frame` -/

/-- C8: after `Frame::install()` on a frame `F` (at address `f`, owned by some handle) whose
outgoing set lists parent frames `p1..pn` that track their incoming set (`USE_ISET_FLAG`, as
frames do), the call having returned, every `pi`'s incoming set contains `F` in the bucket of
`F`'s type, and `getIncomingSetByType` on `pi` with `F`'s type emits the handle of `F`. -/
theorem Frame.install_registers (s : Store) (f : Nat) (fo : AtomObj)
    (hf : s.obj f = some fo) (hown : s.use_count f ≠ 0)
    (hpar : ∀ h ∈ fo._outgoing, ∃ p po, h = some p ∧ s.obj p = some po
        ∧ po._flags &&& USE_ISET_FLAG ≠ 0) :
    ∃ s2, Frame.install s f = some s2 ∧
      ∀ h ∈ fo._outgoing, ∃ p po2, h = some p ∧ s2.obj p = some po2
        ∧ po2.toAtom.Registered fo._type f
        ∧ some f ∈ po2.toAtom.getIncomingSetByType s2.use_count fo._type := by
  obtain ⟨s2, hrun, hkeep, hq⟩ :=
    Store.forOutgoing_with_atom Atom.insert_atom (fun _ _ _ => rfl) (fun _ _ _ => rfl)
      f fo._type (fun a => a._flags &&& USE_ISET_FLAG ≠ 0)
      (fun a => a._flags &&& USE_ISET_FLAG ≠ 0 ∧ a.Registered fo._type f)
      (fun _ h => h)
      (fun a h => ⟨h, Atom.insert_atom_registered a _ _⟩)
      (fun a h => ⟨h.1, Atom.insert_atom_registered_mono a _ _ _ _ h.2⟩)
      fo._outgoing s ⟨fo, hf, rfl⟩ hpar
  refine ⟨s2, ?_, ?_⟩
  · unfold Frame.install
    simp only [hf, Store.get_handle, hown, if_false]
    exact hrun
  · intro h hh
    obtain ⟨p, po2, e, hp2, hfl, hreg⟩ := hq h hh
    refine ⟨p, po2, e, hp2, hreg, ?_⟩
    apply Atom.mem_getIncomingSetByType _ _ _ _ hfl hreg
    rw [hkeep.1]
    exact hown

/-- Installing the bottom frame of the diamond of frames of type 5: the frame at 4, with the
parents at 2 and 3. -/
theorem Frame.install_registers_witness :
    ∃ s2, Frame.install (Store.diamond0 5) 4 = some s2 ∧
      ∀ h ∈ (Frame.fresh 5 [2, 3])._outgoing, ∃ p po2, h = some p ∧ s2.obj p = some po2
        ∧ po2.toAtom.Registered (Frame.fresh 5 [2, 3])._type 4
        ∧ some 4 ∈ po2.toAtom.getIncomingSetByType s2.use_count (Frame.fresh 5 [2, 3])._type :=
  Frame.install_registers (Store.diamond0 5) 4 (Frame.fresh 5 [2, 3]) rfl (by decide)
    (by
      intro h hh
      simp only [Frame.fresh, List.map_cons, List.map_nil, List.mem_cons, List.mem_singleton,
        List.not_mem_nil, or_false] at hh
      rcases hh with e | e
      · exact ⟨2, Frame.fresh 5 [1], e, rfl, by decide⟩
      · exact ⟨3, Frame.fresh 5 [1], e, rfl, by decide⟩)

/-- C9: after `Frame::remove()` on an installed frame `F` (at address `f`, owned by some
handle, and filed in the incoming sets of its parents under its own type only, as `install()`
files it), the call having returned, no bucket of the incoming set of any parent of `F`
holds `F`, and the enumeration `getIncomingIter` of every parent does not emit `F`. -/
theorem Frame.remove_unregisters (s : Store) (f : Nat) (fo : AtomObj)
    (hf : s.obj f = some fo) (hown : s.use_count f ≠ 0)
    (hpar : ∀ h ∈ fo._outgoing, ∃ p po, h = some p ∧ s.obj p = some po
        ∧ po.toAtom.OnlyUnder fo._type f) :
    ∃ s2, Frame.remove s f = some s2 ∧
      ∀ h ∈ fo._outgoing, ∃ p po2, h = some p ∧ s2.obj p = some po2
        ∧ po2.toAtom.Clean f
        ∧ some f ∉ po2.toAtom.getIncomingIter s2.use_count := by
  obtain ⟨s2, hrun, -, hq⟩ :=
    Store.forOutgoing_with_atom Atom.remove_atom Atom.remove_atom_type Atom.remove_atom_flags
      f fo._type (fun a => a.OnlyUnder fo._type f) (fun a => a.Clean f)
      (fun a h => Atom.remove_atom_onlyUnder a _ _ h)
      (fun a h => Atom.remove_atom_clean a _ _ h)
      (fun a h => Atom.remove_atom_clean_of_clean a _ _ h)
      fo._outgoing s ⟨fo, hf, rfl⟩ hpar
  refine ⟨s2, ?_, ?_⟩
  · unfold Frame.remove
    simp only [hf, Store.get_handle, hown, if_false]
    exact hrun
  · intro h hh
    obtain ⟨p, po2, e, hp2, hclean⟩ := hq h hh
    exact ⟨p, po2, e, hp2, hclean, Atom.not_mem_getIncomingIter _ _ _ hclean⟩

/-- Removing the bottom frame, at 4, of the installed diamond of frames of type 5. -/
theorem Frame.remove_unregisters_witness :
    (Store.diamondI 5).getIncomingIter 2 = some [some 4]
      ∧ ∃ s2, Frame.remove (Store.diamondI 5) 4 = some s2 ∧
        ∀ h ∈ (Frame.fresh 5 [2, 3])._outgoing, ∃ p po2, h = some p ∧ s2.obj p = some po2
          ∧ po2.toAtom.Clean 4
          ∧ some 4 ∉ po2.toAtom.getIncomingIter s2.use_count :=
  ⟨by decide,
    Frame.remove_unregisters (Store.diamondI 5) 4 (Frame.fresh 5 [2, 3]) (by decide) (by decide)
      (by
        intro h hh
        simp only [Frame.fresh, List.map_cons, List.map_nil, List.mem_cons, List.mem_singleton,
          List.not_mem_nil, or_false] at hh
        rcases hh with e | e
        · exact ⟨2, { Frame.fresh 5 [1] with _incoming_set := [(5, [4])] }, e, by decide,
            by simp [Atom.OnlyUnder, InSetMap.Sorted, Frame.fresh]⟩
        · exact ⟨3, { Frame.fresh 5 [1] with _incoming_set := [(5, [4])] }, e, by decide,
            by simp [Atom.OnlyUnder, InSetMap.Sorted, Frame.fresh]⟩)⟩

/-- C10, evaluated on diamonds of installed frames (root at 1, its children at 2 and 3, the
frame at 4 below both).  First, the diamond of frames of type 5 under a name server whose only
Frame type is 5: destroying the frame at 4 (its one owner lets go, no `remove()` before)
leaves the enumerations of its parents 2 and 3 empty, and destroying the frame at 2 next
leaves the enumeration of the root with the one surviving child 3.  Second, the same diamond
under a name server with the Frame types 5 and 6: the destructor of the frame at 4 scrubs its
parent 2, which has no bucket for type 6, and `bucket->second` is taken of `end()`: the
destruction has no defined result, whatever the fuel.  Third, a diamond of frames of type 4
under a name server whose `getChildrenRecursive(FRAME)` is the one type 5: the same. -/
theorem Frame.teardown_diamond :
    ((Store.diamond 5).bind (fun s => s.getIncomingIter 1) = some [some 2, some 3]
      ∧ (Store.diamond 5).bind (fun s => s.getIncomingIter 2) = some [some 4]
      ∧ (Store.diamond 5).bind (fun s => s.getIncomingIter 3) = some [some 4])
    ∧ (((Store.diamond 5).bind (fun s => Store.release [5] 2 s 4)).bind
          (fun s => s.getIncomingIter 2) = some []
      ∧ ((Store.diamond 5).bind (fun s => Store.release [5] 2 s 4)).bind
          (fun s => s.getIncomingIter 3) = some []
      ∧ (((Store.diamond 5).bind (fun s => Store.release [5] 2 s 4)).bind
          (fun s => Store.release [5] 2 s 2)).bind
          (fun s => s.getIncomingIter 1) = some [some 3])
    ∧ (∀ fuel, ((Store.diamond 5).bind (fun s => Store.release [5, 6] fuel s 4)).isSome
        = false)
    ∧ (∀ fuel, ((Store.diamond 4).bind (fun s => Store.release [5] fuel s 4)).isSome
        = false) := by
  refine ⟨by decide, by decide, ?_, ?_⟩
  · intro fuel
    cases fuel with
    | zero => rfl
    | succ n => rfl
  · intro fuel
    cases fuel with
    | zero => rfl
    | succ n => rfl

/-! ## `Frame::scrub_incoming_set` -/

/-- Scrubbing the bucket of `t` fails exactly when there is no such bucket. -/
theorem Frame.scrub_bucket_eq_none (uc : Nat → Nat) (a : Atom) (t : AtomType) :
    Frame.scrub_bucket uc a t = none ↔ InSetMap.find a._incoming_set t = none := by
  unfold Frame.scrub_bucket
  cases h : InSetMap.find a._incoming_set t <;> simp

/-- After the bucket of `t` is scrubbed it holds live entries only. -/
theorem Frame.scrub_bucket_live (uc : Nat → Nat) (a a2 : Atom) (t : AtomType)
    (h : Frame.scrub_bucket uc a t = some a2) :
    ∀ b, InSetMap.find a2._incoming_set t = some b → ∀ w ∈ b, uc w ≠ 0 := by
  unfold Frame.scrub_bucket at h
  cases hf : InSetMap.find a._incoming_set t with
  | none => simp [hf] at h
  | some b0 =>
    simp only [hf, Option.some.injEq] at h
    subst h
    intro b hb w hw
    simp only [InSetMap.find_put_self, Option.some.injEq] at hb
    subst hb
    simpa using (List.mem_filter.mp hw).2

/-- Scrubbing the bucket of `t` leaves the buckets of the other types as they are. -/
theorem Frame.scrub_bucket_find_ne (uc : Nat → Nat) (a a2 : Atom) (t t2 : AtomType)
    (h : Frame.scrub_bucket uc a t = some a2) (hne : t2 ≠ t) :
    InSetMap.find a2._incoming_set t2 = InSetMap.find a._incoming_set t2 := by
  unfold Frame.scrub_bucket at h
  cases hf : InSetMap.find a._incoming_set t with
  | none => simp [hf] at h
  | some b0 =>
    simp only [hf, Option.some.injEq] at h
    subst h
    exact InSetMap.find_put_ne _ _ _ _ hne

/-- Scrubbing a bucket neither creates nor drops a bucket. -/
theorem Frame.scrub_bucket_isSome (uc : Nat → Nat) (a a2 : Atom) (t t2 : AtomType)
    (h : Frame.scrub_bucket uc a t = some a2) :
    (InSetMap.find a2._incoming_set t2).isSome = (InSetMap.find a._incoming_set t2).isSome := by
  by_cases hne : t2 = t
  · subst hne
    have h1 : InSetMap.find a._incoming_set t2 ≠ none := by
      intro hn
      rw [(Frame.scrub_bucket_eq_none uc a t2).mpr hn] at h
      cases h
    unfold Frame.scrub_bucket at h
    cases hf : InSetMap.find a._incoming_set t2 with
    | none => exact absurd hf h1
    | some b0 =>
      simp only [hf, Option.some.injEq] at h
      subst h
      simp [InSetMap.find_put_self]
  · rw [Frame.scrub_bucket_find_ne uc a a2 t t2 h hne]

/-- The loop of `scrub_incoming_set` over the Frame types `ts` returns exactly when the atom
has a bucket for every one of them, and then every one of these buckets holds live entries
only. -/
theorem Frame.scrub_loop_live (uc : Nat → Nat) (ts : List AtomType) :
    ∀ a : Atom, (∀ t ∈ ts, (InSetMap.find a._incoming_set t).isSome = true) →
      ∃ a2, Frame.scrub_loop uc ts a = some a2
        ∧ (∀ t, (InSetMap.find a2._incoming_set t).isSome
            = (InSetMap.find a._incoming_set t).isSome)
        ∧ (∀ t, (∀ b, InSetMap.find a._incoming_set t = some b → ∀ w ∈ b, uc w ≠ 0) →
            ∀ b, InSetMap.find a2._incoming_set t = some b → ∀ w ∈ b, uc w ≠ 0)
        ∧ ∀ t ∈ ts, ∀ b, InSetMap.find a2._incoming_set t = some b → ∀ w ∈ b, uc w ≠ 0 := by
  induction ts with
  | nil =>
    intro a _
    exact ⟨a, rfl, fun _ => rfl, fun _ h => h, fun t ht => absurd ht (List.not_mem_nil t)⟩
  | cons t ts ih =>
    intro a hb
    have h1 : Frame.scrub_bucket uc a t ≠ none := by
      intro hn
      have := (Frame.scrub_bucket_eq_none uc a t).mp hn
      have h2 := hb t (List.mem_cons_self _ _)
      rw [this] at h2
      cases h2
    obtain ⟨a1, ha1⟩ := Option.ne_none_iff_exists'.mp h1
    have hsome : ∀ t2 ∈ ts, (InSetMap.find a1._incoming_set t2).isSome = true := by
      intro t2 ht2
      rw [Frame.scrub_bucket_isSome uc a a1 t t2 ha1]
      exact hb t2 (List.mem_cons_of_mem _ ht2)
    have hkeep1 : ∀ t2, (∀ b, InSetMap.find a._incoming_set t2 = some b → ∀ w ∈ b, uc w ≠ 0) →
        ∀ b, InSetMap.find a1._incoming_set t2 = some b → ∀ w ∈ b, uc w ≠ 0 := by
      intro t2 hold
      by_cases hne : t2 = t
      · subst hne
        exact Frame.scrub_bucket_live uc a a1 t2 ha1
      · rw [Frame.scrub_bucket_find_ne uc a a1 t t2 ha1 hne]
        exact hold
    obtain ⟨a2, hrun, hs2, hkeep2, hlive2⟩ := ih a1 hsome
    refine ⟨a2, ?_, ?_, ?_, ?_⟩
    · simp only [Frame.scrub_loop, ha1]
      exact hrun
    · intro t2
      rw [hs2 t2, Frame.scrub_bucket_isSome uc a a1 t t2 ha1]
    · intro t2 hold
      exact hkeep2 t2 (hkeep1 t2 hold)
    · intro t2 ht2
      rcases List.mem_cons.mp ht2 with e | hin
      · subst e
        exact hkeep2 t2 (Frame.scrub_bucket_live uc a a1 t2 ha1)
      · exact hlive2 t2 hin

/-- On an atom that tracks its incoming set and has a bucket for every Frame type of the name
server, `scrub_incoming_set()` returns and leaves no dead entry in a bucket of a Frame type. -/
theorem Frame.scrub_incoming_set_live (framet : List AtomType) (uc : Nat → Nat) (a : Atom)
    (hfl : a._flags &&& USE_ISET_FLAG ≠ 0)
    (hb : ∀ t ∈ framet, (InSetMap.find a._incoming_set t).isSome = true) :
    ∃ a2, Frame.scrub_incoming_set framet uc a = some a2
      ∧ ∀ t ∈ framet, ∀ b, InSetMap.find a2._incoming_set t = some b → ∀ w ∈ b, uc w ≠ 0 := by
  obtain ⟨a2, hrun, -, -, hlive⟩ := Frame.scrub_loop_live uc framet a hb
  refine ⟨a2, ?_, hlive⟩
  unfold Frame.scrub_incoming_set
  rw [if_neg hfl]
  exact hrun

/-- C11, evaluated.  The owners: one for the object at 3, none for the object at 4.  A frame
that tracks its incoming set and holds the bucket `5 -> {3, 4}`, under a name server whose
one Frame type is 5: `scrub_incoming_set()` leaves the bucket `5 -> {3}`, no dead entry.  The
same frame under a name server with the Frame types 5 and 6: there is no bucket for 6, the
loop takes `bucket->second` of `end()`, and the call has no defined result.  A frame that
tracks its incoming set and never had a child, under the name server with the one Frame
type 5: the same, no defined result. -/
theorem Frame.scrub_incoming_set_evaluated :
    (Frame.scrub_incoming_set [5] (fun q => if q = 3 then 1 else 0)
        { Frame.fresh 5 [] with _incoming_set := [(5, [3, 4])] }.toAtom).map
        (fun a => a._incoming_set) = some [(5, [3])]
      ∧ Frame.scrub_incoming_set [5, 6] (fun q => if q = 3 then 1 else 0)
        { Frame.fresh 5 [] with _incoming_set := [(5, [3, 4])] }.toAtom = none
      ∧ Frame.scrub_incoming_set [5] (fun q => if q = 3 then 1 else 0)
        (Frame.fresh 5 []).toAtom = none := by
  decide

/-! ## `Frame::init` -/

/-- The method `Frame::init()` does not read the outgoing set: a frame whose type is a Frame
type is built with any outgoing set. -/
theorem Frame.ctor_any_outgoing (isA : AtomType → AtomType → Bool) (FRAME : AtomType)
    (keep : Atom → Atom) (I : ContentHash) (oset : List Handle) (t : AtomType)
    (ht : isA t FRAME = true) :
    ∃ o, Frame.ctor isA FRAME keep I oset t = Except.ok o ∧ o._outgoing = oset
      ∧ o.is_frame = true := by
  refine ⟨{ toAtom := keep (Atom.ctor I t), _outgoing := oset, is_frame := true },
    ?_, rfl, rfl⟩
  unfold Frame.ctor Frame.init
  have h2 : isA (Atom.ctor I t)._type FRAME = true := ht
  simp [h2]

/-- C12, as stated, fails.  With a node of type 1 at address 1 that is not a frame:
constructing a frame of type `FRAME` (4) whose outgoing set is that node is accepted by
`Frame::init()`, and the frame built has the node in its outgoing set.  (The destructor of the
frame so built calls `FrameCast(h)->scrub_incoming_set()` on the node, for which `FrameCast`
yields null: it has no defined result.) -/
theorem Frame.init_accepts_non_frame_parent :
    (Store.oneNode.obj 1).map (fun o => o.is_frame) = some false
      ∧ Frame.ctor isA_sample 4 keep_sample (2 ^ 64 - 1) [some 1] 4
        = Except.ok { _type := 4, _flags := USE_ISET_FLAG, _content_hash := 2 ^ 64 - 1,
                      _incoming_set := [], _outgoing := [some 1], is_frame := true }
      ∧ (Frame.dtor [5]
          (Store.oneNode.dying 2
            { _type := 4, _flags := USE_ISET_FLAG, _content_hash := 2 ^ 64 - 1,
              _incoming_set := [], _outgoing := [some 1], is_frame := true }) 2).isSome
        = false := by
  refine ⟨by decide, rfl, by decide⟩

/-- C12, amended: constructing a Frame-kind atom whose own type `t` is not a Frame type
(`nameserver().isA(t, FRAME)` fails) is rejected at construction time, by `Frame::init()`,
with `InvalidParamException`, whatever the outgoing set; no such Frame is built. -/
theorem Frame.init_rejects_wrong_type (isA : AtomType → AtomType → Bool) (FRAME : AtomType)
    (keep : Atom → Atom) (I : ContentHash) (oset : List Handle) (t : AtomType)
    (ht : isA t FRAME = false) :
    Frame.ctor isA FRAME keep I oset t
        = Except.error (Exn.InvalidParamException "Not a Frame!")
      ∧ ∀ o, Frame.ctor isA FRAME keep I oset t ≠ Except.ok o := by
  have h1 : Frame.ctor isA FRAME keep I oset t
      = Except.error (Exn.InvalidParamException "Not a Frame!") := by
    unfold Frame.ctor Frame.init
    have h2 : isA (Atom.ctor I t)._type FRAME = false := ht
    simp [h2]
  refine ⟨h1, ?_⟩
  intro o ho
  rw [h1] at ho
  cases ho

/-- The construction of a frame with the node type 1 as its own type, over the frame at 7. -/
theorem Frame.init_rejects_wrong_type_witness :
    isA_sample 1 4 = false
      ∧ Frame.ctor isA_sample 4 keep_sample (2 ^ 64 - 1) [some 7] 1
        = Except.error (Exn.InvalidParamException "Not a Frame!")
      ∧ ∀ o, Frame.ctor isA_sample 4 keep_sample (2 ^ 64 - 1) [some 7] 1 ≠ Except.ok o :=
  ⟨by decide,
    Frame.init_rejects_wrong_type isA_sample 4 keep_sample (2 ^ 64 - 1) [some 7] 1
      (by decide)⟩

/-! ## The enumerators `getIncomingIter` and `getIncomingSetByType` -/

/-- What `WEAKLY_DO` emits over a bucket: the handles of its live entries, in order. -/
theorem WEAKLY_DO_bucket (uc : Nat → Nat) (b : WincomingSet) :
    b.flatMap (WEAKLY_DO uc) = (b.filter (fun w => uc w ≠ 0)).map some := by
  induction b with
  | nil => rfl
  | cons w ws ih =>
    rw [List.flatMap_cons, ih]
    by_cases hc : uc w = 0
    · simp [WEAKLY_DO, WinkPtr.lock, hc]
    · simp [WEAKLY_DO, WinkPtr.lock, hc]

/-- What `WEAKLY_DO` emits over all buckets: the handles of the live entries, in order. -/
theorem WEAKLY_DO_buckets (uc : Nat → Nat) (m : InSetMap) :
    m.flatMap (fun bucket => bucket.2.flatMap (WEAKLY_DO uc))
      = ((m.flatMap (fun bucket => bucket.2)).filter (fun w => uc w ≠ 0)).map some := by
  induction m with
  | nil => rfl
  | cons kb m ih =>
    rw [List.flatMap_cons, List.flatMap_cons, ih, WEAKLY_DO_bucket, List.filter_append,
      List.map_append]

/-- C13: on an atom whose incoming set is tracked (`USE_ISET_FLAG` set), `getIncomingIter`
emits exactly the handles of the live weak entries (owner count not 0) of all type buckets,
bucket after bucket in the order of the map, one handle per live entry; the entries whose
target is destroyed are skipped (the function is total: no error), and the null handle is
never emitted. -/
theorem Atom.getIncomingIter_live (uc : Nat → Nat) (a : Atom)
    (hfl : a._flags &&& USE_ISET_FLAG ≠ 0) :
    a.getIncomingIter uc
        = ((a._incoming_set.flatMap (fun bucket => bucket.2)).filter
            (fun w => uc w ≠ 0)).map some
      ∧ none ∉ a.getIncomingIter uc := by
  have h1 : a.getIncomingIter uc
      = ((a._incoming_set.flatMap (fun bucket => bucket.2)).filter
          (fun w => uc w ≠ 0)).map some := by
    unfold Atom.getIncomingIter
    rw [if_neg hfl]
    exact WEAKLY_DO_buckets uc a._incoming_set
  refine ⟨h1, ?_⟩
  rw [h1]
  simp

/-- The enumeration of a tracked incoming set with the buckets `5 -> {3, 4}` and `6 -> {7}`,
where the objects at 3 and 7 are owned and the object at 4 is destroyed. -/
theorem Atom.getIncomingIter_live_witness :
    ({ Frame.fresh 5 [] with _incoming_set := [(5, [3, 4]), (6, [7])] }.toAtom.getIncomingIter
        (fun q => if q = 3 then 1 else if q = 7 then 2 else 0)
      = [some 3, some 7])
    ∧ ({ Frame.fresh 5 [] with _incoming_set := [(5, [3, 4]), (6, [7])] }.toAtom.getIncomingIter
        (fun q => if q = 3 then 1 else if q = 7 then 2 else 0)
        = (({ Frame.fresh 5 [] with
              _incoming_set := [(5, [3, 4]), (6, [7])] }.toAtom._incoming_set.flatMap
            (fun bucket => bucket.2)).filter
              (fun w => (fun q => if q = 3 then 1 else if q = 7 then 2 else 0) w ≠ 0)).map some
      ∧ none ∉ { Frame.fresh 5 [] with
          _incoming_set := [(5, [3, 4]), (6, [7])] }.toAtom.getIncomingIter
            (fun q => if q = 3 then 1 else if q = 7 then 2 else 0)) :=
  ⟨by decide,
    Atom.getIncomingIter_live (fun q => if q = 3 then 1 else if q = 7 then 2 else 0)
      { Frame.fresh 5 [] with _incoming_set := [(5, [3, 4]), (6, [7])] }.toAtom (by decide)⟩

/-- The bucket that `find` returns is a stretch of the concatenation of all buckets. -/
theorem InSetMap.find_sublist (uc : Nat → Nat) (m : InSetMap) (t : AtomType)
    (b : WincomingSet) (h : InSetMap.find m t = some b) :
    List.Sublist (b.flatMap (WEAKLY_DO uc))
      (m.flatMap (fun bucket => bucket.2.flatMap (WEAKLY_DO uc))) := by
  induction m with
  | nil => simp [InSetMap.find] at h
  | cons kb m ih =>
    obtain ⟨k, b2⟩ := kb
    rw [List.flatMap_cons]
    unfold InSetMap.find at h
    by_cases hk : k = t
    · simp only [hk, if_true, Option.some.injEq] at h
      subst h
      exact List.sublist_append_left _ _
    · simp only [hk, if_false] at h
      exact (ih h).trans (List.sublist_append_right _ _)

/-- C14: on an atom that tracks its incoming set, or whose incoming set is empty as after
construction, `getIncomingSetByType(result, type)` emits exactly the handles of the live
entries of the bucket stored under `type`, in order, and nothing when there is no bucket for
`type`; every handle it emits is a live entry of that bucket, so none comes from the bucket
of another type; and, for every atom, what it emits is a sub-sequence of what
`getIncomingIter` emits. -/
theorem Atom.getIncomingSetByType_bucket (uc : Nat → Nat) (a : Atom) (type : AtomType)
    (h : a._flags &&& USE_ISET_FLAG ≠ 0 ∨ a._incoming_set = []) :
    a.getIncomingSetByType uc type
        = (match InSetMap.find a._incoming_set type with
            | none => []
            | some bucket => (bucket.filter (fun w => uc w ≠ 0)).map some)
      ∧ (∀ x ∈ a.getIncomingSetByType uc type,
          ∃ bucket w, InSetMap.find a._incoming_set type = some bucket ∧ w ∈ bucket
            ∧ uc w ≠ 0 ∧ x = some w)
      ∧ List.Sublist (a.getIncomingSetByType uc type) (a.getIncomingIter uc) := by
  have h1 : a.getIncomingSetByType uc type
      = (match InSetMap.find a._incoming_set type with
          | none => []
          | some bucket => (bucket.filter (fun w => uc w ≠ 0)).map some) := by
    unfold Atom.getIncomingSetByType
    rcases h with h | h
    · rw [if_neg h]
      cases hf : InSetMap.find a._incoming_set type with
      | none => rfl
      | some b => exact WEAKLY_DO_bucket uc b
    · rw [h]
      simp [InSetMap.find]
  refine ⟨h1, ?_, ?_⟩
  · intro x hx
    rw [h1] at hx
    cases hf : InSetMap.find a._incoming_set type with
    | none => simp [hf] at hx
    | some b =>
      simp only [hf, List.mem_map, List.mem_filter, decide_eq_true_eq] at hx
      obtain ⟨w, ⟨hw, hlive⟩, e⟩ := hx
      exact ⟨b, w, rfl, hw, hlive, e.symm⟩
  · unfold Atom.getIncomingSetByType Atom.getIncomingIter
    by_cases hz : a._flags &&& USE_ISET_FLAG = 0
    · rw [if_pos hz, if_pos hz]
    · rw [if_neg hz, if_neg hz]
      cases hf : InSetMap.find a._incoming_set type with
      | none => exact List.nil_sublist _
      | some b => exact InSetMap.find_sublist uc a._incoming_set type b hf

/-- The enumeration by type 6 of a tracked incoming set with the buckets `5 -> {3, 4}` and
`6 -> {7, 8}`, where the objects at 3 and 7 are owned and those at 4 and 8 are destroyed. -/
theorem Atom.getIncomingSetByType_bucket_witness :
    ({ Frame.fresh 5 [] with
        _incoming_set := [(5, [3, 4]), (6, [7, 8])] }.toAtom.getIncomingSetByType
        (fun q => if q = 3 then 1 else if q = 7 then 2 else 0) 6 = [some 7])
    ∧ ({ Frame.fresh 5 [] with
        _incoming_set := [(5, [3, 4]), (6, [7, 8])] }.toAtom.getIncomingSetByType
        (fun q => if q = 3 then 1 else if q = 7 then 2 else 0) 9 = [])
    ∧ List.Sublist
      ({ Frame.fresh 5 [] with
        _incoming_set := [(5, [3, 4]), (6, [7, 8])] }.toAtom.getIncomingSetByType
        (fun q => if q = 3 then 1 else if q = 7 then 2 else 0) 6)
      ({ Frame.fresh 5 [] with
        _incoming_set := [(5, [3, 4]), (6, [7, 8])] }.toAtom.getIncomingIter
        (fun q => if q = 3 then 1 else if q = 7 then 2 else 0)) :=
  ⟨by decide, by decide,
    (Atom.getIncomingSetByType_bucket (fun q => if q = 3 then 1 else if q = 7 then 2 else 0)
      { Frame.fresh 5 [] with _incoming_set := [(5, [3, 4]), (6, [7, 8])] }.toAtom 6
      (Or.inl (by decide))).2.2⟩

/-! ## `foreach_incoming` -/

/-- The loop of `foreach_incoming` either stops at the first handle `h` of `vh` for which the
callback returns true, after calls that returned false on all handles before `h`, or goes
through all of `vh` with calls that all returned false. -/
theorem foreach_loop_calls {σ : Type} (cb : σ → Handle → σ × Bool) :
    ∀ (vh : List Handle) (s : σ) (calls : List (Handle × Bool)),
      ((foreach_loop cb vh s calls).result = true
          ∧ ∃ pre h post, vh = pre ++ h :: post
            ∧ (foreach_loop cb vh s calls).calls
              = calls ++ pre.map (fun x => (x, false)) ++ [(h, true)])
        ∨ ((foreach_loop cb vh s calls).result = false
          ∧ (foreach_loop cb vh s calls).calls = calls ++ vh.map (fun x => (x, false))) := by
  intro vh
  induction vh with
  | nil =>
    intro s calls
    right
    simp [foreach_loop]
  | cons lp vh ih =>
    intro s calls
    by_cases hc : (cb s lp).2 = true
    · left
      refine ⟨by simp [foreach_loop, hc], [], lp, vh, rfl, ?_⟩
      simp [foreach_loop, hc]
    · have hstep : foreach_loop cb (lp :: vh) s calls
          = foreach_loop cb vh (cb s lp).1 (calls ++ [(lp, false)]) := by
        simp [foreach_loop, hc]
      rw [hstep]
      rcases ih (cb s lp).1 (calls ++ [(lp, false)]) with ⟨hr, pre, h, post, e, hcalls⟩ | ⟨hr, hcalls⟩
      · left
        refine ⟨hr, lp :: pre, h, post, by rw [e]; rfl, ?_⟩
        rw [hcalls]
        simp
      · right
        refine ⟨hr, ?_⟩
        rw [hcalls]
        simp

/-- With a callback that does not depend on the state, the loop returns whether the callback
is true on some handle. -/
theorem foreach_loop_any {σ : Type} (f : Handle → Bool) :
    ∀ (vh : List Handle) (s : σ) (calls : List (Handle × Bool)),
      (foreach_loop (fun s h => (s, f h)) vh s calls).result = vh.any f := by
  intro vh
  induction vh with
  | nil => intro s calls; rfl
  | cons lp vh ih =>
    intro s calls
    by_cases hc : f lp = true
    · simp [foreach_loop, hc]
    · simp only [foreach_loop, hc, List.any_cons, Bool.false_eq_true, if_false]
      rw [ih]
      simp

/-- The log of the loop of `foreach_incoming` is a true account of the callback: the state
after the loop is the state after the callback has been called on the handles logged, in
order, and the value logged for a call is the value that the callback returned in the state
that the calls before it left. -/
theorem foreach_loop_faithful {σ : Type} (cb : σ → Handle → σ × Bool) :
    ∀ (vh : List Handle) (s : σ) (calls : List (Handle × Bool)),
      ∃ new, (foreach_loop cb vh s calls).calls = calls ++ new
        ∧ (foreach_loop cb vh s calls).state = callback_state cb s (new.map Prod.fst)
        ∧ ∀ (k : Nat) (c : Handle × Bool), new[k]? = some c →
            c.2 = (cb (callback_state cb s ((new.map Prod.fst).take k)) c.1).2 := by
  intro vh
  induction vh with
  | nil =>
    intro s calls
    refine ⟨[], by simp [foreach_loop], rfl, ?_⟩
    intro k c h
    simp at h
  | cons lp vh ih =>
    intro s calls
    by_cases hc : (cb s lp).2 = true
    · refine ⟨[(lp, true)], by simp [foreach_loop, hc], by simp [foreach_loop, hc, callback_state],
        ?_⟩
      intro k c h
      cases k with
      | zero =>
        simp only [List.getElem?_cons_zero, Option.some.injEq] at h
        rw [← h]
        simp [callback_state, hc]
      | succ k => simp at h
    · have hstep : foreach_loop cb (lp :: vh) s calls
          = foreach_loop cb vh (cb s lp).1 (calls ++ [(lp, false)]) := by
        simp [foreach_loop, hc]
      rw [hstep]
      obtain ⟨new, h1, h2, h3⟩ := ih (cb s lp).1 (calls ++ [(lp, false)])
      refine ⟨(lp, false) :: new, by rw [h1]; simp, by rw [h2]; rfl, ?_⟩
      intro k c h
      cases k with
      | zero =>
        simp only [List.getElem?_cons_zero, Option.some.injEq] at h
        rw [← h]
        simpa [callback_state] using hc
      | succ k =>
        simp only [List.getElem?_cons_succ] at h
        exact h3 k c h

/-- C15: `foreach_incoming` iterates the copy of the incoming set that it takes before the
first call of the callback.  For every state `s` of the program and every callback, which
may change the state in any way (insert into, or remove from, the incoming set of the same
atom, so that `getIncomingSet` differs afterwards): the handles on which the callback is
called are, in order, a prefix of the incoming set `getIncomingSet s` as it was at the call
of `foreach_incoming`; the callback is really called on them, one after the other, in that
the state at the end is the state that these calls leave and the value of each call is what
the callback returns in the state left by the calls before it; and the prefix is the whole
of that incoming set unless the last call returned true. -/
theorem Atom.foreach_incoming_snapshot {σ : Type} (getIncomingSet : σ → List Handle)
    (cb : σ → Handle → σ × Bool) (s : σ) :
    ((Atom.foreach_incoming getIncomingSet cb s).calls.map Prod.fst) <+: getIncomingSet s
      ∧ (Atom.foreach_incoming getIncomingSet cb s).state
        = callback_state cb s ((Atom.foreach_incoming getIncomingSet cb s).calls.map Prod.fst)
      ∧ (∀ (k : Nat) (c : Handle × Bool),
          (Atom.foreach_incoming getIncomingSet cb s).calls[k]? = some c →
          c.2 = (cb (callback_state cb s
            (((Atom.foreach_incoming getIncomingSet cb s).calls.map Prod.fst).take k)) c.1).2)
      ∧ ((Atom.foreach_incoming getIncomingSet cb s).calls.map Prod.fst = getIncomingSet s
        ∨ ∃ c, (Atom.foreach_incoming getIncomingSet cb s).calls.getLast? = some c
            ∧ c.2 = true) := by
  obtain ⟨new, h1, h2, h3⟩ := foreach_loop_faithful cb (getIncomingSet s) s []
  rw [List.nil_append] at h1
  have hrun : (Atom.foreach_incoming getIncomingSet cb s).calls = new := h1
  have hstate : (Atom.foreach_incoming getIncomingSet cb s).state
      = callback_state cb s (new.map Prod.fst) := h2
  rw [hrun, hstate]
  refine ⟨?_, rfl, h3, ?_⟩
  · rw [← hrun]
    unfold Atom.foreach_incoming
    rcases foreach_loop_calls cb (getIncomingSet s) s [] with
      ⟨-, pre, h, post, e, hcalls⟩ | ⟨-, hcalls⟩
    · rw [hcalls, e]
      refine ⟨post, ?_⟩
      simp [Function.comp_def]
    · rw [hcalls]
      refine ⟨[], ?_⟩
      simp [Function.comp_def]
  · rw [← hrun]
    unfold Atom.foreach_incoming
    rcases foreach_loop_calls cb (getIncomingSet s) s [] with
      ⟨-, pre, h, post, e, hcalls⟩ | ⟨-, hcalls⟩
    · right
      rw [hcalls]
      exact ⟨(h, true), by simp, rfl⟩
    · left
      rw [hcalls]
      simp [Function.comp_def]

/-- A run in which the state is the incoming set itself and the callback, on every call,
empties it: the three handles of the incoming set at the call are all visited. -/
theorem Atom.foreach_incoming_sees_copy :
    (Atom.foreach_incoming (fun s : List Handle => s) (fun _ _ => ([], false))
        [some 2, some 3, some 4]).calls
      = [(some 2, false), (some 3, false), (some 4, false)]
    ∧ (Atom.foreach_incoming (fun s : List Handle => s) (fun _ _ => ([], false))
        [some 2, some 3, some 4]).state = [] := by
  decide

/-- C16: `foreach_incoming` returns true if and only if some call of the callback on a handle
of the incoming set returned true.  Either it returns true, and then the callback was called,
in order, on the handles `pre` before some handle `h` of the incoming set, returning false,
and on `h`, returning true, and on none of the handles `post` after `h`; or it returns
false, and then the callback was called exactly once on every handle, in order, returning
false.  For a callback whose value depends on the handle only, the result is whether the
callback is true on some handle of the incoming set. -/
theorem Atom.foreach_incoming_result {σ : Type} (getIncomingSet : σ → List Handle)
    (cb : σ → Handle → σ × Bool) (s : σ) :
    ((Atom.foreach_incoming getIncomingSet cb s).result = true
        ↔ ∃ c ∈ (Atom.foreach_incoming getIncomingSet cb s).calls, c.2 = true)
      ∧ (((Atom.foreach_incoming getIncomingSet cb s).result = true
          ∧ ∃ pre h post, getIncomingSet s = pre ++ h :: post
            ∧ (Atom.foreach_incoming getIncomingSet cb s).calls
              = pre.map (fun x => (x, false)) ++ [(h, true)])
        ∨ ((Atom.foreach_incoming getIncomingSet cb s).result = false
          ∧ (Atom.foreach_incoming getIncomingSet cb s).calls
            = (getIncomingSet s).map (fun x => (x, false))))
      ∧ ∀ f : Handle → Bool,
          (Atom.foreach_incoming getIncomingSet (fun s h => (s, f h)) s).result = true
            ↔ ∃ h ∈ getIncomingSet s, f h = true := by
  have key := foreach_loop_calls cb (getIncomingSet s) s []
  simp only [List.nil_append] at key
  refine ⟨?_, key, ?_⟩
  · unfold Atom.foreach_incoming
    rcases key with ⟨hr, pre, h, post, -, hcalls⟩ | ⟨hr, hcalls⟩
    · rw [hr, hcalls]
      simp
    · rw [hr, hcalls]
      simp
  · intro f
    unfold Atom.foreach_incoming
    rw [foreach_loop_any f (getIncomingSet s) s []]
    simp [List.any_eq_true]

/-! ## The accessors of the base class -/

/-- C17: on an atom that does not override them, `get_name()` throws the `RuntimeException`
"Not a node!", and `getOutgoingSet()` and `getOutgoingAtom(i)`, for every `i`, throw the
`RuntimeException` "Not a link!"; none of the three returns a value. -/
theorem Atom.kind_mismatch (a : Atom) (i : Nat) :
    (a.get_name = Except.error (Exn.RuntimeException "Not a node!")
      ∧ a.getOutgoingSet = Except.error (Exn.RuntimeException "Not a link!")
      ∧ a.getOutgoingAtom i = Except.error (Exn.RuntimeException "Not a link!"))
    ∧ (∀ v, a.get_name ≠ Except.ok v) ∧ (∀ v, a.getOutgoingSet ≠ Except.ok v)
    ∧ (∀ v, a.getOutgoingAtom i ≠ Except.ok v) := by
  refine ⟨⟨rfl, rfl, rfl⟩, ?_, ?_, ?_⟩
  · intro v h
    cases h
  · intro v h
    cases h
  · intro v h
    cases h

/-! ## `PureExecLink::execute` -/

theorem PureExecLink.mostRecent_append_as {H AS V σ : Type} (E : ExecEnv H AS V σ)
    (pre : List H) (h : H) (hA : E.is_atomspace h = true) :
    PureExecLink.mostRecentAtomSpace E (pre ++ [h]) = some h := by
  unfold PureExecLink.mostRecentAtomSpace
  rw [List.filter_append]
  simp [List.filter, hA, List.getLast?_concat]

theorem PureExecLink.mostRecent_append_not {H AS V σ : Type} (E : ExecEnv H AS V σ)
    (pre : List H) (h : H) (hA : E.is_atomspace h = false) :
    PureExecLink.mostRecentAtomSpace E (pre ++ [h]) = PureExecLink.mostRecentAtomSpace E pre := by
  unfold PureExecLink.mostRecentAtomSpace
  rw [List.filter_append]
  simp [List.filter, hA]

theorem PureExecLink.lastNonAtomSpace_cons_as {H AS V σ : Type} (E : ExecEnv H AS V σ)
    (h : H) (hs : List H) (hA : E.is_atomspace h = true) :
    PureExecLink.lastNonAtomSpace E (h :: hs) = PureExecLink.lastNonAtomSpace E hs := by
  unfold PureExecLink.lastNonAtomSpace
  simp [List.filter, hA]

theorem PureExecLink.lastNonAtomSpace_cons_not {H AS V σ : Type} (E : ExecEnv H AS V σ)
    (h : H) (hs : List H) (hA : E.is_atomspace h = false) :
    PureExecLink.lastNonAtomSpace E (h :: hs)
      = some ((PureExecLink.lastNonAtomSpace E hs).getD h) := by
  unfold PureExecLink.lastNonAtomSpace
  simp [List.filter, hA, List.getLast?_cons]

theorem PureExecLink.expected_from_all_as {H AS V σ : Type} (E : ExecEnv H AS V σ) :
    ∀ (hs pre : List H), PureExecLink.lastNonAtomSpace E hs = none →
      PureExecLink.expected_from E pre hs = [] := by
  intro hs
  induction hs with
  | nil => intro pre _; rfl
  | cons h hs ih =>
    intro pre hl
    cases hA : E.is_atomspace h with
    | true =>
      rw [PureExecLink.lastNonAtomSpace_cons_as E h hs hA] at hl
      simp [PureExecLink.expected_from, hA, ih (pre ++ [h]) hl]
    | false =>
      rw [PureExecLink.lastNonAtomSpace_cons_not E h hs hA] at hl
      cases hl

/-- Skipping an AtomSpace at the head of the loop. -/
theorem PureExecLink.RunSpec.skip_as {H AS V σ : Type} (E : ExecEnv H AS V σ)
    (pre hs : List H) (h : H) (res : V) (calls : List (ExecCall H AS V))
    (r : ExecRun H AS V σ) (hA : E.is_atomspace h = true)
    (hr : PureExecLink.RunSpec E (pre ++ [h]) hs res calls r) :
    PureExecLink.RunSpec E pre (h :: hs) res calls r := by
  obtain ⟨new, done, rest, h1, h2, h3, h4, h5, h6⟩ := hr
  refine ⟨new, done, rest, h1, ?_, h3, h4, h5, ?_⟩
  · simp [PureExecLink.expected_from, hA, h2]
  · intro v hv
    have := h6 v hv
    unfold PureExecLink.ResultIs at this ⊢
    rw [PureExecLink.lastNonAtomSpace_cons_as E h hs hA]
    exact this

/-- Passing an atom that is not executable at the head of the loop. -/
theorem PureExecLink.RunSpec.skip_plain {H AS V σ : Type} (E : ExecEnv H AS V σ)
    (pre hs : List H) (h : H) (res : V) (calls : List (ExecCall H AS V))
    (r : ExecRun H AS V σ) (hA : E.is_atomspace h = false) (hX : E.is_executable h = false)
    (hr : PureExecLink.RunSpec E (pre ++ [h]) hs (E.ofHandle h) calls r) :
    PureExecLink.RunSpec E pre (h :: hs) res calls r := by
  obtain ⟨new, done, rest, h1, h2, h3, h4, h5, h6⟩ := hr
  refine ⟨new, done, rest, h1, ?_, h3, h4, h5, ?_⟩
  · simp [PureExecLink.expected_from, hA, hX, h2]
  · intro v hv
    have := h6 v hv
    unfold PureExecLink.ResultIs at this ⊢
    rw [PureExecLink.lastNonAtomSpace_cons_not E h hs hA]
    cases hl : PureExecLink.lastNonAtomSpace E hs with
    | none =>
      rw [hl] at this
      simp only [Option.getD_none, hX, Bool.false_eq_true, if_false]
      exact this
    | some x =>
      rw [hl] at this
      simpa using this

/-- A call at the head of the loop that returns a value, and the run that goes on. -/
theorem PureExecLink.RunSpec.call_ok {H AS V σ : Type} (E : ExecEnv H AS V σ)
    (pre hs : List H) (h : H) (res v1 : V) (calls : List (ExecCall H AS V))
    (call : ExecCall H AS V) (r : ExecRun H AS V σ)
    (hA : E.is_atomspace h = false) (hX : E.is_executable h = true)
    (hatom : call.atom = h) (hout : call.outcome = Except.ok v1)
    (hm : ExecCall.Matches E call (h, PureExecLink.mostRecentAtomSpace E pre))
    (hr : PureExecLink.RunSpec E (pre ++ [h]) hs v1 (calls ++ [call]) r) :
    PureExecLink.RunSpec E pre (h :: hs) res calls r := by
  obtain ⟨new, done, rest, h1, h2, h3, h4, h5, h6⟩ := hr
  refine ⟨call :: new, (h, PureExecLink.mostRecentAtomSpace E pre) :: done, rest,
    ?_, ?_, List.Forall₂.cons hm h3, ?_, h5, ?_⟩
  · rw [h1]
    simp
  · simp [PureExecLink.expected_from, hA, hX, h2]
  · rw [h4]
    constructor
    · intro hall c hc
      rcases List.mem_cons.mp hc with e | e
      · exact ⟨v1, by rw [e]; exact hout⟩
      · exact hall c e
    · intro hall c hc
      exact hall c (List.mem_cons_of_mem _ hc)
  · intro v hv
    have hres := h6 v hv
    have hrest := h5 ⟨v, hv⟩
    unfold PureExecLink.ResultIs at hres ⊢
    rw [PureExecLink.lastNonAtomSpace_cons_not E h hs hA]
    cases hl : PureExecLink.lastNonAtomSpace E hs with
    | none =>
      rw [hl] at hres
      have hexp := PureExecLink.expected_from_all_as E hs (pre ++ [h]) hl
      rw [hexp] at h2
      have hdone : done = [] := (List.append_eq_nil.mp h2.symm).1
      rw [hdone] at h3
      have hnew : new = [] := by
        cases h3
        rfl
      simp only [Option.getD_none, hX, if_true]
      exact ⟨call, by rw [hnew]; rfl, hatom, by rw [hout, hres]⟩
    | some x =>
      rw [hl] at hres
      simp only [Option.getD_some]
      by_cases hx : E.is_executable x = true
      · simp only [hx, if_true] at hres ⊢
        obtain ⟨c, hc1, hc2, hc3⟩ := hres
        refine ⟨c, ?_, hc2, hc3⟩
        rw [List.getLast?_cons, hc1]
        rfl
      · simp only [hx] at hres ⊢
        exact hres

/-- A call at the head of the loop that throws: the exception leaves the method. -/
theorem PureExecLink.RunSpec.call_error {H AS V σ : Type} (E : ExecEnv H AS V σ)
    (pre hs : List H) (h : H) (res : V) (e : Exn) (calls : List (ExecCall H AS V))
    (call : ExecCall H AS V) (r : ExecRun H AS V σ)
    (hA : E.is_atomspace h = false) (hX : E.is_executable h = true)
    (hout : call.outcome = Except.error e)
    (hm : ExecCall.Matches E call (h, PureExecLink.mostRecentAtomSpace E pre))
    (hres : r.result = Except.error e) (hcalls : r.calls = calls ++ [call]) :
    PureExecLink.RunSpec E pre (h :: hs) res calls r := by
  refine ⟨[call], [(h, PureExecLink.mostRecentAtomSpace E pre)],
    PureExecLink.expected_from E (pre ++ [h]) hs, hcalls, ?_,
    List.Forall₂.cons hm List.Forall₂.nil, ?_, ?_, ?_⟩
  · simp [PureExecLink.expected_from, hA, hX]
  · constructor
    · intro ⟨v, hv⟩
      rw [hres] at hv
      cases hv
    · intro hall
      obtain ⟨v, hv⟩ := hall call (List.mem_singleton.mpr rfl)
      rw [hout] at hv
      cases hv
  · intro ⟨v, hv⟩
    rw [hres] at hv
    cases hv
  · intro v hv
    rw [hres] at hv
    cases hv

/-- Every run of the loop of `PureExecLink::execute` satisfies `RunSpec`, when `ctxt` is the
pointer of the most recent AtomSpace among the atoms before the loop position. -/
theorem PureExecLink.loop_spec {H AS V σ : Type} (E : ExecEnv H AS V σ) (as : Option AS)
    (silent : Bool) :
    ∀ (hs pre : List H) (res : V) (ctxt : Option AS) (s : σ)
      (calls : List (ExecCall H AS V)),
      ctxt = (PureExecLink.mostRecentAtomSpace E pre).bind E.AtomSpaceCast →
      PureExecLink.RunSpec E pre hs res calls
        (PureExecLink.loop E as silent hs res ctxt s calls) := by
  intro hs
  induction hs with
  | nil =>
    intro pre res ctxt s calls _
    refine ⟨[], [], [], by simp [PureExecLink.loop], rfl, List.Forall₂.nil, ?_, fun _ => rfl, ?_⟩
    · simp [PureExecLink.loop]
    · intro v hv
      simp only [PureExecLink.loop, Except.ok.injEq] at hv
      simp [PureExecLink.ResultIs, PureExecLink.lastNonAtomSpace, hv]
  | cons h hs ih =>
    intro pre res ctxt s calls hctx
    cases hA : E.is_atomspace h with
    | true =>
      have hstep : PureExecLink.loop E as silent (h :: hs) res ctxt s calls
          = PureExecLink.loop E as silent hs res (E.AtomSpaceCast h) s calls := by
        simp [PureExecLink.loop, hA]
      rw [hstep]
      apply PureExecLink.RunSpec.skip_as E pre hs h res calls _ hA
      apply ih
      rw [PureExecLink.mostRecent_append_as E pre h hA]
      rfl
    | false =>
      have hmr := PureExecLink.mostRecent_append_not E pre h hA
      cases hX : E.is_executable h with
      | false =>
        have hstep : PureExecLink.loop E as silent (h :: hs) res ctxt s calls
            = PureExecLink.loop E as silent hs (E.ofHandle h) ctxt s calls := by
          simp [PureExecLink.loop, hA, hX]
        rw [hstep]
        apply PureExecLink.RunSpec.skip_plain E pre hs h res calls _ hA hX
        apply ih
        rw [hmr]
        exact hctx
      | true =>
        cases hc : ctxt with
        | some c =>
          have hm : ∀ o : Except Exn V, ExecCall.Matches E
              { atom := h, ctxt := c, transient := false, outcome := o }
              (h, PureExecLink.mostRecentAtomSpace E pre) := by
            intro o
            refine ⟨rfl, ?_⟩
            simp only
            rw [← hctx, hc]
            simp
          cases hx : (E.execute h c silent s).1 with
          | ok v =>
            have hstep : PureExecLink.loop E as silent (h :: hs) res (some c) s calls
                = PureExecLink.loop E as silent hs v (some c) (E.execute h c silent s).2
                  (calls ++ [{ atom := h, ctxt := c, transient := false,
                               outcome := Except.ok v }]) := by
              simp [PureExecLink.loop, hA, hX, hx]
            rw [hstep]
            apply PureExecLink.RunSpec.call_ok E pre hs h res v calls _ _ hA hX rfl rfl (hm _)
            apply ih
            rw [hmr, ← hctx, hc]
          | error e =>
            have hstep : PureExecLink.loop E as silent (h :: hs) res (some c) s calls
                = { result := Except.error e, state := (E.execute h c silent s).2,
                    calls := calls ++ [{ atom := h, ctxt := c, transient := false,
                                         outcome := Except.error e }] } := by
              simp [PureExecLink.loop, hA, hX, hx]
            rw [hstep]
            exact PureExecLink.RunSpec.call_error E pre hs h res e calls _ _ hA hX rfl (hm _)
              rfl rfl
        | none =>
          have hm : ∀ (t : AS) (o : Except Exn V), ExecCall.Matches E
              { atom := h, ctxt := t, transient := true, outcome := o }
              (h, PureExecLink.mostRecentAtomSpace E pre) := by
            intro t o
            refine ⟨rfl, ?_⟩
            simp only
            rw [← hctx, hc]
            simp
          cases hx : (E.execute h (E.grab_transient_atomspace as s).1 silent
              (E.grab_transient_atomspace as s).2).1 with
          | ok v =>
            have hstep : PureExecLink.loop E as silent (h :: hs) res none s calls
                = PureExecLink.loop E as silent hs v none
                  (E.release_transient_atomspace (E.grab_transient_atomspace as s).1
                    (E.execute h (E.grab_transient_atomspace as s).1 silent
                      (E.grab_transient_atomspace as s).2).2)
                  (calls ++ [{ atom := h, ctxt := (E.grab_transient_atomspace as s).1,
                               transient := true, outcome := Except.ok v }]) := by
              simp [PureExecLink.loop, hA, hX, hx]
            rw [hstep]
            apply PureExecLink.RunSpec.call_ok E pre hs h res v calls _ _ hA hX rfl rfl (hm _ _)
            apply ih
            rw [hmr, ← hctx, hc]
          | error e =>
            have hstep : PureExecLink.loop E as silent (h :: hs) res none s calls
                = { result := Except.error e,
                    state := E.release_transient_atomspace (E.grab_transient_atomspace as s).1
                      (E.execute h (E.grab_transient_atomspace as s).1 silent
                        (E.grab_transient_atomspace as s).2).2,
                    calls := calls ++ [{ atom := h, ctxt := (E.grab_transient_atomspace as s).1,
                                         transient := true, outcome := Except.error e }] } := by
              simp [PureExecLink.loop, hA, hX, hx]
            rw [hstep]
            exact PureExecLink.RunSpec.call_error E pre hs h res e calls _ _ hA hX rfl (hm _ _)
              rfl rfl

/-- The AtomSpace of an entry of the expected schedule is an AtomSpace of the sequence. -/
theorem PureExecLink.expected_from_mem {H AS V σ : Type} (E : ExecEnv H AS V σ) :
    ∀ (hs pre : List H) (e : H × Option H), e ∈ PureExecLink.expected_from E pre hs →
      ∀ a, e.2 = some a → a ∈ pre ++ hs ∧ E.is_atomspace a = true := by
  intro hs
  induction hs with
  | nil =>
    intro pre e he
    simp [PureExecLink.expected_from] at he
  | cons h hs ih =>
    intro pre e he a ha
    unfold PureExecLink.expected_from at he
    rcases List.mem_append.mp he with h1 | h1
    · by_cases hc : (! E.is_atomspace h && E.is_executable h) = true
      · rw [if_pos hc] at h1
        rw [List.mem_singleton.mp h1] at ha
        simp only at ha
        have hm := List.mem_of_getLast?_eq_some ha
        rw [List.mem_filter] at hm
        exact ⟨List.mem_append_left _ hm.1, hm.2⟩
      · rw [if_neg hc] at h1
        cases h1
    · obtain ⟨hin, hA⟩ := ih (pre ++ [h]) e h1 a ha
      refine ⟨?_, hA⟩
      simpa using hin

/-- Changing the relation of a `Forall₂` with the help of a property of the right elements. -/
theorem forall₂_imp_of_right {α β : Type} (R S : α → β → Prop) (P : β → Prop)
    (himp : ∀ a b, R a b → P b → S a b) :
    ∀ (l1 : List α) (l2 : List β), List.Forall₂ R l1 l2 → (∀ b ∈ l2, P b) →
      List.Forall₂ S l1 l2 := by
  intro l1 l2 h
  induction h with
  | nil => intro _; exact List.Forall₂.nil
  | cons hab _ ih =>
    intro hP
    exact List.Forall₂.cons (himp _ _ hab (hP _ (List.mem_cons_self _ _)))
      (ih (fun b hb => hP b (List.mem_cons_of_mem _ hb)))

/-- A true account stays one when a call is added at its end. -/
theorem ExecCall.Account.append_one {H AS V σ : Type} (E : ExecEnv H AS V σ)
    (as : Option AS) (silent : Bool) (c : ExecCall H AS V) (m t : σ)
    (hc : ExecCall.Account E as silent [c] m t) :
    ∀ (cs : List (ExecCall H AS V)) (s : σ), ExecCall.Account E as silent cs s m →
      ExecCall.Account E as silent (cs ++ [c]) s t := by
  intro cs
  induction cs with
  | nil =>
    intro s h
    have hm : m = s := h
    rw [← hm]
    exact hc
  | cons d ds ih =>
    intro s h
    by_cases ht : d.transient = true
    · simp only [List.cons_append, ExecCall.Account, ht, if_true] at h ⊢
      exact ⟨h.1, h.2.1, ih _ h.2.2⟩
    · simp only [List.cons_append, ExecCall.Account, ht, if_false] at h ⊢
      exact ⟨h.1, ih _ h.2⟩

/-- The outcome that a true account gives for a call is what `execute` returns or throws for
the atom of the call, in the AtomSpace of the call, in some state. -/
theorem ExecCall.Account.outcome {H AS V σ : Type} (E : ExecEnv H AS V σ)
    (as : Option AS) (silent : Bool) :
    ∀ (cs : List (ExecCall H AS V)) (s t : σ), ExecCall.Account E as silent cs s t →
      ∀ c ∈ cs, ∃ st, c.outcome = (E.execute c.atom c.ctxt silent st).1 := by
  intro cs
  induction cs with
  | nil =>
    intro s t _ c hc
    cases hc
  | cons d ds ih =>
    intro s t h c hc
    by_cases ht : d.transient = true
    · simp only [ExecCall.Account, ht, if_true] at h
      rcases List.mem_cons.mp hc with h1 | h1
      · rw [h1]
        exact ⟨_, h.2.1⟩
      · exact ih _ t h.2.2 c h1
    · simp only [ExecCall.Account, ht, if_false] at h
      rcases List.mem_cons.mp hc with h1 | h1
      · rw [h1]
        exact ⟨_, h.1⟩
      · exact ih _ t h.2 c h1

/-- The log of the loop of `PureExecLink::execute` is a true account of the `execute` calls,
and of the grabs and releases of transients, that lead from the state `s0` to the state at
the end of the loop, when the log at the head of the loop is one for the state there. -/
theorem PureExecLink.loop_account {H AS V σ : Type} (E : ExecEnv H AS V σ) (as : Option AS)
    (silent : Bool) (s0 : σ) :
    ∀ (hs : List H) (res : V) (ctxt : Option AS) (s : σ) (calls : List (ExecCall H AS V)),
      ExecCall.Account E as silent calls s0 s →
      ExecCall.Account E as silent (PureExecLink.loop E as silent hs res ctxt s calls).calls s0
        (PureExecLink.loop E as silent hs res ctxt s calls).state := by
  intro hs
  induction hs with
  | nil =>
    intro res ctxt s calls h
    simpa [PureExecLink.loop] using h
  | cons h hs ih =>
    intro res ctxt s calls hacc
    cases hA : E.is_atomspace h with
    | true =>
      have hstep : PureExecLink.loop E as silent (h :: hs) res ctxt s calls
          = PureExecLink.loop E as silent hs res (E.AtomSpaceCast h) s calls := by
        simp [PureExecLink.loop, hA]
      rw [hstep]
      exact ih res _ s calls hacc
    | false =>
      cases hX : E.is_executable h with
      | false =>
        have hstep : PureExecLink.loop E as silent (h :: hs) res ctxt s calls
            = PureExecLink.loop E as silent hs (E.ofHandle h) ctxt s calls := by
          simp [PureExecLink.loop, hA, hX]
        rw [hstep]
        exact ih _ ctxt s calls hacc
      | true =>
        cases hc : ctxt with
        | some c0 =>
          cases hx : (E.execute h c0 silent s).1 with
          | ok v =>
            have hstep : PureExecLink.loop E as silent (h :: hs) res (some c0) s calls
                = PureExecLink.loop E as silent hs v (some c0) (E.execute h c0 silent s).2
                  (calls ++ [{ atom := h, ctxt := c0, transient := false,
                               outcome := Except.ok v }]) := by
              simp [PureExecLink.loop, hA, hX, hx]
            rw [hstep]
            apply ih
            apply ExecCall.Account.append_one E as silent _ s _ _ calls s0 hacc
            simp [ExecCall.Account, hx]
          | error e =>
            have hstep : PureExecLink.loop E as silent (h :: hs) res (some c0) s calls
                = { result := Except.error e, state := (E.execute h c0 silent s).2,
                    calls := calls ++ [{ atom := h, ctxt := c0, transient := false,
                                         outcome := Except.error e }] } := by
              simp [PureExecLink.loop, hA, hX, hx]
            rw [hstep]
            apply ExecCall.Account.append_one E as silent _ s _ _ calls s0 hacc
            simp [ExecCall.Account, hx]
        | none =>
          cases hx : (E.execute h (E.grab_transient_atomspace as s).1 silent
              (E.grab_transient_atomspace as s).2).1 with
          | ok v =>
            have hstep : PureExecLink.loop E as silent (h :: hs) res none s calls
                = PureExecLink.loop E as silent hs v none
                  (E.release_transient_atomspace (E.grab_transient_atomspace as s).1
                    (E.execute h (E.grab_transient_atomspace as s).1 silent
                      (E.grab_transient_atomspace as s).2).2)
                  (calls ++ [{ atom := h, ctxt := (E.grab_transient_atomspace as s).1,
                               transient := true, outcome := Except.ok v }]) := by
              simp [PureExecLink.loop, hA, hX, hx]
            rw [hstep]
            apply ih
            apply ExecCall.Account.append_one E as silent _ s _ _ calls s0 hacc
            simp [ExecCall.Account, hx]
          | error e =>
            have hstep : PureExecLink.loop E as silent (h :: hs) res none s calls
                = { result := Except.error e,
                    state := E.release_transient_atomspace (E.grab_transient_atomspace as s).1
                      (E.execute h (E.grab_transient_atomspace as s).1 silent
                        (E.grab_transient_atomspace as s).2).2,
                    calls := calls ++ [{ atom := h, ctxt := (E.grab_transient_atomspace as s).1,
                                         transient := true, outcome := Except.error e }] } := by
              simp [PureExecLink.loop, hA, hX, hx]
            rw [hstep]
            apply ExecCall.Account.append_one E as silent _ s _ _ calls s0 hacc
            simp [ExecCall.Account, hx]

/-- The exception that leaves the loop of `PureExecLink::execute` is the one that the last
`execute` call threw. -/
theorem PureExecLink.loop_error {H AS V σ : Type} (E : ExecEnv H AS V σ) (as : Option AS)
    (silent : Bool) (e : Exn) :
    ∀ (hs : List H) (res : V) (ctxt : Option AS) (s : σ) (calls : List (ExecCall H AS V)),
      (PureExecLink.loop E as silent hs res ctxt s calls).result = Except.error e →
      ∃ c, (PureExecLink.loop E as silent hs res ctxt s calls).calls.getLast? = some c
        ∧ c.outcome = Except.error e := by
  intro hs
  induction hs with
  | nil =>
    intro res ctxt s calls h
    simp [PureExecLink.loop] at h
  | cons h hs ih =>
    intro res ctxt s calls
    cases hA : E.is_atomspace h with
    | true =>
      have hstep : PureExecLink.loop E as silent (h :: hs) res ctxt s calls
          = PureExecLink.loop E as silent hs res (E.AtomSpaceCast h) s calls := by
        simp [PureExecLink.loop, hA]
      rw [hstep]
      exact ih res _ s calls
    | false =>
      cases hX : E.is_executable h with
      | false =>
        have hstep : PureExecLink.loop E as silent (h :: hs) res ctxt s calls
            = PureExecLink.loop E as silent hs (E.ofHandle h) ctxt s calls := by
          simp [PureExecLink.loop, hA, hX]
        rw [hstep]
        exact ih _ ctxt s calls
      | true =>
        cases hc : ctxt with
        | some c0 =>
          cases hx : (E.execute h c0 silent s).1 with
          | ok v =>
            have hstep : PureExecLink.loop E as silent (h :: hs) res (some c0) s calls
                = PureExecLink.loop E as silent hs v (some c0) (E.execute h c0 silent s).2
                  (calls ++ [{ atom := h, ctxt := c0, transient := false,
                               outcome := Except.ok v }]) := by
              simp [PureExecLink.loop, hA, hX, hx]
            rw [hstep]
            exact ih _ _ _ _
          | error e1 =>
            have hstep : PureExecLink.loop E as silent (h :: hs) res (some c0) s calls
                = { result := Except.error e1, state := (E.execute h c0 silent s).2,
                    calls := calls ++ [{ atom := h, ctxt := c0, transient := false,
                                         outcome := Except.error e1 }] } := by
              simp [PureExecLink.loop, hA, hX, hx]
            rw [hstep]
            intro he
            refine ⟨_, List.getLast?_concat _, ?_⟩
            exact he
        | none =>
          cases hx : (E.execute h (E.grab_transient_atomspace as s).1 silent
              (E.grab_transient_atomspace as s).2).1 with
          | ok v =>
            have hstep : PureExecLink.loop E as silent (h :: hs) res none s calls
                = PureExecLink.loop E as silent hs v none
                  (E.release_transient_atomspace (E.grab_transient_atomspace as s).1
                    (E.execute h (E.grab_transient_atomspace as s).1 silent
                      (E.grab_transient_atomspace as s).2).2)
                  (calls ++ [{ atom := h, ctxt := (E.grab_transient_atomspace as s).1,
                               transient := true, outcome := Except.ok v }]) := by
              simp [PureExecLink.loop, hA, hX, hx]
            rw [hstep]
            exact ih _ _ _ _
          | error e1 =>
            have hstep : PureExecLink.loop E as silent (h :: hs) res none s calls
                = { result := Except.error e1,
                    state := E.release_transient_atomspace (E.grab_transient_atomspace as s).1
                      (E.execute h (E.grab_transient_atomspace as s).1 silent
                        (E.grab_transient_atomspace as s).2).2,
                    calls := calls ++ [{ atom := h, ctxt := (E.grab_transient_atomspace as s).1,
                                         transient := true, outcome := Except.error e1 }] } := by
              simp [PureExecLink.loop, hA, hX, hx]
            rw [hstep]
            intro he
            refine ⟨_, List.getLast?_concat _, ?_⟩
            exact he

/-- C19: the log of `PureExecLink::execute` is a true account of the `execute` calls made
and of the state they leave.  The method returns a value exactly when none of these calls
threw, which is so whenever `execute` never throws; otherwise the exception that leaves it
is the one that its last call threw.  The value `v` it returns is the result for the last
atom of the outgoing set that is not an AtomSpace: that atom itself when it is not
executable, and, when it is executable, what `execute` returned for it in the last call
made, the one on that atom; when every outgoing atom is an AtomSpace the value is the
`VoidValue`. -/
theorem PureExecLink.execute_result {H AS V σ : Type} (E : ExecEnv H AS V σ)
    (as : Option AS) (silent : Bool) (o : List H) (s : σ) :
    ExecCall.Account E as silent (PureExecLink.execute E as silent o s).calls s
        (PureExecLink.execute E as silent o s).state
      ∧ ((∃ v, (PureExecLink.execute E as silent o s).result = Except.ok v)
        ↔ ∀ c ∈ (PureExecLink.execute E as silent o s).calls, ∃ v, c.outcome = Except.ok v)
      ∧ (∀ e, (PureExecLink.execute E as silent o s).result = Except.error e →
          ∃ c, (PureExecLink.execute E as silent o s).calls.getLast? = some c
            ∧ c.outcome = Except.error e)
      ∧ ((∀ h c st, ∃ v, (E.execute h c silent st).1 = Except.ok v) →
          ∃ v, (PureExecLink.execute E as silent o s).result = Except.ok v)
      ∧ ∀ v, (PureExecLink.execute E as silent o s).result = Except.ok v →
          match PureExecLink.lastNonAtomSpace E o with
          | none => v = E.createVoidValue
          | some h =>
            if E.is_executable h then
              ∃ c, (PureExecLink.execute E as silent o s).calls.getLast? = some c
                ∧ c.atom = h ∧ c.outcome = Except.ok v
                ∧ ∃ st, (E.execute h c.ctxt silent st).1 = Except.ok v
            else v = E.ofHandle h := by
  have hacc : ExecCall.Account E as silent (PureExecLink.execute E as silent o s).calls s
      (PureExecLink.execute E as silent o s).state :=
    PureExecLink.loop_account E as silent s o E.createVoidValue none s [] rfl
  have hout := ExecCall.Account.outcome E as silent _ s _ hacc
  obtain ⟨new, done, rest, h1, -, -, h4, -, h6⟩ :=
    PureExecLink.loop_spec E as silent o [] E.createVoidValue none s [] rfl
  rw [List.nil_append] at h1
  have hcalls : (PureExecLink.execute E as silent o s).calls = new := h1
  have hiff : (∃ v, (PureExecLink.execute E as silent o s).result = Except.ok v)
      ↔ ∀ c ∈ (PureExecLink.execute E as silent o s).calls, ∃ v, c.outcome = Except.ok v := by
    rw [hcalls]
    exact h4
  refine ⟨hacc, hiff, ?_, ?_, ?_⟩
  · intro e he
    exact PureExecLink.loop_error E as silent e o E.createVoidValue none s [] he
  · intro htot
    apply hiff.mpr
    intro c hc
    obtain ⟨st, hst⟩ := hout c hc
    obtain ⟨v, hv⟩ := htot c.atom c.ctxt st
    exact ⟨v, by rw [hst, hv]⟩
  · intro v hv
    have h := h6 v hv
    unfold PureExecLink.ResultIs at h
    cases hl : PureExecLink.lastNonAtomSpace E o with
    | none =>
      rw [hl] at h
      exact h
    | some h0 =>
      rw [hl] at h
      by_cases hx : E.is_executable h0 = true
      · simp only [hx, if_true] at h ⊢
        obtain ⟨c, hlast, hatom, hok⟩ := h
        rw [hcalls]
        refine ⟨c, hlast, hatom, hok, ?_⟩
        have hmem : c ∈ (PureExecLink.execute E as silent o s).calls := by
          rw [hcalls]
          exact List.mem_of_getLast?_eq_some hlast
        obtain ⟨st, hst⟩ := hout c hmem
        exact ⟨st, by rw [← hatom, ← hst, hok]⟩
      · simp only [hx] at h ⊢
        exact h

/-- C20: let every atom of the outgoing set that is of type `ATOM_SPACE` be an AtomSpace
(`AtomSpaceCast` of it is not null).  The `execute` calls that `PureExecLink::execute` makes
are, one for one and in order, on the first entries `done` of the list of the executable
atoms of the outgoing set in sequence order, each call in the most recent AtomSpace that
precedes its atom in the outgoing set, and in a transient AtomSpace grabbed for the call,
and released after it, when no AtomSpace precedes it.  These are the calls really made: the
log is a true account of what `execute` returned or threw in each of them and of the
state that they leave, which nothing else changes.  When the method returns a value, which
it does exactly when none of its calls threw, `done` is the whole list: every executable
atom is executed exactly once. -/
theorem PureExecLink.execute_schedule {H AS V σ : Type} (E : ExecEnv H AS V σ)
    (as : Option AS) (silent : Bool) (o : List H) (s : σ)
    (hcast : ∀ h ∈ o, E.is_atomspace h = true → (E.AtomSpaceCast h).isSome = true) :
    ExecCall.Account E as silent (PureExecLink.execute E as silent o s).calls s
        (PureExecLink.execute E as silent o s).state
      ∧ ∃ done rest, PureExecLink.expected E o = done ++ rest
        ∧ List.Forall₂ (ExecCall.In E) (PureExecLink.execute E as silent o s).calls done
        ∧ ((∃ v, (PureExecLink.execute E as silent o s).result = Except.ok v) → rest = [])
        ∧ ((∃ v, (PureExecLink.execute E as silent o s).result = Except.ok v)
          ↔ ∀ c ∈ (PureExecLink.execute E as silent o s).calls,
              ∃ v, c.outcome = Except.ok v) := by
  refine ⟨PureExecLink.loop_account E as silent s o E.createVoidValue none s [] rfl, ?_⟩
  obtain ⟨new, done, rest, h1, h2, h3, h4, h5, -⟩ :=
    PureExecLink.loop_spec E as silent o [] E.createVoidValue none s [] rfl
  rw [List.nil_append] at h1
  unfold PureExecLink.execute
  rw [h1]
  refine ⟨done, rest, h2, ?_, h5, h4⟩
  refine forall₂_imp_of_right (ExecCall.Matches E) (ExecCall.In E)
    (fun e => ∀ a, e.2 = some a → a ∈ o ∧ E.is_atomspace a = true) ?_ new done h3 ?_
  · intro c e hm hP
    obtain ⟨hatom, hctx⟩ := hm
    refine ⟨hatom, ?_⟩
    cases he : e.2 with
    | none =>
      rw [he] at hctx
      simpa using hctx
    | some a =>
      obtain ⟨hin, hA⟩ := hP a he
      obtain ⟨p, hp⟩ := Option.isSome_iff_exists.mp (hcast a hin hA)
      rw [he] at hctx
      have hb : (some a).bind E.AtomSpaceCast = some p := hp
      rw [hb] at hctx
      exact ⟨hctx.1, by rw [hp, hctx.2]⟩
  · intro e he a ha
    have hmem : e ∈ PureExecLink.expected_from E [] o := by
      have : e ∈ done ++ rest := List.mem_append_left _ he
      rw [← h2] at this
      exact this
    simpa using PureExecLink.expected_from_mem E o [] e hmem a ha

/-- The schedule of the outgoing set `[2, 100, 4, 3, 200, 6]`: the executable atoms 2, 4 and 6,
the AtomSpaces 100 and 200.  In the sample the state lists the atoms executed, each with the
AtomSpace it was executed in. -/
theorem PureExecLink.execute_schedule_witness :
    PureExecLink.expected ExecEnv.sample [2, 100, 4, 3, 200, 6]
        = [(2, none), (4, some 100), (6, some 200)]
      ∧ (PureExecLink.execute ExecEnv.sample (some 7) false [2, 100, 4, 3, 200, 6] []).state
        = [(2, 1000), (4, 100), (6, 200)]
      ∧ ExecCall.Account ExecEnv.sample (some 7) false
          (PureExecLink.execute ExecEnv.sample (some 7) false [2, 100, 4, 3, 200, 6] []).calls []
          (PureExecLink.execute ExecEnv.sample (some 7) false [2, 100, 4, 3, 200, 6] []).state
      ∧ ∃ done rest, PureExecLink.expected ExecEnv.sample [2, 100, 4, 3, 200, 6] = done ++ rest
        ∧ List.Forall₂ (ExecCall.In ExecEnv.sample)
          (PureExecLink.execute ExecEnv.sample (some 7) false [2, 100, 4, 3, 200, 6] []).calls
          done
        ∧ ((∃ v, (PureExecLink.execute ExecEnv.sample (some 7) false [2, 100, 4, 3, 200, 6]
              []).result = Except.ok v) → rest = [])
        ∧ ((∃ v, (PureExecLink.execute ExecEnv.sample (some 7) false [2, 100, 4, 3, 200, 6]
              []).result = Except.ok v)
          ↔ ∀ c ∈ (PureExecLink.execute ExecEnv.sample (some 7) false [2, 100, 4, 3, 200, 6]
              []).calls, ∃ v, c.outcome = Except.ok v) :=
  ⟨by decide, by decide,
    PureExecLink.execute_schedule ExecEnv.sample (some 7) false [2, 100, 4, 3, 200, 6] []
      (fun _ _ _ => rfl)⟩

/-- Runs of `PureExecLink::execute` in the sample environment: the result for the last atom
that is not an AtomSpace (6, executed in 200; the atom 3 itself; the `VoidValue` 0), and a
run in which the atom 66 throws, so that the atom 6 after it is not executed. -/
theorem PureExecLink.execute_evaluated :
    (PureExecLink.execute ExecEnv.sample (some 7) false [2, 100, 4, 3, 200, 6] []).result
        = Except.ok 206
      ∧ (PureExecLink.execute ExecEnv.sample (some 7) false [2, 100, 4, 3, 200] []).result
        = Except.ok 3
      ∧ (PureExecLink.execute ExecEnv.sample (some 7) false [100, 200] []).result
        = Except.ok 0
      ∧ (PureExecLink.execute ExecEnv.sample (some 7) false [2, 66, 6] []).result
        = Except.error (Exn.RuntimeException "thrown")
      ∧ (PureExecLink.execute ExecEnv.sample (some 7) false [2, 66, 6] []).state
        = [(2, 1000), (66, 1000)] := by
  refine ⟨rfl, rfl, rfl, rfl, by decide⟩

/-! ## The AtomSpaces that `PureExecLink::execute` executes in -/

/-- Every call of the loop of `PureExecLink::execute` is made in an AtomSpace with the
property `P`, when `P` holds of the current context, of the pointers that `AtomSpaceCast`
gives for the AtomSpaces of the atoms still to come, and of every transient that
`grab_transient_atomspace(as)` returns. -/
theorem PureExecLink.loop_ctxt {H AS V σ : Type} (E : ExecEnv H AS V σ) (as : Option AS)
    (silent : Bool) (P : AS → Prop)
    (hgrab : ∀ s, P (E.grab_transient_atomspace as s).1) :
    ∀ (hs : List H) (res : V) (ctxt : Option AS) (s : σ) (calls : List (ExecCall H AS V)),
      (∀ c, ctxt = some c → P c) →
      (∀ h ∈ hs, E.is_atomspace h = true → ∀ c, E.AtomSpaceCast h = some c → P c) →
      (∀ c ∈ calls, P c.ctxt) →
      ∀ c ∈ (PureExecLink.loop E as silent hs res ctxt s calls).calls, P c.ctxt := by
  intro hs
  induction hs with
  | nil =>
    intro res ctxt s calls _ _ hcalls
    simpa [PureExecLink.loop] using hcalls
  | cons h hs ih =>
    intro res ctxt s calls hctxt hAS hcalls
    have hAS2 : ∀ h2 ∈ hs, E.is_atomspace h2 = true →
        ∀ c, E.AtomSpaceCast h2 = some c → P c :=
      fun h2 hh2 => hAS h2 (List.mem_cons_of_mem _ hh2)
    have hext : ∀ (call : ExecCall H AS V), P call.ctxt →
        ∀ c ∈ calls ++ [call], P c.ctxt := by
      intro call hc c hmem
      rcases List.mem_append.mp hmem with h1 | h1
      · exact hcalls c h1
      · rw [List.mem_singleton.mp h1]
        exact hc
    cases hA : E.is_atomspace h with
    | true =>
      have hstep : PureExecLink.loop E as silent (h :: hs) res ctxt s calls
          = PureExecLink.loop E as silent hs res (E.AtomSpaceCast h) s calls := by
        simp [PureExecLink.loop, hA]
      rw [hstep]
      exact ih res _ s calls (fun c hc => hAS h (List.mem_cons_self _ _) hA c hc) hAS2 hcalls
    | false =>
      cases hX : E.is_executable h with
      | false =>
        have hstep : PureExecLink.loop E as silent (h :: hs) res ctxt s calls
            = PureExecLink.loop E as silent hs (E.ofHandle h) ctxt s calls := by
          simp [PureExecLink.loop, hA, hX]
        rw [hstep]
        exact ih _ ctxt s calls hctxt hAS2 hcalls
      | true =>
        cases hc : ctxt with
        | some c0 =>
          have hP0 : P c0 := hctxt c0 hc
          cases hx : (E.execute h c0 silent s).1 with
          | ok v =>
            have hstep : PureExecLink.loop E as silent (h :: hs) res (some c0) s calls
                = PureExecLink.loop E as silent hs v (some c0) (E.execute h c0 silent s).2
                  (calls ++ [{ atom := h, ctxt := c0, transient := false,
                               outcome := Except.ok v }]) := by
              simp [PureExecLink.loop, hA, hX, hx]
            rw [hstep]
            exact ih v (some c0) _ _ (fun c e => by cases e; exact hP0) hAS2 (hext _ hP0)
          | error e =>
            have hstep : PureExecLink.loop E as silent (h :: hs) res (some c0) s calls
                = { result := Except.error e, state := (E.execute h c0 silent s).2,
                    calls := calls ++ [{ atom := h, ctxt := c0, transient := false,
                                         outcome := Except.error e }] } := by
              simp [PureExecLink.loop, hA, hX, hx]
            rw [hstep]
            exact hext _ hP0
        | none =>
          have hPt : P (E.grab_transient_atomspace as s).1 := hgrab s
          cases hx : (E.execute h (E.grab_transient_atomspace as s).1 silent
              (E.grab_transient_atomspace as s).2).1 with
          | ok v =>
            have hstep : PureExecLink.loop E as silent (h :: hs) res none s calls
                = PureExecLink.loop E as silent hs v none
                  (E.release_transient_atomspace (E.grab_transient_atomspace as s).1
                    (E.execute h (E.grab_transient_atomspace as s).1 silent
                      (E.grab_transient_atomspace as s).2).2)
                  (calls ++ [{ atom := h, ctxt := (E.grab_transient_atomspace as s).1,
                               transient := true, outcome := Except.ok v }]) := by
              simp [PureExecLink.loop, hA, hX, hx]
            rw [hstep]
            exact ih v none _ _ (fun c e => by cases e) hAS2 (hext _ hPt)
          | error e =>
            have hstep : PureExecLink.loop E as silent (h :: hs) res none s calls
                = { result := Except.error e,
                    state := E.release_transient_atomspace (E.grab_transient_atomspace as s).1
                      (E.execute h (E.grab_transient_atomspace as s).1 silent
                        (E.grab_transient_atomspace as s).2).2,
                    calls := calls ++ [{ atom := h, ctxt := (E.grab_transient_atomspace as s).1,
                                         transient := true, outcome := Except.error e }] } := by
              simp [PureExecLink.loop, hA, hX, hx]
            rw [hstep]
            exact hext _ hPt

/-- C21, as stated, fails.  The caller's AtomSpace is 100 and the outgoing set lists that
AtomSpace before the executable atom 4: the atom 4 is executed with the caller's AtomSpace
as its context, and what the execution does (here: the log entry) happens there. -/
theorem PureExecLink.executes_in_callers_atomspace :
    (PureExecLink.execute ExecEnv.sample (some 100) false [100, 4] []).calls.map
        (fun c => (c.atom, c.ctxt, c.transient)) = [(4, 100, false)]
      ∧ (PureExecLink.execute ExecEnv.sample (some 100) false [100, 4] []).state
        = [(4, 100)] := by
  decide

/-- C21, amended: when the caller's AtomSpace `a` (the `as` argument) is not the AtomSpace of
any member of the outgoing set, and the transient that `grab_transient_atomspace(as)` hands
out is not `a` itself, no member atom is executed with `a` as its execution context: none of
the `execute` calls is made in `a`, and these calls, of which the log is a true account,
with the grabs and releases of the transients, are all that changes the state. -/
theorem PureExecLink.execute_pure {H AS V σ : Type} (E : ExecEnv H AS V σ) (a : AS)
    (silent : Bool) (o : List H) (s : σ)
    (hlisted : ∀ h ∈ o, E.is_atomspace h = true → E.AtomSpaceCast h ≠ some a)
    (hgrab : ∀ s, (E.grab_transient_atomspace (some a) s).1 ≠ a) :
    ExecCall.Account E (some a) silent (PureExecLink.execute E (some a) silent o s).calls s
        (PureExecLink.execute E (some a) silent o s).state
      ∧ ∀ c ∈ (PureExecLink.execute E (some a) silent o s).calls, c.ctxt ≠ a := by
  refine ⟨PureExecLink.loop_account E (some a) silent s o E.createVoidValue none s [] rfl, ?_⟩
  unfold PureExecLink.execute
  apply PureExecLink.loop_ctxt E (some a) silent (fun x => x ≠ a) hgrab
  · intro c hc
    cases hc
  · intro h hh hA c hc hca
    exact hlisted h hh hA (by rw [hc, hca])
  · intro c hc
    cases hc

/-- The outgoing set `[2, 100, 4, 3, 200, 6]` executed from the caller's AtomSpace 7, with
the transient 1000.  In the sample the state lists the atoms executed, each with the
AtomSpace it was executed in: none is 7. -/
theorem PureExecLink.execute_pure_witness :
    ((PureExecLink.execute ExecEnv.sample (some 7) false [2, 100, 4, 3, 200, 6] []).calls.map
        (fun c => c.ctxt) = [1000, 100, 200]
      ∧ (PureExecLink.execute ExecEnv.sample (some 7) false [2, 100, 4, 3, 200, 6] []).state
        = [(2, 1000), (4, 100), (6, 200)])
      ∧ ExecCall.Account ExecEnv.sample (some 7) false
          (PureExecLink.execute ExecEnv.sample (some 7) false [2, 100, 4, 3, 200, 6] []).calls []
          (PureExecLink.execute ExecEnv.sample (some 7) false [2, 100, 4, 3, 200, 6] []).state
      ∧ ∀ c ∈ (PureExecLink.execute ExecEnv.sample (some 7) false [2, 100, 4, 3, 200, 6]
          []).calls, c.ctxt ≠ 7 :=
  ⟨⟨by decide, by decide⟩,
    PureExecLink.execute_pure ExecEnv.sample 7 false [2, 100, 4, 3, 200, 6] []
      (by decide) (fun s => show (1000 : Nat) ≠ 7 by decide)⟩

/-! ## `Atom::get_arity` -/

/-- C28, as stated, fails.  On an atom of the base class, whose `size()` is 0, `get_arity()`
returns 0, where `getOutgoingSet()` throws "Not a link!". -/
theorem Atom.get_arity_returns_size :
    (Atom.ctor (2 ^ 64 - 1) 3).get_arity (fun _ => 0) = Except.ok 0
      ∧ (Atom.ctor (2 ^ 64 - 1) 3).getOutgoingSet
        = Except.error (Exn.RuntimeException "Not a link!") :=
  ⟨rfl, rfl⟩

/-- C28, amended: `get_arity()`, on an atom that does not override it, returns `size()` and
throws nothing; it does not follow the kind-mismatch rule of `getOutgoingSet()`. -/
theorem Atom.get_arity_size (size : Atom → Nat) (a : Atom) :
    a.get_arity size = Except.ok (size a) ∧ ∀ e, a.get_arity size ≠ Except.error e := by
  refine ⟨rfl, ?_⟩
  intro e h
  cases h

/-! ## `RuleLink::extract_variables` -/

/-- The loop appends `k` atoms of the outgoing set, from index `i` on. -/
theorem RuleLink.push_back_loop_eq {H : Type} (oset : List H) :
    ∀ (k i : Nat) (acc : List H),
      RuleLink.push_back_loop oset k i acc = acc ++ (oset.drop i).take k := by
  intro k
  induction k with
  | zero =>
    intro i acc
    simp [RuleLink.push_back_loop]
  | succ k ih =>
    intro i acc
    rw [RuleLink.push_back_loop, ih, List.append_assoc]
    congr 1
    by_cases hi : i < oset.length
    · rw [List.getElem?_eq_getElem hi, List.drop_eq_getElem_cons hi, List.take_succ_cons]
      rfl
    · have hle : oset.length ≤ i := Nat.le_of_not_lt hi
      rw [List.getElem?_eq_none hle, List.drop_eq_nil_of_le hle,
        List.drop_eq_nil_of_le (Nat.le_succ_of_le hle)]
      simp

/-- The loop of `extract_variables` appends the atoms after index `boff`. -/
theorem RuleLink.push_back_loop_all {H : Type} (oset : List H) (boff : Nat) (acc : List H) :
    RuleLink.push_back_loop oset (oset.length - (boff + 1)) (boff + 1) acc
      = acc ++ oset.drop (boff + 1) := by
  rw [RuleLink.push_back_loop_eq]
  congr 1
  apply List.take_of_length_le
  simp

/-- The test of the first atom's type is the test for a declaration. -/
theorem RuleLink.isDeclaration_iff {H Vars : Type} (E : RuleEnv H Vars) (h : H) :
    RuleLink.IsDeclaration E h ↔
      (E.VARIABLE_LIST = E.get_type h ∨ E.VARIABLE_SET = E.get_type h
        ∨ E.TYPED_VARIABLE_LINK = E.get_type h ∨ E.VARIABLE_NODE = E.get_type h
        ∨ E.GLOB_NODE = E.get_type h) := by
  simp [RuleLink.IsDeclaration, eq_comm]

/-- With no declaration, the body is the first atom and the implicands are the rest. -/
theorem RuleLink.extract_body_zero {H Vars : Type} (E : RuleEnv H Vars) (b : H)
    (rest : List H) (self : RuleLink H Vars) :
    RuleLink.extract_body E (b :: rest) 0 self
      = Except.ok { self with _body := some b, _implicand := self._implicand ++ rest } := by
  have h : RuleLink.push_back_loop (b :: rest) rest.length 1 self._implicand
      = self._implicand ++ rest := by
    simpa using RuleLink.push_back_loop_all (b :: rest) 0 self._implicand
  simp [RuleLink.extract_body, h]

/-- A declaration alone has no body. -/
theorem RuleLink.extract_body_one_nil {H Vars : Type} (E : RuleEnv H Vars) (d : H)
    (self : RuleLink H Vars) :
    RuleLink.extract_body E [d] 1 self
      = Except.error (Exn.SyntaxException "Expecting a declaration of a body/premise!") := by
  simp [RuleLink.extract_body]

/-- After a declaration, the body is the second atom and the implicands are the rest, when
`trim` returns. -/
theorem RuleLink.extract_body_one_ok {H Vars : Type} (E : RuleEnv H Vars) (d b : H)
    (rest : List H) (self : RuleLink H Vars) (w : Vars)
    (ht : E.trim self._variables (self._implicand ++ rest ++ [b]) = Except.ok w) :
    RuleLink.extract_body E (d :: b :: rest) 1 self
      = Except.ok { self with _body := some b, _variables := w,
                              _implicand := self._implicand ++ rest } := by
  have h2 : RuleLink.push_back_loop (d :: b :: rest) rest.length 2 self._implicand
      = self._implicand ++ rest := by
    simpa using RuleLink.push_back_loop_all (d :: b :: rest) 1 self._implicand
  rw [List.append_assoc] at ht
  simp [RuleLink.extract_body, h2, ht]

/-- After a declaration, what `trim` throws is thrown. -/
theorem RuleLink.extract_body_one_error {H Vars : Type} (E : RuleEnv H Vars) (d b : H)
    (rest : List H) (self : RuleLink H Vars) (e : Exn)
    (ht : E.trim self._variables (self._implicand ++ rest ++ [b]) = Except.error e) :
    RuleLink.extract_body E (d :: b :: rest) 1 self = Except.error e := by
  have h2 : RuleLink.push_back_loop (d :: b :: rest) rest.length 2 self._implicand
      = self._implicand ++ rest := by
    simpa using RuleLink.push_back_loop_all (d :: b :: rest) 1 self._implicand
  rw [List.append_assoc] at ht
  simp [RuleLink.extract_body, h2, ht]

/-- With a declaration first, `extract_variables` is `extract_body` at offset 1 once
`init_scoped_variables` has returned. -/
theorem RuleLink.extract_variables_decl {H Vars : Type} (E : RuleEnv H Vars) (o0 : H)
    (rest : List H) (self : RuleLink H Vars) (hd : RuleLink.IsDeclaration E o0) :
    RuleLink.extract_variables E (o0 :: rest) self
      = match E.init_scoped_variables o0 self._variables with
        | Except.error e => Except.error e
        | Except.ok w =>
          RuleLink.extract_body E (o0 :: rest) 1
            { self with _vardecl := some o0, _variables := w } := by
  simp only [RuleLink.extract_variables]
  rw [if_pos ((RuleLink.isDeclaration_iff E o0).mp hd)]

/-- With another atom first, `extract_variables` is `extract_body` at offset 0 once
`find_variables` has returned. -/
theorem RuleLink.extract_variables_plain {H Vars : Type} (E : RuleEnv H Vars) (o0 : H)
    (rest : List H) (self : RuleLink H Vars) (hd : ¬ RuleLink.IsDeclaration E o0) :
    RuleLink.extract_variables E (o0 :: rest) self
      = match E.find_variables self._variables o0 with
        | Except.error e => Except.error e
        | Except.ok w => RuleLink.extract_body E (o0 :: rest) 0 { self with _variables := w } := by
  simp only [RuleLink.extract_variables]
  rw [if_neg (fun h => hd ((RuleLink.isDeclaration_iff E o0).mpr h))]

/-- C22: on a fresh `RuleLink`, when the calls into the other classes return,
`extract_variables` returns for every non-empty outgoing set that is not a declaration
alone.  When the first atom is a declaration (its type is VARIABLE_LIST, VARIABLE_SET,
TYPED_VARIABLE_LINK, VARIABLE_NODE or GLOB_NODE), the declaration is `oset[0]`, the body is
`oset[1]` and the implicands are `oset[2..]`; otherwise there is no declaration, the body is
`oset[0]` and the implicands are `oset[1..]`.  In both cases declaration, body and implicands
concatenated are the outgoing set. -/
theorem RuleLink.extract_variables_split {H Vars : Type} (E : RuleEnv H Vars) (o0 : H)
    (rest : List H) (vars : Vars) (hE : E.Returns)
    (hbody : RuleLink.IsDeclaration E o0 → rest ≠ []) :
    ∃ out, RuleLink.extract_variables E (o0 :: rest) (RuleLink.fresh vars) = Except.ok out
      ∧ (RuleLink.IsDeclaration E o0 →
          out._vardecl = (o0 :: rest)[0]? ∧ out._body = (o0 :: rest)[1]? ∧ out._body ≠ none
            ∧ out._implicand = (o0 :: rest).drop 2)
      ∧ (¬ RuleLink.IsDeclaration E o0 →
          out._vardecl = none ∧ out._body = (o0 :: rest)[0]?
            ∧ out._implicand = (o0 :: rest).drop 1)
      ∧ out._vardecl.toList ++ out._body.toList ++ out._implicand = o0 :: rest := by
  by_cases hd : RuleLink.IsDeclaration E o0
  · cases rest with
    | nil => exact absurd rfl (hbody hd)
    | cons b r =>
      obtain ⟨v1, hv1⟩ := hE.1 o0 vars
      obtain ⟨w, hw⟩ := hE.2.2 v1 ([] ++ r ++ [b])
      refine ⟨{ _vardecl := some o0, _body := some b, _implicand := r, _variables := w },
        ?_, ?_, ?_, ?_⟩
      · rw [RuleLink.extract_variables_decl E o0 (b :: r) _ hd]
        simp only [RuleLink.fresh, hv1]
        rw [RuleLink.extract_body_one_ok E o0 b r _ w hw]
        simp
      · intro _
        simp
      · intro hn
        exact absurd hd hn
      · simp
  · obtain ⟨w, hw⟩ := hE.2.1 vars o0
    refine ⟨{ _vardecl := none, _body := some o0, _implicand := rest, _variables := w },
      ?_, ?_, ?_, ?_⟩
    · rw [RuleLink.extract_variables_plain E o0 rest _ hd]
      simp only [RuleLink.fresh, hw]
      rw [RuleLink.extract_body_zero]
      simp
    · intro h
      exact absurd h hd
    · intro _
      simp
    · simp

/-- The outgoing sets `[13, 20, 30, 40]`, with the declaration 13 first, and `[20, 30, 40]`,
with none, in the sample. -/
theorem RuleLink.extract_variables_split_witness :
    (RuleLink.extract_variables RuleEnv.sample [13, 20, 30, 40] (RuleLink.fresh [])
        = Except.ok { _vardecl := some 13, _body := some 20, _implicand := [30, 40],
                      _variables := [] }
      ∧ RuleLink.extract_variables RuleEnv.sample [20, 30, 40] (RuleLink.fresh [])
        = Except.ok { _vardecl := none, _body := some 20, _implicand := [30, 40],
                      _variables := [20] })
      ∧ ∃ out, RuleLink.extract_variables RuleEnv.sample (13 :: [20, 30, 40])
          (RuleLink.fresh []) = Except.ok out
        ∧ (RuleLink.IsDeclaration RuleEnv.sample 13 →
            out._vardecl = (13 :: [20, 30, 40])[0]? ∧ out._body = (13 :: [20, 30, 40])[1]?
              ∧ out._body ≠ none ∧ out._implicand = (13 :: [20, 30, 40]).drop 2)
        ∧ (¬ RuleLink.IsDeclaration RuleEnv.sample 13 →
            out._vardecl = none ∧ out._body = (13 :: [20, 30, 40])[0]?
              ∧ out._implicand = (13 :: [20, 30, 40]).drop 1)
        ∧ out._vardecl.toList ++ out._body.toList ++ out._implicand = 13 :: [20, 30, 40] :=
  ⟨⟨rfl, rfl⟩,
    RuleLink.extract_variables_split RuleEnv.sample 13 [20, 30, 40] []
      ⟨fun _ _ => ⟨_, rfl⟩, fun _ _ => ⟨_, rfl⟩, fun _ _ => ⟨_, rfl⟩⟩
      (fun _ => by decide)⟩

/-- Where an exception of `extract_variables` comes from: it is one of its own two
`SyntaxException`s, for an empty outgoing set and for a declaration alone, or it is what
`init_scoped_variables`, `find_variables` or `trim` threw. -/
theorem RuleLink.extract_variables_error_origin {H Vars : Type} (E : RuleEnv H Vars)
    (oset : List H) (self : RuleLink H Vars) (e : Exn)
    (h : RuleLink.extract_variables E oset self = Except.error e) :
    (oset = [] ∧ e = Exn.SyntaxException "Expecting a non-empty outgoing set")
      ∨ (∃ d, oset = [d] ∧ RuleLink.IsDeclaration E d
          ∧ e = Exn.SyntaxException "Expecting a declaration of a body/premise!")
      ∨ (∃ d v, E.init_scoped_variables d v = Except.error e)
      ∨ (∃ v d, E.find_variables v d = Except.error e)
      ∨ (∃ v l, E.trim v l = Except.error e) := by
  cases oset with
  | nil =>
    left
    simp only [RuleLink.extract_variables] at h
    cases h
    exact ⟨rfl, rfl⟩
  | cons o0 rest =>
    right
    by_cases hd : RuleLink.IsDeclaration E o0
    · rw [RuleLink.extract_variables_decl E o0 rest self hd] at h
      cases hi : E.init_scoped_variables o0 self._variables with
      | error e1 =>
        rw [hi] at h
        cases h
        exact Or.inr (Or.inl ⟨o0, self._variables, hi⟩)
      | ok w =>
        simp only [hi] at h
        cases rest with
        | nil =>
          rw [RuleLink.extract_body_one_nil] at h
          cases h
          exact Or.inl ⟨o0, rfl, hd, rfl⟩
        | cons b r =>
          cases ht : E.trim w (self._implicand ++ r ++ [b]) with
          | error e1 =>
            rw [RuleLink.extract_body_one_error E o0 b r _ e1 ht] at h
            cases h
            exact Or.inr (Or.inr (Or.inr ⟨_, _, ht⟩))
          | ok w2 =>
            rw [RuleLink.extract_body_one_ok E o0 b r _ w2 ht] at h
            cases h
    · rw [RuleLink.extract_variables_plain E o0 rest self hd] at h
      cases hf : E.find_variables self._variables o0 with
      | error e1 =>
        rw [hf] at h
        cases h
        exact Or.inr (Or.inr (Or.inl ⟨_, _, hf⟩))
      | ok w =>
        simp only [hf] at h
        rw [RuleLink.extract_body_zero] at h
        cases h

/-- What `extract_variables` does on each outgoing set, when the calls into the other
classes return. -/
theorem RuleLink.extract_variables_cases {H Vars : Type} (E : RuleEnv H Vars)
    (oset : List H) (self : RuleLink H Vars) (hE : E.Returns) :
    (oset = [] ∧ RuleLink.extract_variables E oset self
        = Except.error (Exn.SyntaxException "Expecting a non-empty outgoing set"))
      ∨ ((∃ d, oset = [d] ∧ RuleLink.IsDeclaration E d) ∧ RuleLink.extract_variables E oset self
        = Except.error (Exn.SyntaxException "Expecting a declaration of a body/premise!"))
      ∨ ((oset ≠ [] ∧ ¬ ∃ d, oset = [d] ∧ RuleLink.IsDeclaration E d)
        ∧ ∃ out b, RuleLink.extract_variables E oset self = Except.ok out
          ∧ out._body = some b) := by
  cases oset with
  | nil => exact Or.inl ⟨rfl, rfl⟩
  | cons o0 rest =>
    right
    by_cases hd : RuleLink.IsDeclaration E o0
    · obtain ⟨w, hw⟩ := hE.1 o0 self._variables
      cases rest with
      | nil =>
        left
        refine ⟨⟨o0, rfl, hd⟩, ?_⟩
        rw [RuleLink.extract_variables_decl E o0 [] self hd]
        simp only [hw]
        rw [RuleLink.extract_body_one_nil]
      | cons b r =>
        right
        obtain ⟨w2, hw2⟩ := hE.2.2 w (self._implicand ++ r ++ [b])
        refine ⟨⟨List.cons_ne_nil _ _, ?_⟩,
          { _vardecl := some o0, _body := some b, _implicand := self._implicand ++ r,
            _variables := w2 }, b, ?_, rfl⟩
        · rintro ⟨d, hd2, _⟩
          cases hd2
        · rw [RuleLink.extract_variables_decl E o0 (b :: r) self hd]
          simp only [hw]
          rw [RuleLink.extract_body_one_ok E o0 b r _ w2 hw2]
    · right
      obtain ⟨w, hw⟩ := hE.2.1 self._variables o0
      refine ⟨⟨List.cons_ne_nil _ _, ?_⟩,
        { _vardecl := self._vardecl, _body := some o0, _implicand := self._implicand ++ rest,
          _variables := w }, o0, ?_, rfl⟩
      · rintro ⟨d, hd2, hd3⟩
        cases hd2
        exact hd hd3
      · rw [RuleLink.extract_variables_plain E o0 rest self hd]
        simp only [hw]
        rw [RuleLink.extract_body_zero]

/-- C23: when the calls into the other classes return, `extract_variables` throws exactly
when the outgoing set is empty or is a single atom that is a variable declaration, and
what it throws is a `SyntaxException`: "Expecting a non-empty outgoing set" in the first
case, "Expecting a declaration of a body/premise!" in the second.  For every other outgoing
set it returns with the body set. -/
theorem RuleLink.extract_variables_raises {H Vars : Type} (E : RuleEnv H Vars)
    (oset : List H) (self : RuleLink H Vars) (hE : E.Returns) :
    ((∃ e, RuleLink.extract_variables E oset self = Except.error e)
        ↔ (oset = [] ∨ ∃ d, oset = [d] ∧ RuleLink.IsDeclaration E d))
      ∧ (∀ e, RuleLink.extract_variables E oset self = Except.error e →
          ∃ msg, e = Exn.SyntaxException msg)
      ∧ (oset = [] → RuleLink.extract_variables E oset self
          = Except.error (Exn.SyntaxException "Expecting a non-empty outgoing set"))
      ∧ ((∃ d, oset = [d] ∧ RuleLink.IsDeclaration E d) →
          RuleLink.extract_variables E oset self
            = Except.error (Exn.SyntaxException "Expecting a declaration of a body/premise!"))
      ∧ (¬ (oset = [] ∨ ∃ d, oset = [d] ∧ RuleLink.IsDeclaration E d) →
          ∃ out b, RuleLink.extract_variables E oset self = Except.ok out
            ∧ out._body = some b) := by
  rcases RuleLink.extract_variables_cases E oset self hE with
    ⟨h0, hr⟩ | ⟨⟨d, hd, hdecl⟩, hr⟩ | ⟨⟨hne, hnd⟩, out, b, hr, hb⟩
  · refine ⟨⟨fun _ => Or.inl h0, fun _ => ⟨_, hr⟩⟩, ?_, fun _ => hr, ?_, ?_⟩
    · intro e he
      rw [hr] at he
      cases he
      exact ⟨_, rfl⟩
    · rintro ⟨d, hd, _⟩
      rw [h0] at hd
      cases hd
    · intro hn
      exact absurd (Or.inl h0) hn
  · refine ⟨⟨fun _ => Or.inr ⟨d, hd, hdecl⟩, fun _ => ⟨_, hr⟩⟩, ?_, ?_, fun _ => hr, ?_⟩
    · intro e he
      rw [hr] at he
      cases he
      exact ⟨_, rfl⟩
    · intro h0
      rw [h0] at hd
      cases hd
    · intro hn
      exact absurd (Or.inr ⟨d, hd, hdecl⟩) hn
  · have hnot : ¬ (oset = [] ∨ ∃ d, oset = [d] ∧ RuleLink.IsDeclaration E d) := by
      rintro (h0 | h1)
      · exact hne h0
      · exact hnd h1
    refine ⟨⟨?_, fun h => absurd h hnot⟩, ?_, fun h0 => absurd h0 hne,
      fun h1 => absurd h1 hnd, fun _ => ⟨out, b, hr, hb⟩⟩
    · rintro ⟨e, he⟩
      rw [hr] at he
      cases he
    · intro e he
      rw [hr] at he
      cases he

/-- The outgoing sets `[]`, `[13]` (a declaration alone), `[20]` and `[13, 20]` in the
sample. -/
theorem RuleLink.extract_variables_raises_witness :
    (RuleLink.extract_variables RuleEnv.sample [] (RuleLink.fresh [])
        = Except.error (Exn.SyntaxException "Expecting a non-empty outgoing set")
      ∧ RuleLink.extract_variables RuleEnv.sample [13] (RuleLink.fresh [])
        = Except.error (Exn.SyntaxException "Expecting a declaration of a body/premise!")
      ∧ RuleLink.extract_variables RuleEnv.sample [20] (RuleLink.fresh [])
        = Except.ok { _vardecl := none, _body := some 20, _implicand := [],
                      _variables := [20] }
      ∧ RuleLink.extract_variables RuleEnv.sample [13, 20] (RuleLink.fresh [])
        = Except.ok { _vardecl := some 13, _body := some 20, _implicand := [],
                      _variables := [] })
      ∧ ((∃ e, RuleLink.extract_variables RuleEnv.sample [13] (RuleLink.fresh [])
            = Except.error e)
          ↔ (([13] : List Nat) = [] ∨ ∃ d, [13] = [d] ∧ RuleLink.IsDeclaration RuleEnv.sample d)) :=
  ⟨⟨rfl, rfl, rfl, rfl⟩,
    (RuleLink.extract_variables_raises RuleEnv.sample [13] (RuleLink.fresh [])
      ⟨fun _ _ => ⟨_, rfl⟩, fun _ _ => ⟨_, rfl⟩, fun _ _ => ⟨_, rfl⟩⟩).1⟩

/-! ## `RewriteMixin::propose_grounding` -/

/-- The method `insert_result` leaves the counter and the bound alone. -/
theorem RewriteMixin.insert_result_counter {H G V σ : Type} [DecidableEq V]
    (E : RewriteEnv H G V σ) (v : V) (self : RewriteMixin H V) (s : σ) :
    (RewriteMixin.insert_result E v self s).1._num_results = self._num_results
      ∧ (RewriteMixin.insert_result E v self s).1.max_results = self.max_results := by
  unfold RewriteMixin.insert_result
  by_cases h1 : v ∈ self._result_set
  · rw [if_pos h1]
    exact ⟨rfl, rfl⟩
  · rw [if_neg h1]
    by_cases h2 : (if E.is_atom v then E.add_atom v s else (v, s)).1 ∈ self._result_set
    · simp [h2]
    · simp [h2]

/-- The method `insert_result` adds at most one value to the result set, and none that the
set has already. -/
theorem RewriteMixin.insert_result_set {H G V σ : Type} [DecidableEq V]
    (E : RewriteEnv H G V σ) (v : V) (self : RewriteMixin H V) (s : σ) :
    (RewriteMixin.insert_result E v self s).1._result_set = self._result_set
      ∨ ∃ w, w ∉ self._result_set
          ∧ (RewriteMixin.insert_result E v self s).1._result_set = self._result_set ++ [w] := by
  unfold RewriteMixin.insert_result
  by_cases h1 : v ∈ self._result_set
  · rw [if_pos h1]
    exact Or.inl rfl
  · rw [if_neg h1]
    by_cases h2 : (if E.is_atom v then E.add_atom v s else (v, s)).1 ∈ self._result_set
    · simp [h2]
    · simp only [h2, if_false]
      exact Or.inr ⟨_, h2, rfl⟩

/-- The `try` block leaves the counter and the bound alone. -/
theorem RewriteMixin.try_block_counter {H G V σ : Type} [DecidableEq V]
    (E : RewriteEnv H G V σ) (var_soln : G) (self out : RewriteMixin H V) (s t : σ)
    (h : RewriteMixin.try_block E var_soln self s = Except.ok (out, t)) :
    out._num_results = self._num_results ∧ out.max_results = self.max_results := by
  have key : ∀ (r : RewriteMixin H V × σ),
      (r = (self, r.2) ∨ ∃ v u, r = RewriteMixin.insert_result E v self u) →
      r.1._num_results = self._num_results ∧ r.1.max_results = self.max_results := by
    rintro r (hr | ⟨v, u, hr⟩)
    · rw [hr]
      exact ⟨rfl, rfl⟩
    · rw [hr]
      exact RewriteMixin.insert_result_counter E v self u
  have hshape : (out, t) = (self, t) ∨ ∃ v u, (out, t) = RewriteMixin.insert_result E v self u := by
    unfold RewriteMixin.try_block at h
    split at h
    · split at h
      · exact Or.inr ⟨_, _, (Except.ok.inj h).symm⟩
      · cases h
        exact Or.inl rfl
      · cases h
        exact Or.inl rfl
      · cases h
    · split at h
      · exact Or.inr ⟨_, _, (Except.ok.inj h).symm⟩
      · cases h
        exact Or.inl rfl
      · cases h
  exact key (out, t) hshape

/-- What `propose_grounding` returns: `true` exactly when the counter `_num_results`, which
every proposal below the bound increments, has reached `max_results`. -/
theorem RewriteMixin.propose_grounding_returns {H G V σ : Type} [DecidableEq V]
    (E : RewriteEnv H G V σ) (var_soln : G) (self out : RewriteMixin H V) (s t : σ) (b : Bool)
    (h : RewriteMixin.propose_grounding E var_soln self s = Except.ok (b, out, t)) :
    out.max_results = self.max_results
      ∧ out._num_results
        = (if self._num_results ≥ self.max_results then self._num_results
           else self._num_results + 1)
      ∧ (b = true ↔ self._num_results + 1 ≥ self.max_results) := by
  unfold RewriteMixin.propose_grounding at h
  by_cases hge : self._num_results ≥ self.max_results
  · rw [if_pos hge] at h
    cases h
    refine ⟨rfl, by rw [if_pos hge], ?_⟩
    simp only [true_iff]
    exact Nat.le_succ_of_le hge
  · rw [if_neg hge] at h
    simp only at h
    split at h
    · cases h
    · rename_i self2 s2 htry
      cases h
      obtain ⟨hn, hm⟩ := RewriteMixin.try_block_counter E var_soln _ _ _ _ htry
      refine ⟨hm, by rw [if_neg hge, hn], ?_⟩
      rw [hn, hm]
      simp

/-- C27, as stated, fails.  With `max_results` 2 and one implicand that the groundings 10
and 20 instantiate to the same value 5, the first proposal returns false and the second, a
repeated solution that `insert_result` skips, returns true: the search is stopped with one
unique result recorded, fewer than `max_results`. -/
theorem RewriteMixin.propose_grounding_counts_repeats :
    RewriteMixin.propose_grounding RewriteEnv.sample 10
        { (RewriteMixin.ctor : RewriteMixin Nat Nat) with _implicand := [5], max_results := 2 } []
      = Except.ok (false, { _implicand := [5], _num_results := 1, max_results := 2,
                            _result_set := [5], _result_queue := [5] }, [5])
    ∧ RewriteMixin.propose_grounding RewriteEnv.sample 20
        { _implicand := [5], _num_results := 1, max_results := 2, _result_set := [5],
          _result_queue := [5] } [5]
      = Except.ok (true, { _implicand := [5], _num_results := 2, max_results := 2,
                           _result_set := [5], _result_queue := [5] }, [5, 5])
    ∧ ([5] : List Nat).length < 2 :=
  ⟨rfl, rfl, by decide⟩

/-! ## `TransposeColumn::do_value_loop` -/

/-- A loop over the columns `i` to `i + k - 1` replaces each of them by what the body
makes of it, and leaves the others alone. -/
theorem TransposeColumn.column_loop_spec {D : Type} (push : Nat → Value D → Option (Value D)) :
    ∀ (k i : Nat) (vcols : List (Value D)),
      (∀ j, i ≤ j → j < i + k → ∃ c c1, vcols[j]? = some c ∧ push j c = some c1) →
      ∃ out, TransposeColumn.column_loop push k i vcols = some out
        ∧ ∀ j, out[j]? = if i ≤ j ∧ j < i + k then (vcols[j]?).bind (push j) else vcols[j]? := by
  intro k
  induction k with
  | zero =>
    intro i vcols _
    refine ⟨vcols, rfl, ?_⟩
    intro j
    have hf : ¬ (i ≤ j ∧ j < i + 0) := by omega
    rw [if_neg hf]
  | succ k ih =>
    intro i vcols h
    obtain ⟨c, c1, hc, hp⟩ := h i (Nat.le_refl i) (by omega)
    have hlt : i < vcols.length := by
      rcases List.getElem?_eq_some.mp hc with ⟨hi, _⟩
      exact hi
    have hnext : ∀ j, i + 1 ≤ j → j < i + 1 + k →
        ∃ d d1, (vcols.set i c1)[j]? = some d ∧ push j d = some d1 := by
      intro j h1 h2
      obtain ⟨d, d1, hd, hq⟩ := h j (by omega) (by omega)
      refine ⟨d, d1, ?_, hq⟩
      rw [List.getElem?_set_ne (by omega)]
      exact hd
    obtain ⟨out, hout, hget⟩ := ih (i + 1) (vcols.set i c1) hnext
    refine ⟨out, ?_, ?_⟩
    · simp only [TransposeColumn.column_loop, hc, hp]
      exact hout
    · intro j
      rw [hget j]
      by_cases hji : j = i
      · subst hji
        have h1 : ¬ (j + 1 ≤ j ∧ j < j + 1 + k) := by omega
        have h2 : j ≤ j ∧ j < j + (k + 1) := by omega
        rw [if_neg h1, if_pos h2, List.getElem?_set_self hlt, hc]
        exact hp.symm
      · have hne : i ≠ j := fun e => hji e.symm
        rw [List.getElem?_set_ne hne]
        by_cases hc2 : i + 1 ≤ j ∧ j < i + 1 + k
        · have h2 : i ≤ j ∧ j < i + (k + 1) := by omega
          rw [if_pos hc2, if_pos h2]
        · have h2 : ¬ (i ≤ j ∧ j < i + (k + 1)) := by omega
          rw [if_neg hc2, if_neg h2]

/-- The elements `i` of rows that all have one: there are as many as rows, and the one at
`j` is the element `i` of row `j`. -/
theorem TransposeColumn.filterMap_getElem {D : Type} (i : Nat) :
    ∀ (rows : List (List D)), (∀ r ∈ rows, i < r.length) →
      (rows.filterMap (fun r => r[i]?)).length = rows.length
        ∧ ∀ j : Nat, (rows.filterMap (fun r => r[i]?))[j]?
            = (rows[j]?).bind (fun (r : List D) => r[i]?) := by
  intro rows
  induction rows with
  | nil =>
    intro _
    exact ⟨rfl, fun j => by simp⟩
  | cons r rs ih =>
    intro h
    have hr : i < r.length := h r (List.mem_cons_self _ _)
    obtain ⟨hl, hg⟩ := ih (fun x hx => h x (List.mem_cons_of_mem _ hx))
    have hsome : r[i]? = some (r.get ⟨i, hr⟩) := List.getElem?_eq_getElem hr
    have hcons : (r :: rs).filterMap (fun r => r[i]?)
        = r.get ⟨i, hr⟩ :: rs.filterMap (fun r => r[i]?) := by
      rw [List.filterMap_cons, hsome]
    rw [hcons]
    refine ⟨by rw [List.length_cons, hl, List.length_cons], ?_⟩
    intro j
    cases j with
    | zero => simp [hsome]
    | succ j => simpa using hg j

/-- The column at `j` of the columns of a transposition. -/
theorem TransposeColumn.columns_of_getElem {D : Type} (FV : AtomType) (n : Nat)
    (rows : List (List D)) (j : Nat) :
    (TransposeColumn.columns_of FV n rows)[j]?
      = if j < n then some (Value.FloatValue FV (rows.filterMap (fun r => r[j]?))) else none := by
  unfold TransposeColumn.columns_of
  rw [List.getElem?_map]
  by_cases hj : j < n
  · rw [if_pos hj, List.getElem?_range hj]
    rfl
  · rw [if_neg hj, List.getElem?_eq_none (by simpa using Nat.le_of_not_lt hj)]
    rfl

/-- The columns that the first row makes are the columns of the transposition of that
row. -/
theorem TransposeColumn.first_row_columns {D σ : Type} (E : TransposeEnv D σ)
    (first : List D) :
    first.map E.createFloatValue
      = TransposeColumn.columns_of E.FLOAT_VALUE first.length [first] := by
  apply List.ext_getElem?
  intro j
  rw [TransposeColumn.columns_of_getElem, List.getElem?_map]
  by_cases hj : j < first.length
  · rw [if_pos hj, List.getElem?_eq_getElem hj]
    simp [TransposeEnv.createFloatValue, List.getElem?_eq_getElem hj]
  · rw [if_neg hj, List.getElem?_eq_none (Nat.le_of_not_lt hj)]
    rfl

/-- A later row of numbers that is long enough adds its element `i` to column `i`. -/
theorem TransposeColumn.float_row_step {D : Type} (FV : AtomType) (n : Nat)
    (done : List (List D)) (vals : List D) (h : n ≤ vals.length) :
    TransposeColumn.column_loop (fun i c => (vals[i]?).bind c.push_float) n 0
        (TransposeColumn.columns_of FV n done)
      = some (TransposeColumn.columns_of FV n (done ++ [vals])) := by
  have hyp : ∀ j, 0 ≤ j → j < 0 + n → ∃ c c1,
      (TransposeColumn.columns_of FV n done)[j]? = some c
        ∧ (vals[j]?).bind c.push_float = some c1 := by
    intro j _ hj
    have hj2 : j < n := by omega
    have hv : j < vals.length := Nat.lt_of_lt_of_le hj2 h
    refine ⟨Value.FloatValue FV (done.filterMap (fun r => r[j]?)),
      Value.FloatValue FV (done.filterMap (fun r => r[j]?) ++ [vals.get ⟨j, hv⟩]), ?_, ?_⟩
    · rw [TransposeColumn.columns_of_getElem, if_pos hj2]
    · rw [List.getElem?_eq_getElem hv]
      rfl
  obtain ⟨out, hout, hget⟩ := TransposeColumn.column_loop_spec _ n 0 _ hyp
  rw [hout]
  congr 1
  apply List.ext_getElem?
  intro j
  rw [hget j, TransposeColumn.columns_of_getElem, TransposeColumn.columns_of_getElem]
  by_cases hj : j < n
  · have hv : j < vals.length := Nat.lt_of_lt_of_le hj h
    have hc : 0 ≤ j ∧ j < 0 + n := by omega
    rw [if_pos hc, if_pos hj, if_pos hj]
    simp [List.filterMap_append, List.getElem?_eq_getElem hv, Value.push_float]
  · have hc : ¬ (0 ≤ j ∧ j < 0 + n) := by omega
    rw [if_neg hc, if_neg hj, if_neg hj]

/-- A later row of numbers, after `done`: the exception of `CHKSZ` when it is short,
otherwise the columns with the row added. -/
theorem TransposeColumn.later_row_floats {D : Type} (FV t : AtomType) (n : Nat)
    (done : List (List D)) (vals : List D) :
    TransposeColumn.later_row (Value.FloatValue t vals) n (TransposeColumn.columns_of FV n done)
      = if vals.length < n then
          some (Except.error (Exn.RuntimeException (TransposeColumn.short_row vals.length n)))
        else some (Except.ok (TransposeColumn.columns_of FV n (done ++ [vals]))) := by
  simp only [TransposeColumn.later_row, TransposeColumn.checked_loop]
  by_cases h : vals.length < n
  · rw [if_pos h, if_pos h]
  · rw [if_neg h, if_neg h, TransposeColumn.float_row_step FV n done vals (Nat.le_of_not_lt h)]
    rfl

/-- One round of the loop of `do_value_loop` on a later row of numbers. -/
theorem TransposeColumn.value_loop_floats_cons {D σ : Type} (E : TransposeEnv D σ)
    (t : AtomType) (n : Nat) (hn : 0 < n) (done : List (List D)) (vals : List D)
    (rest : List (Value D)) (s : σ) :
    TransposeColumn.value_loop E (Value.FloatValue t vals :: rest) n
        (TransposeColumn.columns_of E.FLOAT_VALUE n done) s
      = if vals.length < n then
          (some (Except.error (Exn.RuntimeException (TransposeColumn.short_row vals.length n))),
            s)
        else TransposeColumn.value_loop E rest n
          (TransposeColumn.columns_of E.FLOAT_VALUE n (done ++ [vals])) s := by
  have h0 : ¬ (0 = n) := by omega
  simp only [TransposeColumn.value_loop, Value.is_atom, Bool.false_and, if_neg h0,
    Bool.false_eq_true, if_false]
  rw [TransposeColumn.later_row_floats]
  by_cases h : vals.length < n
  · rw [if_pos h, if_pos h]
  · rw [if_neg h, if_neg h]

/-- The loop of `do_value_loop` on later rows of numbers that are all long enough. -/
theorem TransposeColumn.value_loop_floats {D σ : Type} (E : TransposeEnv D σ)
    (t : AtomType) (n : Nat) (hn : 0 < n) (s : σ) :
    ∀ (rest done : List (List D)), (∀ r ∈ rest, n ≤ r.length) →
      TransposeColumn.value_loop E (rest.map (Value.FloatValue t)) n
          (TransposeColumn.columns_of E.FLOAT_VALUE n done) s
        = (some (Except.ok (TransposeColumn.columns_of E.FLOAT_VALUE n (done ++ rest))), s) := by
  intro rest
  induction rest with
  | nil =>
    intro done _
    simp [TransposeColumn.value_loop]
  | cons r rs ih =>
    intro done h
    have hr : ¬ r.length < n := Nat.not_lt.mpr (h r (List.mem_cons_self _ _))
    rw [List.map_cons, TransposeColumn.value_loop_floats_cons E t n hn, if_neg hr,
      ih (done ++ [r]) (fun x hx => h x (List.mem_cons_of_mem _ hx))]
    simp

/-- The loop of `do_value_loop` on later rows of numbers the first short one of which is
`r`. -/
theorem TransposeColumn.value_loop_short {D σ : Type} (E : TransposeEnv D σ)
    (t : AtomType) (n : Nat) (hn : 0 < n) (s : σ) (r : List D) (post : List (List D))
    (hr : r.length < n) :
    ∀ (pre done : List (List D)), (∀ p ∈ pre, n ≤ p.length) →
      TransposeColumn.value_loop E ((pre ++ r :: post).map (Value.FloatValue t)) n
          (TransposeColumn.columns_of E.FLOAT_VALUE n done) s
        = (some (Except.error (Exn.RuntimeException (TransposeColumn.short_row r.length n))),
            s) := by
  intro pre
  induction pre with
  | nil =>
    intro done _
    rw [List.nil_append, List.map_cons, TransposeColumn.value_loop_floats_cons E t n hn,
      if_pos hr]
  | cons p ps ih =>
    intro done h
    have hp : ¬ p.length < n := Nat.not_lt.mpr (h p (List.mem_cons_self _ _))
    rw [List.cons_append, List.map_cons, TransposeColumn.value_loop_floats_cons E t n hn,
      if_neg hp, ih (done ++ [p]) (fun x hx => h x (List.mem_cons_of_mem _ hx))]

/-- The first round of the loop of `do_value_loop` on a row of numbers. -/
theorem TransposeColumn.value_loop_first {D σ : Type} (E : TransposeEnv D σ)
    (t : AtomType) (first : List D) (rest : List (Value D)) (s : σ) :
    TransposeColumn.value_loop E (Value.FloatValue t first :: rest) 0 [] s
      = TransposeColumn.value_loop E rest first.length
          (TransposeColumn.columns_of E.FLOAT_VALUE first.length [first]) s := by
  simp only [TransposeColumn.value_loop, Value.is_atom, Bool.false_and,
    TransposeColumn.first_row, List.nil_append, TransposeColumn.first_row_columns]
  simp [Value.size]

/-- Rows of numbers of the type `t` pass the test of the types in `do_value_loop`. -/
theorem TransposeColumn.same_type_floats {D : Type} (t : AtomType) (rows : List (List D)) :
    (rows.map (Value.FloatValue t)).any (fun vp => decide (vp.get_type ≠ t)) = false := by
  simp [Value.get_type]

/-- The first short row among rows some of which are short. -/
theorem TransposeColumn.first_short {D : Type} (n : Nat) :
    ∀ (rest : List (List D)), (∃ r ∈ rest, r.length < n) →
      ∃ pre r post, rest = pre ++ r :: post ∧ (∀ p ∈ pre, n ≤ p.length) ∧ r.length < n := by
  intro rest
  induction rest with
  | nil =>
    rintro ⟨r, hr, _⟩
    cases hr
  | cons x xs ih =>
    intro h
    by_cases hx : x.length < n
    · exact ⟨[], x, xs, rfl, fun p hp => absurd hp (List.not_mem_nil p), hx⟩
    · have h2 : ∃ r ∈ xs, r.length < n := by
        obtain ⟨r, hr, hlt⟩ := h
        rcases List.mem_cons.mp hr with h1 | h1
        · rw [h1] at hlt
          exact absurd hlt hx
        · exact ⟨r, h1, hlt⟩
      obtain ⟨pre, r, post, he, hpre, hr⟩ := ih h2
      refine ⟨x :: pre, r, post, by rw [he, List.cons_append], ?_, hr⟩
      intro p hp
      rcases List.mem_cons.mp hp with h1 | h1
      · rw [h1]
        exact Nat.le_of_not_lt hx
      · exact hpre p h1

/-- On rows of numbers of one type, `do_value_loop` is its main loop. -/
theorem TransposeColumn.do_value_loop_floats {D σ : Type} (E : TransposeEnv D σ)
    (t : AtomType) (first : List D) (rest : List (List D)) (s : σ) :
    TransposeColumn.do_value_loop E ((first :: rest).map (Value.FloatValue t)) s
      = ((TransposeColumn.value_loop E (rest.map (Value.FloatValue t)) first.length
            (TransposeColumn.columns_of E.FLOAT_VALUE first.length [first]) s).1.map
          (Except.map E.createLinkValue),
         (TransposeColumn.value_loop E (rest.map (Value.FloatValue t)) first.length
            (TransposeColumn.columns_of E.FLOAT_VALUE first.length [first]) s).2) := by
  have hty : (Value.FloatValue t first :: rest.map (Value.FloatValue t)).any
      (fun vp => decide (vp.get_type ≠ (Value.FloatValue t first).get_type)) = false := by
    have h := TransposeColumn.same_type_floats t (first :: rest)
    rw [List.map_cons] at h
    exact h
  rw [List.map_cons]
  simp only [TransposeColumn.do_value_loop, hty, Bool.false_eq_true, if_false,
    TransposeColumn.value_loop_first]

/-- On rows of numbers that are all as long as the first, which is not empty,
`do_value_loop` returns the columns of the transposition. -/
theorem TransposeColumn.do_value_loop_floats_ok {D σ : Type} (E : TransposeEnv D σ)
    (t : AtomType) (first : List D) (rest : List (List D)) (s : σ)
    (hn : 0 < first.length) (hlen : ∀ r ∈ rest, first.length ≤ r.length) :
    TransposeColumn.do_value_loop E ((first :: rest).map (Value.FloatValue t)) s
      = (some (Except.ok (Value.LinkValue E.LINK_VALUE
          (TransposeColumn.columns_of E.FLOAT_VALUE first.length (first :: rest)))), s) := by
  rw [TransposeColumn.do_value_loop_floats,
    TransposeColumn.value_loop_floats E t first.length hn s rest [first] hlen]
  rfl

/-- On rows of numbers the first short one of which is `r`, `do_value_loop` throws the
exception of `CHKSZ` for `r`. -/
theorem TransposeColumn.do_value_loop_floats_short {D σ : Type} (E : TransposeEnv D σ)
    (t : AtomType) (first : List D) (pre : List (List D)) (r : List D) (post : List (List D))
    (s : σ) (hn : 0 < first.length) (hpre : ∀ p ∈ pre, first.length ≤ p.length)
    (hr : r.length < first.length) :
    TransposeColumn.do_value_loop E ((first :: (pre ++ r :: post)).map (Value.FloatValue t)) s
      = (some (Except.error (Exn.RuntimeException
          (TransposeColumn.short_row r.length first.length))), s) := by
  rw [TransposeColumn.do_value_loop_floats,
    TransposeColumn.value_loop_short E t first.length hn s r post hr pre [first] hpre]
  rfl

/-- The columns of a transposition do not depend on what the rows hold from position `n`
on. -/
theorem TransposeColumn.columns_of_take {D : Type} (FV : AtomType) (n : Nat)
    (rows : List (List D)) :
    TransposeColumn.columns_of FV n (rows.map (List.take n))
      = TransposeColumn.columns_of FV n rows := by
  apply List.ext_getElem?
  intro j
  rw [TransposeColumn.columns_of_getElem, TransposeColumn.columns_of_getElem]
  by_cases hj : j < n
  · rw [if_pos hj, if_pos hj, List.filterMap_map]
    congr 2
    apply List.filterMap_congr
    intro r _
    simp [List.getElem?_take, hj]
  · rw [if_neg hj, if_neg hj]

/-- C24: for `m >= 1` rows that are `FloatValue`s of one type, the first with `n >= 1`
elements and every one with at least `n`, `do_value_loop` returns a `LinkValue` of `n`
columns; column `i` is a `FloatValue` of length `m`, and its element `j` is element `i` of
row `j`.  The state is left as it was. -/
theorem TransposeColumn.do_value_loop_transposes {D σ : Type} (E : TransposeEnv D σ)
    (t : AtomType) (first : List D) (rest : List (List D)) (s : σ)
    (hn : 1 ≤ first.length) (hlen : ∀ r ∈ rest, first.length ≤ r.length) :
    ∃ cols, TransposeColumn.do_value_loop E ((first :: rest).map (Value.FloatValue t)) s
        = (some (Except.ok (Value.LinkValue E.LINK_VALUE cols)), s)
      ∧ cols.length = first.length
      ∧ ∀ i, i < first.length →
          ∃ col, cols[i]? = some (Value.FloatValue E.FLOAT_VALUE col)
            ∧ col.length = (first :: rest).length
            ∧ ∀ j : Nat, j < (first :: rest).length →
                col[j]? = ((first :: rest)[j]?).bind (fun (r : List D) => r[i]?) := by
  refine ⟨TransposeColumn.columns_of E.FLOAT_VALUE first.length (first :: rest),
    TransposeColumn.do_value_loop_floats_ok E t first rest s hn hlen, ?_, ?_⟩
  · simp [TransposeColumn.columns_of]
  · intro i hi
    have hall : ∀ r ∈ first :: rest, i < r.length := by
      intro r hr
      rcases List.mem_cons.mp hr with h1 | h1
      · rw [h1]
        exact hi
      · exact Nat.lt_of_lt_of_le hi (hlen r h1)
    obtain ⟨hl, hg⟩ := TransposeColumn.filterMap_getElem i (first :: rest) hall
    refine ⟨(first :: rest).filterMap (fun r => r[i]?), ?_, hl, fun j _ => hg j⟩
    rw [TransposeColumn.columns_of_getElem, if_pos hi]

/-- The rows `[1, 2]`, `[3, 4, 9]` and `[5, 6]` in the sample. -/
theorem TransposeColumn.do_value_loop_transposes_witness :
    TransposeColumn.do_value_loop TransposeEnv.sample
        [Value.FloatValue 1 [1, 2], Value.FloatValue 1 [3, 4, 9], Value.FloatValue 1 [5, 6]] ()
      = (some (Except.ok (Value.LinkValue 2
          [Value.FloatValue 1 [1, 3, 5], Value.FloatValue 1 [2, 4, 6]])), ())
    ∧ ∃ cols, TransposeColumn.do_value_loop TransposeEnv.sample
          (([1, 2] :: [[3, 4, 9], [5, 6]]).map (Value.FloatValue 1)) ()
        = (some (Except.ok (Value.LinkValue TransposeEnv.sample.LINK_VALUE cols)), ())
      ∧ cols.length = [1, 2].length
      ∧ ∀ i, i < [1, 2].length →
          ∃ col, cols[i]? = some (Value.FloatValue TransposeEnv.sample.FLOAT_VALUE col)
            ∧ col.length = ([1, 2] :: [[3, 4, 9], [5, 6]]).length
            ∧ ∀ j : Nat, j < ([1, 2] :: [[3, 4, 9], [5, 6]]).length →
                col[j]? = (([1, 2] :: [[3, 4, 9], [5, 6]])[j]?).bind
                  (fun (r : List Nat) => r[i]?) :=
  ⟨rfl, TransposeColumn.do_value_loop_transposes TransposeEnv.sample 1 [1, 2]
    [[3, 4, 9], [5, 6]] () (by decide) (by decide)⟩

/-- C25, as stated, fails.  The rows are two `FloatValue`s of one type, the first of them
empty: its size is 0, and `do_value_loop` returns two columns, those of the second row.
On the same rows `do_direct_loop` returns no column. -/
theorem TransposeColumn.empty_first_row_columns :
    TransposeColumn.do_value_loop TransposeEnv.sample
        [Value.FloatValue 1 [], Value.FloatValue 1 [3, 4]] ()
      = (some (Except.ok (Value.LinkValue 2 [Value.FloatValue 1 [3], Value.FloatValue 1 [4]])),
          ())
    ∧ (Value.FloatValue 1 ([] : List Nat)).size = 0
    ∧ TransposeColumn.do_direct_loop TransposeEnv.sample
        [Value.FloatValue 1 [], Value.FloatValue 1 [3, 4]]
      = some (Except.ok (Value.LinkValue 2 [])) :=
  ⟨rfl, rfl, rfl⟩

/-- C26: for rows that are `FloatValue`s of one type, the first with `n >= 1` elements,
`do_value_loop` throws exactly when some later row has fewer than `n` elements, and what it
throws is the `RuntimeException` "Short row!" for the first such row.  When no later row
is short, it returns a value, the same as for the rows cut down to their first `n`
elements. -/
theorem TransposeColumn.do_value_loop_short_row {D σ : Type} (E : TransposeEnv D σ)
    (t : AtomType) (first : List D) (rest : List (List D)) (s : σ)
    (hn : 1 ≤ first.length) :
    ((∃ e, (TransposeColumn.do_value_loop E ((first :: rest).map (Value.FloatValue t)) s).1
          = some (Except.error e))
        ↔ ∃ r ∈ rest, r.length < first.length)
      ∧ (∀ e, (TransposeColumn.do_value_loop E ((first :: rest).map (Value.FloatValue t)) s).1
          = some (Except.error e) →
          ∃ r ∈ rest, r.length < first.length
            ∧ e = Exn.RuntimeException (TransposeColumn.short_row r.length first.length))
      ∧ ((∀ r ∈ rest, first.length ≤ r.length) →
          (∃ v, TransposeColumn.do_value_loop E ((first :: rest).map (Value.FloatValue t)) s
            = (some (Except.ok v), s))
          ∧ TransposeColumn.do_value_loop E ((first :: rest).map (Value.FloatValue t)) s
            = TransposeColumn.do_value_loop E
                ((first :: rest.map (List.take first.length)).map (Value.FloatValue t)) s) := by
  have hok : (∀ r ∈ rest, first.length ≤ r.length) →
      TransposeColumn.do_value_loop E ((first :: rest).map (Value.FloatValue t)) s
        = (some (Except.ok (Value.LinkValue E.LINK_VALUE
            (TransposeColumn.columns_of E.FLOAT_VALUE first.length (first :: rest)))), s) :=
    TransposeColumn.do_value_loop_floats_ok E t first rest s hn
  have hshort : (∃ r ∈ rest, r.length < first.length) →
      ∃ r ∈ rest, r.length < first.length
        ∧ TransposeColumn.do_value_loop E ((first :: rest).map (Value.FloatValue t)) s
          = (some (Except.error (Exn.RuntimeException
              (TransposeColumn.short_row r.length first.length))), s) := by
    intro h
    obtain ⟨pre, r, post, he, hpre, hr⟩ := TransposeColumn.first_short first.length rest h
    refine ⟨r, ?_, hr, ?_⟩
    · rw [he]
      simp
    · rw [he]
      exact TransposeColumn.do_value_loop_floats_short E t first pre r post s hn hpre hr
  have hdich : (∃ r ∈ rest, r.length < first.length) ∨ ∀ r ∈ rest, first.length ≤ r.length := by
    by_cases h : ∃ r ∈ rest, r.length < first.length
    · exact Or.inl h
    · right
      intro r hr
      exact Nat.le_of_not_lt (fun hlt => h ⟨r, hr, hlt⟩)
  refine ⟨⟨?_, ?_⟩, ?_, ?_⟩
  · rintro ⟨e, he⟩
    rcases hdich with h | h
    · exact h
    · rw [hok h] at he
      cases he
  · intro h
    obtain ⟨r, _, _, hres⟩ := hshort h
    exact ⟨_, by rw [hres]⟩
  · intro e he
    rcases hdich with h | h
    · obtain ⟨r, hr, hlt, hres⟩ := hshort h
      rw [hres] at he
      cases he
      exact ⟨r, hr, hlt, rfl⟩
    · rw [hok h] at he
      cases he
  · intro h
    refine ⟨⟨_, hok h⟩, ?_⟩
    have hfirst : first :: rest.map (List.take first.length)
        = (first :: rest).map (List.take first.length) := by
      rw [List.map_cons, List.take_length]
    have hlen2 : ∀ r ∈ rest.map (List.take first.length), first.length ≤ r.length := by
      intro r hr
      obtain ⟨x, hx, hxr⟩ := List.mem_map.mp hr
      rw [← hxr, List.length_take]
      exact Nat.le_min.mpr ⟨Nat.le_refl _, h x hx⟩
    rw [hok h, TransposeColumn.do_value_loop_floats_ok E t first _ s hn hlen2, hfirst,
      TransposeColumn.columns_of_take]

/-- The rows `[1, 2]`, `[3, 4]` and `[5]`, the last of them short, and the rows `[1, 2]` and
`[3, 4, 9]`, in the sample. -/
theorem TransposeColumn.do_value_loop_short_row_witness :
    (TransposeColumn.do_value_loop TransposeEnv.sample
        [Value.FloatValue 1 [1, 2], Value.FloatValue 1 [3, 4], Value.FloatValue 1 [5]] ()
      = (some (Except.error (Exn.RuntimeException "Short row! Got 1 want 2\n")), ())
    ∧ TransposeColumn.do_value_loop TransposeEnv.sample
        [Value.FloatValue 1 [1, 2], Value.FloatValue 1 [3, 4, 9]] ()
      = (some (Except.ok (Value.LinkValue 2
          [Value.FloatValue 1 [1, 3], Value.FloatValue 1 [2, 4]])), ()))
    ∧ ((∃ e, (TransposeColumn.do_value_loop TransposeEnv.sample
          (([1, 2] :: [[3, 4], [5]]).map (Value.FloatValue 1)) ()).1 = some (Except.error e))
        ↔ ∃ r ∈ [[3, 4], [5]], r.length < [1, 2].length) :=
  ⟨⟨rfl, rfl⟩,
    (TransposeColumn.do_value_loop_short_row TransposeEnv.sample 1 [1, 2] [[3, 4], [5]] ()
      (by decide)).1⟩

end opencog
